import Mathlib

/-!
# EV3Basic native helper (`native/nativecode.c`): table lookup

A shallow embedding of `tablelookup`, `processcommand` and `main` from
`src/native/nativecode.c`, together with the parts of the C library and the
operating system they call (`sscanf`, `strstr`, `strcpy`, `strcat`, `fgets`,
`printf`, `open`, `lseek`, `read`, `close`).

Conventions of the embedding:

* a C string is the `List Char` of its characters before the terminating NUL;
* `int` values are `Int`, `unsigned long` values are `Nat` reduced modulo
  `2 ^ abi.ulongBits`;
* a `float` is an `F32`: a finite dyadic value, an infinity or a NaN; decimal
  and hexadecimal text is rounded to the nearest binary32 value, ties to even;
* the file system, the descriptor table and the list of system calls issued so
  far form the explicit state `World`;
* writing past `filename[1000]` or `buffer[1000]`, which C leaves undefined,
  is the result `none`; the conversion of a float outside the range of
  `unsigned long`, undefined in ISO C as well, yields the value the
  implementation gives (`ABI.castUndefined`) and the program goes on.
-/

set_option maxRecDepth 100000

namespace EV3Native

/-! ## Single-precision floats -/

/-- The values a `float` variable can hold. `finite neg m e` is
`(-1)^neg * m * 2^e`. -/
inductive F32 where
  | finite (neg : Bool) (m : Nat) (e : Int)
  | inf (neg : Bool)
  | nan
  deriving DecidableEq, Repr

/-! ## Implementation parameters of the C translation unit -/

/-- What of the implementation the source depends on: the width of
`unsigned long`, whether plain `char` is a signed type, and the value that the
conversion `(unsigned long int) x` yields for a float whose integral part is
not a value of `unsigned long` (a NaN, an infinity, a value of `2^ulongBits`
or more). ISO C leaves that conversion undefined; the machine instruction or
library routine that carries it out yields some value and the program goes
on. `castUndefined` is given the float with its fractional part discarded;
only its value reduced modulo `2^ulongBits` is used. -/
structure ABI where
  ulongBits : Nat
  charSigned : Bool
  castUndefined : F32 → Nat

/-- The EV3 brick: 32-bit ARM Linux (EABI), 32-bit `unsigned long`, plain
`char` unsigned; the conversion routine saturates (`2^32 - 1` above the range,
0 below it and for a NaN). -/
def ev3 : ABI :=
  { ulongBits := 32, charSigned := false,
    castUndefined := fun x =>
      match x with
      | F32.finite false _ _ => 4294967295
      | F32.inf false => 4294967295
      | _ => 0 }

/-- A 64-bit x86 Linux host (LP64): 64-bit `unsigned long`, plain `char`
signed; the conversion as gcc compiles it with `cvttss2si`: a value that is
too large gives 0, a NaN gives `2^63` (the "integer indefinite"), a negative
value down to `-2^63` its two's complement and one below that `2^63`. -/
def lp64 : ABI :=
  { ulongBits := 64, charSigned := true,
    castUndefined := fun x =>
      match x with
      | F32.nan => 9223372036854775808
      | F32.inf true => 9223372036854775808
      | F32.finite true m e =>
        if 0 ≤ e ∧ m * 2 ^ e.toNat ≤ 9223372036854775808
        then 18446744073709551616 - m * 2 ^ e.toNat else 9223372036854775808
      | _ => 0 }

/-- The constant of `#define MAXSEEK 2147483647`. -/
def MAXSEEK : Nat := 2147483647

/-! ## Rounding, comparison and conversion of floats -/

/-- Number of binary digits of `n` (0 for 0), by halving with fuel `fuel`. -/
def bitlenAux : Nat → Nat → Nat
  | 0, _ => 0
  | fuel + 1, n => if n = 0 then 0 else bitlenAux fuel (n / 2) + 1

/-- Number of binary digits of `n`: `2^(bitlen n - 1) ≤ n < 2^(bitlen n)` for
`n > 0`. -/
def bitlen (n : Nat) : Nat := bitlenAux n n

/-- The exponent `e` with `2^e ≤ num/den < 2^(e+1)`, for `num, den > 0`. -/
def floorLog2 (num den : Nat) : Int :=
  let e0 : Int := (bitlen num : Int) - (bitlen den : Int)
  if 0 ≤ e0 then
    (if den * 2 ^ e0.toNat ≤ num then e0 else e0 - 1)
  else
    (if den ≤ num * 2 ^ (-e0).toNat then e0 else e0 - 1)

/-- Round the non-negative rational `num/den` to the nearest binary32 value,
ties to even: 24 significant bits, least exponent `-126` (below it the spacing
stays `2^-149`); a rounded value of `2^128` or more is an infinity. The sign
is `neg`. -/
def roundF32 (neg : Bool) (num den : Nat) : F32 :=
  if num = 0 ∨ den = 0 then F32.finite neg 0 0
  else
    let e : Int := max (floorLog2 num den) (-126)
    let s : Int := e - 23
    let n2 : Nat := if 0 ≤ s then num else num * 2 ^ (-s).toNat
    let d2 : Nat := if 0 ≤ s then den * 2 ^ s.toNat else den
    let q := n2 / d2
    let r := n2 % d2
    let m := if 2 * r < d2 then q else if d2 < 2 * r then q + 1
             else if q % 2 = 0 then q else q + 1
    if 0 ≤ s ∧ 2 ^ 128 ≤ m * 2 ^ s.toNat then F32.inf neg
    else F32.finite neg m s

/-- The integer part of the magnitude of a finite value `m * 2^e`. -/
def truncMag (m : Nat) (e : Int) : Nat :=
  if 0 ≤ e then m * 2 ^ e.toNat else m / 2 ^ (-e).toNat

/-- The C comparison `x < k` of a float with the integer constant `k ≥ 0`
(converted to float exactly). Comparisons with a NaN are false. -/
def F32.ltNat (x : F32) (k : Nat) : Bool :=
  match x with
  | F32.nan => false
  | F32.inf neg => neg
  | F32.finite true m _ => decide (m ≠ 0 ∨ 0 < k)
  | F32.finite false m e =>
    if 0 ≤ e then decide (m * 2 ^ e.toNat < k) else decide (m < k * 2 ^ (-e).toNat)

/-- The C conversion `(unsigned long int) x` for an `unsigned long` of `w`
bits where ISO C defines it: the value truncated toward zero when that is in
`0 .. 2^w - 1`; `none` otherwise (NaN, infinities, values `≤ -1` or `≥ 2^w`). -/
def F32.toULong (w : Nat) (x : F32) : Option Nat :=
  match x with
  | F32.nan => none
  | F32.inf _ => none
  | F32.finite true m e => if truncMag m e = 0 then some 0 else none
  | F32.finite false m e => if truncMag m e < 2 ^ w then some (truncMag m e) else none

/-- Divide `m` by two and raise `e` by one for as long as `m` is even, at most
`fuel` times. -/
def stripTwos : Nat → Nat → Int → Nat × Int
  | 0, m, e => (m, e)
  | fuel + 1, m, e => if m % 2 = 0 then stripTwos fuel (m / 2) (e + 1) else (m, e)

/-- The one representation of the value of `x` with an odd `m` (or with
`m = 0` and `e = 0`): two floats have the same sign and value exactly when
their canonical forms are equal. -/
def F32.canon (x : F32) : F32 :=
  match x with
  | F32.finite neg m e =>
    if m = 0 then F32.finite neg 0 0
    else F32.finite neg (stripTwos m m e).1 (stripTwos m m e).2
  | y => y

/-- The float with its fractional part discarded (truncation toward zero).
Infinities and NaN are left as they are. -/
def F32.trunc (x : F32) : F32 :=
  match x with
  | F32.finite neg m e => F32.finite neg (truncMag m e) 0
  | y => y

/-- The conversion `(unsigned long int) x` as the program carries it out: the
value ISO C defines where it defines one, and otherwise the value the
implementation yields for the truncated float, as a value of `unsigned long`. -/
def castULong (abi : ABI) (x : F32) : Nat :=
  match x.toULong abi.ulongBits with
  | some n => n
  | none => abi.castUndefined x.trunc.canon % 2 ^ abi.ulongBits

/-! ## C strings and `sscanf` -/

/-- The C library `isspace` in the C locale. -/
def isspace (c : Char) : Bool :=
  c = ' ' || c = '\t' || c = '\n' || c = '\x0b' || c = '\x0c' || c = '\r'

/-- Drop leading white space, as every `scanf` conversion but `%c`, `%[` and
`%n` does, and as a white-space directive of the format does. -/
def skipws (s : List Char) : List Char := s.dropWhile isspace

/-- The value of a decimal digit character. -/
def digitVal (c : Char) : Option Nat :=
  if '0' ≤ c ∧ c ≤ '9' then some (c.toNat - '0'.toNat) else none

/-- The value of a hexadecimal digit character. -/
def hexVal (c : Char) : Option Nat :=
  if '0' ≤ c ∧ c ≤ '9' then some (c.toNat - '0'.toNat)
  else if 'a' ≤ c ∧ c ≤ 'f' then some (c.toNat - 'a'.toNat + 10)
  else if 'A' ≤ c ∧ c ≤ 'F' then some (c.toNat - 'A'.toNat + 10)
  else none

/-- Read the longest run of digits in base `base` (digit values by `val`),
continuing the value `acc` and the digit count `cnt`; returns the value, the
count and the unread input. -/
def readDigits (val : Char → Option Nat) (base : Nat) :
    List Char → Nat → Nat → Nat × Nat × List Char
  | [], acc, cnt => (acc, cnt, [])
  | c :: cs, acc, cnt =>
    match val c with
    | some d => readDigits val base cs (acc * base + d) (cnt + 1)
    | none => (acc, cnt, c :: cs)

/-- An optional sign: whether it is `-`, and the unread input. -/
def readSign : List Char → Bool × List Char
  | [] => (false, [])
  | c :: cs =>
    if c = '-' then (true, cs) else if c = '+' then (false, cs) else (false, c :: cs)

/-- ASCII lower-casing of a letter, as `tolower` in the C locale. -/
def lower (c : Char) : Char :=
  if 'A' ≤ c ∧ c ≤ 'Z' then Char.ofNat (c.toNat + 32) else c

/-- How many leading characters of the input agree, ignoring case, with the
lower-case word `word`. -/
def matchWord : List Char → List Char → Nat
  | w :: ws, c :: cs => if lower c = w then matchWord ws cs + 1 else 0
  | _, _ => 0

/-- The exponent part of a floating constant after its marker (`e` or `p`),
as the `scanf` of the GNU C library collects it: an optional sign and the
decimal digits that follow; all of them are consumed. When no digit follows,
the marker and the sign are consumed all the same and `strtof` converts the
mantissa alone, which is the exponent 0 here. -/
def readExponent (s : List Char) : Int × List Char :=
  let (eneg, s1) := readSign s
  let (ev, _, s2) := readDigits digitVal 10 s1 0 0
  (if eneg then -(ev : Int) else (ev : Int), s2)

/-- The exact value `m * base^k` as a fraction, rounded to a float. -/
def scaleRound (neg : Bool) (m base : Nat) (k : Int) : F32 :=
  if 0 ≤ k then roundF32 neg (m * base ^ k.toNat) 1
  else roundF32 neg m (base ^ (-k).toNat)

/-- The digits of a decimal or hexadecimal floating constant after the sign
(and after `0x`), as the `scanf` of the GNU C library collects them: digits,
one radix point with the digits after it, and, once a digit has been seen, the
exponent marker `mark` (in either case) with what `readExponent` takes. The
collected characters are converted by `strtof`. Without any digit there is
nothing to convert (`none`). `unit` is the binary or decimal weight of one
fractional digit (1 for decimal, 4 for hexadecimal), `ebase` the base of the
exponent. -/
def scanNumber (neg : Bool) (val : Char → Option Nat) (base ebase unit : Nat)
    (mark : Char) (s : List Char) : Option (F32 × List Char) :=
  let (ip, nI, s1) := readDigits val base s 0 0
  let (m, nF, s2) :=
    match s1 with
    | [] => (ip, 0, s1)
    | c :: t => if c = '.' then readDigits val base t ip 0 else (ip, 0, s1)
  if nI + nF = 0 then none
  else
    match s2 with
    | c :: t =>
      if lower c = mark then
        some (scaleRound neg m ebase ((readExponent t).1 - (unit * nF : Nat)), (readExponent t).2)
      else some (scaleRound neg m ebase (-((unit * nF : Nat) : Int)), s2)
    | [] => some (scaleRound neg m ebase (-((unit * nF : Nat) : Int)), s2)

/-- The conversion `%f` of `scanf` once leading white space has been skipped,
as the GNU C library performs it (`vfscanf` collects the characters of the
item, `strtof` converts them). After an optional sign:

* `inf` in any case, which must go on as `infinity` when an `i` follows;
* `nan` in any case, exactly these three characters (a following
  `(n-char-sequence)` stays unread);
* `0x` and a hexadecimal constant; when only a radix point follows `0x`, the
  three characters are consumed and `strtof` converts the `0`; when nothing of
  a constant follows `0x` the conversion fails;
* otherwise a decimal constant.

The conversion fails (`none`) when there is no item or nothing in it converts;
otherwise the value is stored as a `float` and the rest of the input stays
unread. An exponent marker without digits is consumed and the mantissa is
stored. -/
def scanFloat (s : List Char) : Option (F32 × List Char) :=
  let (neg, s1) := readSign s
  match s1 with
  | [] => none
  | c :: t =>
    if lower c = 'i' then
      if matchWord ['i', 'n', 'f'] s1 = 3 then
        let k := matchWord ['i', 'n', 'i', 't', 'y'] (s1.drop 3)
        if k = 0 then some (F32.inf neg, s1.drop 3)
        else if k = 5 then some (F32.inf neg, s1.drop 8)
        else none
      else none
    else if lower c = 'n' then
      if matchWord ['n', 'a', 'n'] s1 = 3 then some (F32.nan, s1.drop 3)
      else none
    else if c = '0' ∧ t.head?.map lower = some 'x' then
      match scanNumber neg hexVal 16 2 4 'p' (t.drop 1) with
      | some r => some r
      | none =>
        match t.drop 1 with
        | '.' :: u => some (F32.finite neg 0 0, u)
        | _ => none
    else scanNumber neg digitVal 10 10 1 'e' s1

/-- What `sscanf (parameterstring, "%s %f %f %f", filename, ...)` leaves
behind: the four assigned fields, or the returned count when it is not 4
(`-1` is `EOF`), or undefined behaviour when the word does not fit into
`char filename[1000]`. -/
inductive Scan where
  | fields (filename : List Char) (bytes_per_row row column : F32)
  | count (n : Int)
  | overrun
  deriving DecidableEq, Repr

/-- The call `sscanf (parameterstring, "%s %f %f %f", filename,
&bytes_per_row, &row, &column)`. `%s` skips white space and stores the
following run of non-white-space characters without any bound; each `%f`
skips white space and converts one floating constant; input after the fourth
field is not looked at. -/
def sscanf (parameterstring : List Char) : Scan :=
  let s0 := skipws parameterstring
  if s0 = [] then Scan.count (-1)
  else
    let filename := s0.takeWhile (fun c => !isspace c)
    let r0 := s0.dropWhile (fun c => !isspace c)
    if 1000 ≤ filename.length then Scan.overrun
    else
      match scanFloat (skipws r0) with
      | none => Scan.count 1
      | some (bytes_per_row, r1) =>
        match scanFloat (skipws r1) with
        | none => Scan.count 2
        | some (row, r2) =>
          match scanFloat (skipws r2) with
          | none => Scan.count 3
          | some (column, _) => Scan.fields filename bytes_per_row row column


/-- The C library `strstr (haystack, needle)`: the index of the first
occurrence of `needle` in `haystack` (the returned pointer is `haystack`
advanced by that index), or `none` for the null pointer. -/
def strstr : List Char → List Char → Option Nat
  | [], needle => if needle = [] then some 0 else none
  | c :: cs, needle =>
    if needle.isPrefixOf (c :: cs) then some 0
    else (strstr cs needle).map (fun i => i + 1)

/-! ## Files, descriptors and system calls -/

/-- A byte of a file. -/
abbrev Byte := Fin 256

/-- An open file description: the file it was opened on and its offset. -/
structure OpenFile where
  path : List Char
  pos : Nat
  deriving DecidableEq, Repr

/-- A system call issued by the program, with its arguments and result. -/
inductive Syscall where
  | sopen (path : List Char) (fd : Int)
  | slseek (fd : Int) (amount : Nat)
  | sread (fd : Int) (didread : Int)
  | sclose (fd : Int)
  deriving DecidableEq, Repr

/-- The state outside the program: the readable files by path, the table of
open descriptors (most recently opened first), and the system calls issued so
far, oldest first. -/
structure World where
  files : List Char → Option (List Byte)
  fdtab : List (Int × OpenFile)
  trace : List Syscall

/-- The open file description of descriptor `fd`, if it is open. -/
def fdLookup (fd : Int) : List (Int × OpenFile) → Option OpenFile
  | [] => none
  | (k, f) :: t => if k = fd then some f else fdLookup fd t

/-- Replace the open file description of descriptor `fd`. -/
def fdUpdate (fd : Int) (g : OpenFile → OpenFile) :
    List (Int × OpenFile) → List (Int × OpenFile)
  | [] => []
  | (k, f) :: t => if k = fd then (k, g f) :: t else (k, f) :: fdUpdate fd g t

/-- Remove descriptor `fd` from the table. -/
def fdRemove (fd : Int) : List (Int × OpenFile) → List (Int × OpenFile)
  | [] => []
  | (k, f) :: t => if k = fd then t else (k, f) :: fdRemove fd t

/-- The lowest descriptor number that is not in use. -/
def freshFd (tab : List (Int × OpenFile)) : Int :=
  Int.ofNat (((List.range (tab.length + 1)).find?
      (fun n => !(tab.any (fun e => decide (e.1 = Int.ofNat n))))).getD tab.length)

/-- The call `open (path, O_RDONLY)`: a new descriptor at offset 0 when a file
can be opened at `path`, and `-1` otherwise. -/
def sys_open (w : World) (path : List Char) : Int × World :=
  match w.files path with
  | none => (-1, { w with trace := w.trace ++ [Syscall.sopen path (-1)] })
  | some _ =>
    let fd := freshFd w.fdtab
    (fd, { w with fdtab := (fd, { path := path, pos := 0 }) :: w.fdtab,
                  trace := w.trace ++ [Syscall.sopen path fd] })

/-- The call `lseek (fd, amount, SEEK_CUR)` with `amount ≥ 0`: the offset of
the descriptor advances by `amount` (also beyond the end of the file; `off_t`
is taken wide enough for every offset reached). The result of the call is not
used by the program. -/
def sys_lseek (w : World) (fd : Int) (amount : Nat) : World :=
  { w with fdtab := fdUpdate fd (fun f => { f with pos := f.pos + amount }) w.fdtab,
           trace := w.trace ++ [Syscall.slseek fd amount] }

/-- The call `read (fd, &value, 1)`: the result of the call, the byte stored
in `value` and the new state. One byte is read when the offset is inside the
file; at or beyond the end of the file the result is 0, on a descriptor that
is not open it is `-1`, and `value` is then not written (shown as 0). -/
def sys_read (w : World) (fd : Int) : Int × Byte × World :=
  match fdLookup fd w.fdtab with
  | none => (-1, 0, { w with trace := w.trace ++ [Syscall.sread fd (-1)] })
  | some f =>
    match (w.files f.path).bind (fun content => content.get? f.pos) with
    | some b =>
      (1, b, { w with fdtab := fdUpdate fd (fun f => { f with pos := f.pos + 1 }) w.fdtab,
                      trace := w.trace ++ [Syscall.sread fd 1] })
    | none => (0, 0, { w with trace := w.trace ++ [Syscall.sread fd 0] })

/-- The call `close (fd)`. -/
def sys_close (w : World) (fd : Int) : World :=
  { w with fdtab := fdRemove fd w.fdtab, trace := w.trace ++ [Syscall.sclose fd] }

/-! ## `tablelookup` and `processcommand` -/

/-- The loop `while (off>0) { if (off <= MAXSEEK) { lseek(fd,off,SEEK_CUR);
break; } else { lseek(fd,MAXSEEK,SEEK_CUR); off -= MAXSEEK; } }`, run for at
most `fuel` iterations. -/
def seekLoopFuel : Nat → World → Int → Nat → World
  | 0, w, _, _ => w
  | fuel + 1, w, fd, off =>
    if 0 < off then
      if off ≤ MAXSEEK then sys_lseek w fd off
      else seekLoopFuel fuel (sys_lseek w fd MAXSEEK) fd (off - MAXSEEK)
    else w

/-- The seek loop of `tablelookup`. Every iteration but the last lowers `off`
by `MAXSEEK`, so `off` iterations are always enough (`seekLoop_eq`). -/
def seekLoop (w : World) (fd : Int) (off : Nat) : World :=
  seekLoopFuel off w fd off

/-- The value given to `unsigned long int off`:
`((unsigned long int) bytes_per_row) * ((unsigned long int) row)
 + ((unsigned long int) column)` in `unsigned long` arithmetic of
`abi.ulongBits` bits. -/
def seekOffset (abi : ABI) (bytes_per_row row column : F32) : Nat :=
  ((castULong abi bytes_per_row * castULong abi row) % 2 ^ abi.ulongBits
    + castULong abi column) % 2 ^ abi.ulongBits

/-- The offset computation where ISO C defines all three conversions; `none`
when one of them is undefined. -/
def lookupOffset (abi : ABI) (bytes_per_row row column : F32) : Option Nat :=
  match bytes_per_row.toULong abi.ulongBits, row.toULong abi.ulongBits,
        column.toULong abi.ulongBits with
  | some a, some b, some c =>
    some (((a * b) % 2 ^ abi.ulongBits + c) % 2 ^ abi.ulongBits)
  | _, _, _ => none

/-- The conversion of `char value` to the `int` that is returned. -/
def charToInt (abi : ABI) (value : Byte) : Int :=
  if abi.charSigned ∧ 128 ≤ value.val then (value.val : Int) - 256 else (value.val : Int)

/-- The body of `tablelookup` after a `sscanf` that assigned all four fields
(source lines 32-69). -/
def lookup (abi : ABI) (filename : List Char) (bytes_per_row row column : F32)
    (w : World) : Option (Int × World) :=
  if bytes_per_row.ltNat 1 || row.ltNat 0 || column.ltNat 0 then some (255, w)
  else
    let (fd, w1) := sys_open w filename
    if fd < 0 then some (255, w1)
    else
      let off := seekOffset abi bytes_per_row row column
      let w2 := seekLoop w1 fd off
      let (didread, value, w3) := sys_read w2 fd
      let w4 := sys_close w3 fd
      if didread ≠ 1 then some (255, w4)
      else some (charToInt abi value, w4)

/-- The function `int tablelookup(char* parameterstring)`: the returned value
and the state afterwards, or `none` where the behaviour is undefined (`sscanf`
writes past `filename[1000]`). -/
def tablelookup (abi : ABI) (parameterstring : List Char) (w : World) :
    Option (Int × World) :=
  match sscanf parameterstring with
  | Scan.overrun => none
  | Scan.count _ => some (255, w)
  | Scan.fields filename bytes_per_row row column =>
    lookup abi filename bytes_per_row row column w

/-- The function `int processcommand(char* buffer)`. -/
def processcommand (abi : ABI) (buffer : List Char) (w : World) :
    Option (Int × World) :=
  if strstr buffer "tablelookup ".toList = some 0 then
    tablelookup abi (buffer.drop 12) w
  else some (255, w)

/-- The returned value alone. -/
def returned (r : Option (Int × World)) : Option Int := r.map Prod.fst

/-- A world with the single file `path` of content `content`, no open
descriptor and no system call issued yet. -/
def oneFile (path : List Char) (content : List Byte) : World :=
  { files := fun p => if p = path then some content else none,
    fdtab := [],
    trace := [] }

/-- The file of the scenarios of the specification. -/
def fileBin : World := oneFile "file.bin".toList [10, 20, 30, 40, 50, 60]


/-! ## `main` -/

/-- The C string held in a character array: the characters before the first
NUL. -/
def cstr (buffer : List Char) : List Char := buffer.takeWhile (fun c => c ≠ '\x00')

/-- Read at most `n` characters from the input, stopping after a newline: the
characters read and the input left. -/
def readLine : Nat → List Char → List Char × List Char
  | 0, s => ([], s)
  | _ + 1, [] => ([], [])
  | n + 1, c :: cs =>
    if c = '\n' then ([c], cs) else (c :: (readLine n cs).1, (readLine n cs).2)

/-- The call `fgets (buffer, size, stdin)` on the input that is left: the null
pointer (`none`) at end of input, otherwise the characters stored in `buffer`
(at most `size - 1`, ending after a newline) and the input left. -/
def fgets (size : Nat) (stdin : List Char) : Option (List Char × List Char) :=
  if stdin = [] then none else some (readLine (size - 1) stdin)

/-- The characters `printf` writes for `%d`. -/
def renderInt (r : Int) : List Char :=
  if r < 0 then '-' :: Nat.toDigits 10 r.natAbs else Nat.toDigits 10 r.toNat

/-- The characters written by `printf ("%d\n",r)`. -/
def printf_d (r : Int) : List Char := renderInt r ++ ['\n']

/-- The characters written by `printf ("Ending native code process...\n")`. -/
def ending : List Char := "Ending native code process...\n".toList

/-- The call `strcpy (buffer, src)` into an array of `size` characters: the
new content of `buffer`, or `none` (undefined behaviour) when `src` and its
NUL do not fit. -/
def strcpy (size : Nat) (src : List Char) : Option (List Char) :=
  if src.length < size then some src else none

/-- The call `strcat (buffer, src)` on an array of `size` characters that
holds `dst`: the new content, or `none` (undefined behaviour) when the result
and its NUL do not fit. -/
def strcat (size : Nat) (dst src : List Char) : Option (List Char) :=
  if dst.length + src.length < size then some (dst ++ src) else none

/-- The loop `for (i=2; i<argc; i++) { strcat(buffer," "); strcat(buffer,argv[i]); }`
over the remaining arguments, on `char buffer[1000]`. -/
def joinLoop : List Char → List (List Char) → Option (List Char)
  | buffer, [] => some buffer
  | buffer, arg :: rest =>
    match strcat 1000 buffer [' '] with
    | none => none
    | some b1 =>
      match strcat 1000 b1 arg with
      | none => none
      | some b2 => joinLoop b2 rest

/-- The loop `while (fgets(buffer, 1000, stdin)) { int r = processcommand(buffer);
printf ("%d\n",r); fflush(stdout); }`, run for at most `fuel` iterations: the
characters written and the state afterwards. -/
def pipeLoopFuel (abi : ABI) : Nat → List Char → World → Option (List Char × World)
  | 0, _, w => some ([], w)
  | fuel + 1, stdin, w =>
    match fgets 1000 stdin with
    | none => some ([], w)
    | some (buffer, rest) =>
      match processcommand abi (cstr buffer) w with
      | none => none
      | some (r, w1) =>
        match pipeLoopFuel abi fuel rest w1 with
        | none => none
        | some (out, w2) => some (printf_d r ++ out, w2)

/-- The read loop of `main`. Every iteration takes at least one character from
the input, so as many iterations as the input has characters are always
enough (`pipeLoop_eq`). -/
def pipeLoop (abi : ABI) (stdin : List Char) (w : World) : Option (List Char × World) :=
  pipeLoopFuel abi stdin.length stdin w

/-- What a run of the program leaves: the characters written to standard
output, the status passed to `exit` (or returned from `main`), and the state
afterwards. -/
structure Run where
  stdout : List Char
  status : Int
  world : World

/-- The function `int main(int argc, char** argv)` with `argv` the list of its
`argc` strings and `stdin` the characters of standard input; `none` where the
behaviour is undefined. -/
def main (abi : ABI) (argv : List (List Char)) (stdin : List Char) (w : World) :
    Option Run :=
  match argv with
  | _ :: arg1 :: rest =>
    match strcpy 1000 arg1 with
    | none => none
    | some b0 =>
      match joinLoop b0 rest with
      | none => none
      | some buffer =>
        match processcommand abi buffer w with
        | none => none
        | some (r, w1) => some { stdout := [], status := r, world := w1 }
  | _ =>
    match pipeLoop abi stdin w with
    | none => none
    | some (out, w1) => some { stdout := out ++ ending, status := 0, world := w1 }

/-- The exit status a waiting parent process sees for the status `status`
passed to `exit`: its least significant 8 bits. -/
def exitStatus (status : Int) : Int := status % 256

/-- The state of `fileBin` with descriptor 0 already open on another file. -/
def busyWorld : World :=
  { files := fileBin.files,
    fdtab := [(0, { path := "other".toList, pos := 7 })],
    trace := [] }

/-! ## Notions used to state the properties -/

/-- The sum of the amounts of all `lseek` calls in a list of system calls. -/
def seekTotal : List Syscall → Nat
  | [] => 0
  | Syscall.slseek _ amount :: t => amount + seekTotal t
  | _ :: t => seekTotal t

/-- The magnitude `m * 2^e` rounded up to an integer. -/
def ceilMag (m : Nat) (e : Int) : Nat :=
  if 0 ≤ e then m * 2 ^ e.toNat else (m + 2 ^ (-e).toNat - 1) / 2 ^ (-e).toNat

/-- The float `floor x`: the largest integral value not above `x`. Infinities
and NaN are left as they are. -/
def F32.floor (x : F32) : F32 :=
  match x with
  | F32.finite false m e => F32.finite false (truncMag m e) 0
  | F32.finite true m e => F32.finite true (ceilMag m e) 0
  | y => y

/-- The C comparison `x >= k` of a float with the integer constant `k ≥ 0`.
Comparisons with a NaN are false. -/
def F32.geNat (x : F32) (k : Nat) : Bool :=
  match x with
  | F32.nan => false
  | F32.inf neg => !neg
  | F32.finite true m _ => decide (m = 0 ∧ k = 0)
  | F32.finite false m e =>
    if 0 ≤ e then decide (k ≤ m * 2 ^ e.toNat) else decide (k * 2 ^ (-e).toNat ≤ m)

/-- The integer `floor x` of a float `x ≥ 0` (of either zero), as a natural
number; `none` for negative values, infinities and NaN. -/
def F32.intPart (x : F32) : Option Nat :=
  match x with
  | F32.finite false m e => some (truncMag m e)
  | F32.finite true m _ => if m = 0 then some 0 else none
  | _ => none

/-- The exact value of `floor(bytes_per_row) * floor(row) + floor(column)`,
without any bound on its size. -/
def exactOffset (bytes_per_row row column : F32) : Option Nat :=
  match bytes_per_row.intPart, row.intPart, column.intPart with
  | some a, some b, some c => some (a * b + c)
  | _, _, _ => none

/-- The value of a string of decimal digits, read as a natural number. -/
def decimalValue (ds : List Char) : Nat := (readDigits digitVal 10 ds 0 0).1

/-- The decimal digits. -/
def decimalDigits : List Char := ['0', '1', '2', '3', '4', '5', '6', '7', '8', '9']

/-- A decimal integer parameter: a non-empty string of decimal digits. -/
def isDecimal (ds : List Char) : Bool :=
  !ds.isEmpty && ds.all (fun c => decide (c ∈ decimalDigits))

/-- A path as a command line can name it: a non-empty word without white
space that fits into `char filename[1000]` with its terminating NUL. -/
def isPathWord (path : List Char) : Bool :=
  !path.isEmpty && path.all (fun c => !isspace c) && decide (path.length < 1000)

/-- Whether the natural number `n` is a value of type `float`, so that reading
it with `%f` rounds nothing away. -/
def floatExact (n : Nat) : Bool :=
  match roundF32 false n 1 with
  | F32.finite false m e =>
    if 0 ≤ e then decide (m * 2 ^ e.toNat = n) else decide (m = n * 2 ^ (-e).toNat)
  | _ => false

/-- The white-space separated words of a line; `cur` is the word being read,
last character first. -/
def wordsAux : List Char → List Char → List (List Char)
  | [], cur => if cur = [] then [] else [cur.reverse]
  | c :: cs, cur =>
    if isspace c then
      (if cur = [] then wordsAux cs [] else cur.reverse :: wordsAux cs [])
    else wordsAux cs (c :: cur)

/-- The white-space separated words of a line. -/
def words (s : List Char) : List (List Char) := wordsAux s []

/-- Whether the whole word is one floating constant in the format `%f`
accepts. -/
def isNumber (word : List Char) : Bool :=
  match scanFloat word with
  | some (_, []) => true
  | _ => false

/-- The input after a parameter: nothing, or text that begins with white
space. -/
def stopsNumber (rest : List Char) : Prop :=
  rest = [] ∨ ∃ c r, rest = c :: r ∧ isspace c = true

/-- Whether a floating constant, after its optional white space, can begin
with the character `c`: a digit, a sign, the radix point, or the first letter
of `inf` or `nan`. -/
def startsNumber (c : Char) : Bool :=
  (digitVal c).isSome || c = '-' || c = '+' || c = '.' || lower c = 'i' || lower c = 'n'

/-- Text after the last parameter of a line in which no further number
follows: nothing, or white space followed by nothing or by a word that cannot
begin a number. -/
def noNumberAhead (rest : List Char) : Bool :=
  match rest with
  | [] => true
  | c :: _ =>
    isspace c &&
      (match skipws rest with
       | [] => true
       | d :: _ => !startsNumber d)

/-- The parameters of a line, each preceded by one space. -/
def joinParams : List (List Char) → List Char
  | [] => []
  | p :: ps => ' ' :: (p ++ joinParams ps)

/-- The amounts of the seeks for the offset `off` as the specification
describes them: while the remainder exceeds `MAXSEEK` a step of exactly
`MAXSEEK`, then one final seek for the remainder; none for offset 0. -/
def seekAmounts (off : Nat) : List Nat :=
  if off = 0 then []
  else List.replicate ((off - 1) / MAXSEEK) MAXSEEK ++ [off - (off - 1) / MAXSEEK * MAXSEEK]

/-- The paths of the `open` calls in a list of system calls. -/
def openedPaths : List Syscall → List (List Char)
  | [] => []
  | Syscall.sopen path _ :: t => path :: openedPaths t
  | _ :: t => openedPaths t

/-- The number of bytes read by the `read` calls in a list of system calls. -/
def bytesRead : List Syscall → Int
  | [] => 0
  | Syscall.sread _ didread :: t => (if 0 < didread then didread else 0) + bytesRead t
  | _ :: t => bytesRead t

/-- The standard input that consists of the given lines, each ended by a
newline. -/
def joinLines : List (List Char) → List Char
  | [] => []
  | l :: ls => l ++ '\n' :: joinLines ls

/-- Run `k` in the state that `a` leaves and write its output after that of
`a`; undefined when either is. -/
def seqOut (a : Option (List Char × World)) (k : World → Option (List Char × World)) :
    Option (List Char × World) :=
  match a with
  | none => none
  | some (o1, w1) =>
    match k w1 with
    | none => none
    | some (o2, w2) => some (o1 ++ o2, w2)

/-- One iteration of the read loop on the characters `buffer` that `fgets`
stored: what is written and the state afterwards. -/
def answerLine (abi : ABI) (buffer : List Char) (w : World) : Option (List Char × World) :=
  match processcommand abi (cstr buffer) w with
  | none => none
  | some (r, w1) => some (printf_d r, w1)

/-- The characters the read loop writes for the given input lines: the output
of `main` before its termination line. -/
def commandOutput (abi : ABI) (lines : List (List Char)) (w : World) : Option (List Char) :=
  (pipeLoop abi (joinLines lines) w).map Prod.fst

/-- Two outputs one after the other; undefined when either is. -/
def thenOutput (a b : Option (List Char)) : Option (List Char) :=
  match a, b with
  | some x, some y => some (x ++ y)
  | _, _ => none

/-- The result codes of the given lines, each processed with its newline on
the state `w`; undefined when one of them is. -/
def answers (abi : ABI) (w : World) : List (List Char) → Option (List Int)
  | [] => some []
  | l :: ls =>
    match returned (processcommand abi (cstr (l ++ ['\n'])) w), answers abi w ls with
    | some r, some rs => some (r :: rs)
    | _, _ => none

/-- One output line per result code: its decimal rendering and a newline. -/
def renderAnswers : List Int → List Char
  | [] => []
  | r :: rs => printf_d r ++ renderAnswers rs

/-- Input that is empty or ends with a newline. -/
def closedInput (s : List Char) : Prop := s = [] ∨ ∃ t, s = t ++ ['\n']

/-- The arguments `tablelookup file.bin 2 1 0` followed by a sixth argument of
972 characters `x`: joined with single spaces they are a command of 999
characters, which with its NUL fills `buffer` exactly. -/
def longArgs : List (List Char) :=
  ["tablelookup".toList, "file.bin".toList, "2".toList, "1".toList, "0".toList,
    List.replicate 972 'x']

/-- The command that `longArgs` are the words of. -/
def longCommand : List Char := "tablelookup file.bin 2 1 0 ".toList ++ List.replicate 972 'x'

/-- A file of `n` zero bytes followed by the bytes `tail`. -/
def paddedFile (n : Nat) (tail : List Byte) : List Byte := List.replicate n 0 ++ tail

/-! # Properties -/

/-! ## The model on known values -/

/-- Rounding to `float`: 16777217 and 16777219 are halfway between two floats
and go to the even one; 0.1 and 30 get 24-bit significands; values from
`2^128 - 2^103` on overflow to infinity; below `2^-126` the spacing stays
`2^-149`. -/
theorem roundF32_values :
    roundF32 false 16777217 1 = F32.finite false 8388608 1
    ∧ roundF32 false 16777219 1 = F32.finite false 8388610 1
    ∧ roundF32 false 1 10 = F32.finite false 13421773 (-27)
    ∧ roundF32 false 30 1 = F32.finite false 15728640 (-19)
    ∧ roundF32 false (10 ^ 39) 1 = F32.inf false
    ∧ roundF32 false 340282356779733661637539395458142568447 1
        = F32.finite false 16777215 104
    ∧ roundF32 false 340282356779733661637539395458142568448 1 = F32.inf false
    ∧ roundF32 false 1 (10 ^ 45) = F32.finite false 1 (-149)
    ∧ roundF32 false 1 (10 ^ 46) = F32.finite false 0 (-149)
    ∧ floatExact 16777216 = true ∧ floatExact 16777217 = false
    ∧ floatExact 4294967296 = true := by
  decide

/-- The scan of some parameter strings: decimal, hexadecimal, infinity and NaN
constants, a NaN with a character sequence, an incomplete `infinity`, exponent
markers without digits, `0x` with and without a radix point, text after the
fourth field, a blank line. -/
theorem sscanf_values :
    sscanf "file.bin 2 1 0".toList
      = Scan.fields "file.bin".toList (roundF32 false 2 1) (roundF32 false 1 1)
          (roundF32 false 0 1)
    ∧ sscanf "f 2.5e1 -0x1.8p1 +.5\n".toList
      = Scan.fields "f".toList (roundF32 false 25 1) (roundF32 true 3 1) (roundF32 false 1 2)
    ∧ sscanf "f inf NaN -INFINITY".toList
      = Scan.fields "f".toList (F32.inf false) F32.nan (F32.inf true)
    ∧ sscanf "f 1 nan(a_1) 3".toList = Scan.count 3
    ∧ sscanf "f 1 2 infin".toList = Scan.count 3
    ∧ sscanf "f 1 2e 3".toList
      = Scan.fields "f".toList (roundF32 false 1 1) (roundF32 false 2 1) (roundF32 false 3 1)
    ∧ sscanf "f 1 1.e+ 0x3p".toList
      = Scan.fields "f".toList (roundF32 false 1 1) (roundF32 false 1 1) (roundF32 false 3 1)
    ∧ sscanf "f 0x. 2 3".toList
      = Scan.fields "f".toList (F32.finite false 0 0) (roundF32 false 2 1) (roundF32 false 3 1)
    ∧ sscanf "f 0x 2 3".toList = Scan.count 1
    ∧ sscanf "f . 2 3".toList = Scan.count 1
    ∧ sscanf "f 1 e5 3".toList = Scan.count 2
    ∧ sscanf "f 1 2 3abc".toList
      = Scan.fields "f".toList (roundF32 false 1 1) (roundF32 false 2 1) (roundF32 false 3 1)
    ∧ sscanf "  \n".toList = Scan.count (-1)
    ∧ sscanf "f 1 0 16777217".toList
      = Scan.fields "f".toList (roundF32 false 1 1) (roundF32 false 0 1)
          (F32.finite false 8388608 1)
    ∧ sscanf (List.replicate 1000 'a' ++ " 1 0 0".toList) = Scan.overrun := by
  decide

/-- The three lookup scenarios of the specification, through `processcommand`
and with the state afterwards: the descriptor table is empty again and the
calls are `open`, one `lseek` (none for offset 0), `read`, `close`. -/
theorem scenario_values :
    (processcommand ev3 "tablelookup file.bin 2 1 0".toList fileBin).map
        (fun p => (p.1, p.2.fdtab, p.2.trace))
      = some (30, [], [Syscall.sopen "file.bin".toList 0, Syscall.slseek 0 2,
          Syscall.sread 0 1, Syscall.sclose 0])
    ∧ (processcommand ev3 "tablelookup file.bin 2 2 1".toList fileBin).map
        (fun p => (p.1, p.2.fdtab, p.2.trace))
      = some (60, [], [Syscall.sopen "file.bin".toList 0, Syscall.slseek 0 5,
          Syscall.sread 0 1, Syscall.sclose 0])
    ∧ (processcommand ev3 "tablelookup file.bin 2 3 0".toList fileBin).map
        (fun p => (p.1, p.2.fdtab, p.2.trace))
      = some (255, [], [Syscall.sopen "file.bin".toList 0, Syscall.slseek 0 6,
          Syscall.sread 0 0, Syscall.sclose 0])
    ∧ (processcommand ev3 "tablelookup file.bin 2 0 0".toList fileBin).map
        (fun p => (p.1, p.2.fdtab, p.2.trace))
      = some (10, [], [Syscall.sopen "file.bin".toList 0, Syscall.sread 0 1,
          Syscall.sclose 0]) := by
  refine ⟨?_, ?_, ?_, ?_⟩ <;> rfl

/-! ## Dispatch -/

theorem strstr_zero_iff (hay needle : List Char) :
    strstr hay needle = some 0 ↔ needle <+: hay := by
  cases hay with
  | nil =>
    cases needle <;> simp [strstr]
  | cons c cs =>
    by_cases h : needle.isPrefixOf (c :: cs) = true
    · have h2 : needle <+: c :: cs := List.isPrefixOf_iff_prefix.mp h
      simp [strstr, h, h2]
    · have h2 : ¬ needle <+: c :: cs := fun hp => h (List.isPrefixOf_iff_prefix.mpr hp)
      simp [strstr, h, h2]

theorem processcommand_keyword (abi : ABI) (t : List Char) (w : World) :
    processcommand abi ("tablelookup ".toList ++ t) w = tablelookup abi t w := by
  have h : strstr ("tablelookup ".toList ++ t) "tablelookup ".toList = some 0 :=
    (strstr_zero_iff _ _).mpr (List.prefix_append _ _)
  unfold processcommand
  rw [if_pos h]
  rfl

/-- C3. A command line that does not begin with the twelve characters
`tablelookup ` is answered with 255 in every state, and the state, with its
list of system calls, is left as it was: no file is opened. -/
theorem processcommand_unrecognized (abi : ABI) (buffer : List Char) (w : World)
    (h : ¬ "tablelookup ".toList <+: buffer) :
    processcommand abi buffer w = some (255, w) := by
  unfold processcommand
  rw [if_neg]
  rw [strstr_zero_iff]
  exact h

/-- C3, at the empty line, the keyword without its space, the keyword after a
blank and the keyword later in the line. -/
theorem processcommand_unrecognized_witness :
    (¬ "tablelookup ".toList <+: "".toList
      ∧ processcommand ev3 "".toList fileBin = some (255, fileBin))
    ∧ (¬ "tablelookup ".toList <+: "tablelookup".toList
      ∧ processcommand ev3 "tablelookup".toList fileBin = some (255, fileBin))
    ∧ (¬ "tablelookup ".toList <+: " tablelookup file.bin 2 1 0".toList
      ∧ processcommand ev3 " tablelookup file.bin 2 1 0".toList fileBin = some (255, fileBin))
    ∧ (¬ "tablelookup ".toList <+: "do tablelookup file.bin 2 1 0".toList
      ∧ processcommand lp64 "do tablelookup file.bin 2 1 0".toList fileBin
          = some (255, fileBin)) :=
  ⟨⟨by decide, processcommand_unrecognized ev3 _ fileBin (by decide)⟩,
   ⟨by decide, processcommand_unrecognized ev3 _ fileBin (by decide)⟩,
   ⟨by decide, processcommand_unrecognized ev3 _ fileBin (by decide)⟩,
   ⟨by decide, processcommand_unrecognized lp64 _ fileBin (by decide)⟩⟩

/-! ## The seek loop -/

theorem seekTotal_append (xs ys : List Syscall) :
    seekTotal (xs ++ ys) = seekTotal xs + seekTotal ys := by
  induction xs with
  | nil => simp [seekTotal]
  | cons x t ih =>
    cases x <;> simp [seekTotal, ih, Nat.add_assoc]

theorem MAXSEEK_pos : 0 < MAXSEEK := by decide

theorem seekLoopFuel_enough (fd : Int) :
    ∀ (f1 f2 : Nat) (w : World) (off : Nat), off ≤ f1 → off ≤ f2 →
      seekLoopFuel f1 w fd off = seekLoopFuel f2 w fd off := by
  intro f1
  induction f1 with
  | zero =>
    intro f2 w off h1 _
    have h0 : off = 0 := by omega
    subst h0
    cases f2 <;> simp [seekLoopFuel]
  | succ n ih =>
    intro f2 w off h1 h2
    cases f2 with
    | zero =>
      have h0 : off = 0 := by omega
      subst h0
      simp [seekLoopFuel]
    | succ k =>
      rw [seekLoopFuel.eq_2, seekLoopFuel.eq_2]
      have hm := MAXSEEK_pos
      generalize MAXSEEK = M at hm ih ⊢
      split
      · split
        · rfl
        · exact ih k _ _ (by omega) (by omega)
      · rfl

/-- The seek loop satisfies the equation of the `while` loop of the source, so
the fuel of the definition never runs out. -/
theorem seekLoop_eq (w : World) (fd : Int) (off : Nat) :
    seekLoop w fd off =
      if 0 < off then
        if off ≤ MAXSEEK then sys_lseek w fd off
        else seekLoop (sys_lseek w fd MAXSEEK) fd (off - MAXSEEK)
      else w := by
  unfold seekLoop
  cases off with
  | zero => simp [seekLoopFuel]
  | succ n =>
    rw [seekLoopFuel.eq_2]
    have hm := MAXSEEK_pos
    have hen := seekLoopFuel_enough fd n (n + 1 - MAXSEEK) (sys_lseek w fd MAXSEEK)
      (n + 1 - MAXSEEK)
    generalize MAXSEEK = M at hm hen ⊢
    split
    · split
      · rfl
      · exact hen (by omega) (by omega)
    · rfl

theorem fdUpdate_fdUpdate (fd : Int) (g h : OpenFile → OpenFile)
    (tab : List (Int × OpenFile)) :
    fdUpdate fd g (fdUpdate fd h tab) = fdUpdate fd (fun f => g (h f)) tab := by
  induction tab with
  | nil => rfl
  | cons e t ih =>
    obtain ⟨k, f⟩ := e
    by_cases hk : k = fd
    · simp [fdUpdate, hk]
    · simp [fdUpdate, hk, ih]

theorem fdUpdate_congr (fd : Int) (g h : OpenFile → OpenFile) (hgh : ∀ f, g f = h f)
    (tab : List (Int × OpenFile)) : fdUpdate fd g tab = fdUpdate fd h tab := by
  have : g = h := funext hgh
  rw [this]

theorem fdUpdate_id (fd : Int) (g : OpenFile → OpenFile) (hg : ∀ f, g f = f)
    (tab : List (Int × OpenFile)) : fdUpdate fd g tab = tab := by
  induction tab with
  | nil => rfl
  | cons e t ih =>
    obtain ⟨k, f⟩ := e
    by_cases hk : k = fd
    · simp [fdUpdate, hk, hg]
    · simp [fdUpdate, hk, ih]

theorem fdLookup_fdUpdate (fd : Int) (g : OpenFile → OpenFile)
    (tab : List (Int × OpenFile)) :
    fdLookup fd (fdUpdate fd g tab) = (fdLookup fd tab).map g := by
  induction tab with
  | nil => rfl
  | cons e t ih =>
    obtain ⟨k, f⟩ := e
    by_cases hk : k = fd
    · simp [fdUpdate, fdLookup, hk]
    · simp [fdUpdate, fdLookup, hk, ih]

theorem seekTotal_map_slseek (fd : Int) (amounts : List Nat) :
    seekTotal (amounts.map (Syscall.slseek fd)) = amounts.sum := by
  induction amounts with
  | nil => rfl
  | cons a t ih => simp [seekTotal, ih]

/-- What the seek loop does to the state: the files stay, the offset of `fd`
has advanced by `off` in all, and the calls issued are `lseek` calls on `fd`
whose amounts add up to `off`. -/
theorem seekLoop_spec (fd : Int) :
    ∀ (off : Nat) (w : World),
      (seekLoop w fd off).files = w.files
      ∧ (seekLoop w fd off).fdtab
          = fdUpdate fd (fun f => { f with pos := f.pos + off }) w.fdtab
      ∧ ∃ amounts : List Nat,
          (seekLoop w fd off).trace = w.trace ++ amounts.map (Syscall.slseek fd)
          ∧ amounts.sum = off := by
  intro off
  induction off using Nat.strong_induction_on with
  | _ off ih =>
    intro w
    rw [seekLoop_eq]
    by_cases h0 : 0 < off
    · rw [if_pos h0]
      by_cases h1 : off ≤ MAXSEEK
      · rw [if_pos h1]
        exact ⟨rfl, rfl, [off], rfl, by simp⟩
      · rw [if_neg h1]
        have hm := MAXSEEK_pos
        obtain ⟨hf, ht, amounts, hs, hsum⟩ :=
          ih (off - MAXSEEK) (by omega) (sys_lseek w fd MAXSEEK)
        rw [hf, ht, hs]
        refine ⟨rfl, ?_, MAXSEEK :: amounts, ?_, ?_⟩
        · generalize MAXSEEK = M at hm h1 ⊢
          simp only [sys_lseek, fdUpdate_fdUpdate]
          apply fdUpdate_congr
          intro f
          have : f.pos + M + (off - M) = f.pos + off := by omega
          simp only [this]
        · simp [sys_lseek]
        · rw [List.sum_cons, hsum]
          generalize MAXSEEK = M at hm h1 ⊢
          omega
    · rw [if_neg h0]
      have : off = 0 := by omega
      subst this
      refine ⟨rfl, ?_, [], by simp, rfl⟩
      exact (fdUpdate_id fd _ (fun f => rfl) w.fdtab).symm

/-- C8. For every offset `off` the chunked seek loop leaves the descriptor
table exactly as one unbounded relative seek by `off` would; from position 0
the position of the descriptor ends at `off`; and the amounts of the seeks the
loop issues add up to `off`. -/
theorem seekLoop_lands_on_offset (w : World) (fd : Int) (off : Nat) :
    (seekLoop w fd off).fdtab = (sys_lseek w fd off).fdtab
    ∧ (∀ path, fdLookup fd w.fdtab = some { path := path, pos := 0 } →
        fdLookup fd (seekLoop w fd off).fdtab = some { path := path, pos := off })
    ∧ seekTotal (seekLoop w fd off).trace = seekTotal w.trace + off := by
  obtain ⟨_, ht, amounts, hs, hsum⟩ := seekLoop_spec fd off w
  refine ⟨?_, ?_, ?_⟩
  rotate_left
  · intro path hp
    rw [ht, fdLookup_fdUpdate, hp]
    simp
  · rw [hs, seekTotal_append, seekTotal_map_slseek, hsum]
  · rw [ht]; rfl

/-- C8, for an offset beyond the reach of a single seek: from position 0 the
loop ends at 5000000000. -/
theorem seekLoop_lands_on_offset_witness :
    fdLookup 3 (seekLoop { files := fun _ => none,
                           fdtab := [(3, { path := "big".toList, pos := 0 })],
                           trace := [] } 3 5000000000).fdtab
      = some { path := "big".toList, pos := 5000000000 } :=
  (seekLoop_lands_on_offset { files := fun _ => none,
                              fdtab := [(3, { path := "big".toList, pos := 0 })],
                              trace := [] } 3 5000000000).2.1 "big".toList (by decide)

/-! ## Failures before the file is read -/

theorem tablelookup_of_fields (abi : ABI) (s filename : List Char)
    (bytes_per_row row column : F32) (w : World)
    (hs : sscanf s = Scan.fields filename bytes_per_row row column) :
    tablelookup abi s w = lookup abi filename bytes_per_row row column w := by
  unfold tablelookup
  rw [hs]

theorem tablelookup_of_count (abi : ABI) (s : List Char) (n : Int) (w : World)
    (hs : sscanf s = Scan.count n) : tablelookup abi s w = some (255, w) := by
  unfold tablelookup
  rw [hs]

/-- C5. When the parsed parameters have `bytes_per_row < 1`, `row < 0` or
`column < 0`, `tablelookup` returns 255 and leaves the state, with its list of
system calls, untouched: no file is opened, so the answer is the same in every
file system. -/
theorem tablelookup_range_check (abi : ABI) (s filename : List Char)
    (bytes_per_row row column : F32) (w : World)
    (hs : sscanf s = Scan.fields filename bytes_per_row row column)
    (hr : bytes_per_row.ltNat 1 = true ∨ row.ltNat 0 = true ∨ column.ltNat 0 = true) :
    tablelookup abi s w = some (255, w) := by
  rw [tablelookup_of_fields abi s filename bytes_per_row row column w hs]
  unfold lookup
  rw [if_pos]
  simpa [Bool.or_eq_true, or_assoc] using hr

/-- C5, at a stride of 0 on an existing file, a negative row on an existing
file and a negative column on a missing file. -/
theorem tablelookup_range_check_witness :
    tablelookup ev3 "file.bin 0 1 0".toList fileBin = some (255, fileBin)
    ∧ tablelookup ev3 "file.bin 2 -1 0".toList fileBin = some (255, fileBin)
    ∧ tablelookup lp64 "missing 2 1 -0.5".toList fileBin = some (255, fileBin) :=
  ⟨tablelookup_range_check ev3 "file.bin 0 1 0".toList "file.bin".toList
      (roundF32 false 0 1) (roundF32 false 1 1) (roundF32 false 0 1) fileBin
      (by decide) (by decide),
   tablelookup_range_check ev3 "file.bin 2 -1 0".toList "file.bin".toList
      (roundF32 false 2 1) (roundF32 true 1 1) (roundF32 false 0 1) fileBin
      (by decide) (by decide),
   tablelookup_range_check lp64 "missing 2 1 -0.5".toList "missing".toList
      (roundF32 false 2 1) (roundF32 false 1 1) (roundF32 true 1 2) fileBin
      (by decide) (by decide)⟩

/-- C10. When no file can be opened at the parsed path, `tablelookup` returns
255 whatever the three parsed numbers are. -/
theorem tablelookup_no_file (abi : ABI) (s filename : List Char)
    (bytes_per_row row column : F32) (w : World)
    (hs : sscanf s = Scan.fields filename bytes_per_row row column)
    (hf : w.files filename = none) :
    returned (tablelookup abi s w) = some 255 := by
  rw [tablelookup_of_fields abi s filename bytes_per_row row column w hs]
  unfold lookup
  split
  · rfl
  · simp [sys_open, hf, returned]

/-- C10, for a missing file with valid numbers, with numbers too large for
`unsigned long`, and with a NaN. -/
theorem tablelookup_no_file_witness :
    returned (tablelookup ev3 "missing 2 1 0".toList fileBin) = some 255
    ∧ returned (tablelookup ev3 "missing 1e30 1e30 1e30".toList fileBin) = some 255
    ∧ returned (tablelookup lp64 "missing nan 1 0".toList fileBin) = some 255 :=
  ⟨tablelookup_no_file ev3 "missing 2 1 0".toList "missing".toList
      (roundF32 false 2 1) (roundF32 false 1 1) (roundF32 false 0 1) fileBin
      (by decide) (by decide),
   tablelookup_no_file ev3 "missing 1e30 1e30 1e30".toList "missing".toList
      (roundF32 false (10 ^ 30) 1) (roundF32 false (10 ^ 30) 1) (roundF32 false (10 ^ 30) 1)
      fileBin (by decide) (by decide),
   tablelookup_no_file lp64 "missing nan 1 0".toList "missing".toList
      F32.nan (roundF32 false 1 1) (roundF32 false 0 1) fileBin
      (by decide) (by decide)⟩

/-! ## A lookup that reaches the file -/

theorem freshFd_nonneg (tab : List (Int × OpenFile)) : ¬ freshFd tab < 0 := by
  unfold freshFd
  exact Int.not_lt.mpr (Int.ofNat_nonneg _)

/-- Where ISO C defines the three conversions, the offset the program computes
is the defined one. -/
theorem seekOffset_of_lookupOffset (abi : ABI) (bytes_per_row row column : F32) (off : Nat)
    (ho : lookupOffset abi bytes_per_row row column = some off) :
    seekOffset abi bytes_per_row row column = off := by
  unfold lookupOffset at ho
  unfold seekOffset castULong
  cases h1 : bytes_per_row.toULong abi.ulongBits with
  | none => rw [h1] at ho; simp at ho
  | some a =>
    cases h2 : row.toULong abi.ulongBits with
    | none => rw [h1, h2] at ho; simp at ho
    | some b =>
      cases h3 : column.toULong abi.ulongBits with
      | none => rw [h1, h2, h3] at ho; simp at ho
      | some c =>
        rw [h1, h2, h3] at ho
        simp only [Option.some.injEq] at ho
        exact ho

/-- The run of `lookup` on an existing file once the range check has passed
and the offset computation is defined: the file is opened, the loop seeks to
`off`, one byte is read there if the file has one, the descriptor is closed
again. The files and the descriptor table end as they began. -/
theorem lookup_run (abi : ABI) (filename : List Char) (bytes_per_row row column : F32)
    (w : World) (content : List Byte) (off : Nat)
    (hb : bytes_per_row.ltNat 1 = false) (hr : row.ltNat 0 = false)
    (hc : column.ltNat 0 = false)
    (hf : w.files filename = some content)
    (ho : lookupOffset abi bytes_per_row row column = some off) :
    ∃ w' : World,
      lookup abi filename bytes_per_row row column w
        = some ((match content.get? off with
                 | some b => charToInt abi b
                 | none => 255), w')
      ∧ w'.files = w.files ∧ w'.fdtab = w.fdtab
      ∧ ∃ (amounts : List Nat) (didread : Int),
          w'.trace = w.trace ++ Syscall.sopen filename (freshFd w.fdtab)
              :: (amounts.map (Syscall.slseek (freshFd w.fdtab))
                  ++ [Syscall.sread (freshFd w.fdtab) didread,
                      Syscall.sclose (freshFd w.fdtab)])
          ∧ amounts.sum = off := by
  have hfd := freshFd_nonneg w.fdtab
  generalize hfdv : freshFd w.fdtab = fd at hfd ⊢
  obtain ⟨hfiles, htab, amounts, htrace, hsum⟩ :=
    seekLoop_spec fd off
      { w with fdtab := (fd, { path := filename, pos := 0 }) :: w.fdtab,
               trace := w.trace ++ [Syscall.sopen filename fd] }
  have hlk : lookup abi filename bytes_per_row row column w
      = (match sys_read (seekLoop
            { w with fdtab := (fd, { path := filename, pos := 0 }) :: w.fdtab,
                     trace := w.trace ++ [Syscall.sopen filename fd] } fd off) fd with
         | (didread, value, w3) =>
           if didread ≠ 1 then some (255, sys_close w3 fd)
           else some (charToInt abi value, sys_close w3 fd)) := by
    unfold lookup
    simp only [hb, hr, hc, Bool.or_self, Bool.false_eq_true, if_false, sys_open, hf,
      seekOffset_of_lookupOffset abi bytes_per_row row column off ho, hfdv, if_neg hfd]
  rw [hlk]
  generalize seekLoop
      { w with fdtab := (fd, { path := filename, pos := 0 }) :: w.fdtab,
               trace := w.trace ++ [Syscall.sopen filename fd] } fd off = W2
    at hfiles htab htrace ⊢
  simp only [] at hfiles htab htrace
  have hlook : fdLookup fd W2.fdtab = some { path := filename, pos := off } := by
    rw [htab]
    simp [fdUpdate, fdLookup]
  unfold sys_read
  rw [hlook]
  simp only [hfiles, hf, Option.some_bind, List.get?_eq_getElem?]
  cases hget : content[off]? with
  | none =>
    refine ⟨sys_close { W2 with trace := W2.trace ++ [Syscall.sread fd 0] } fd,
      ?_, ?_, ?_, amounts, 0, ?_, hsum⟩
    · simp [hfiles]
    · simp [sys_close, hfiles]
    · simp [sys_close, htab, fdUpdate, fdRemove]
    · simp [sys_close, htrace]
  | some b =>
    refine ⟨sys_close { W2 with
        fdtab := fdUpdate fd (fun f => { f with pos := f.pos + 1 }) W2.fdtab,
        trace := W2.trace ++ [Syscall.sread fd 1] } fd,
      ?_, ?_, ?_, amounts, 1, ?_, hsum⟩
    · simp [hfiles]
    · simp [sys_close, hfiles]
    · simp [sys_close, htab, fdUpdate, fdRemove]
    · simp [sys_close, htrace]

/-! ## Floats: comparison, truncation, floor -/

theorem truncMag_exp_zero (n : Nat) : truncMag n 0 = n := by
  simp [truncMag]

theorem truncMag_zero (e : Int) : truncMag 0 e = 0 := by
  unfold truncMag
  split <;> simp

theorem ceilMag_zero (e : Int) : ceilMag 0 e = 0 := by
  unfold ceilMag
  split
  · simp
  · have hp : 0 < 2 ^ (-e).toNat := Nat.pow_pos (by decide)
    rw [Nat.zero_add]
    exact Nat.div_eq_of_lt (by omega)

theorem ltNat_of_geNat (x : F32) (k : Nat) (h : x.geNat k = true) : x.ltNat k = false := by
  cases x with
  | nan => rfl
  | inf neg => cases neg <;> simp_all [F32.geNat, F32.ltNat]
  | finite neg m e =>
    cases neg with
    | true =>
      simp only [F32.geNat, decide_eq_true_eq] at h
      simp [F32.ltNat, h.1, h.2]
    | false =>
      simp only [F32.geNat] at h
      simp only [F32.ltNat]
      split
      · rename_i he
        rw [if_pos he] at h
        simp only [decide_eq_true_eq] at h
        simp only [decide_eq_false_iff_not]
        omega
      · rename_i he
        rw [if_neg he] at h
        simp only [decide_eq_true_eq] at h
        simp only [decide_eq_false_iff_not]
        omega

theorem geNat_zero_of_geNat (x : F32) (k : Nat) (h : x.geNat k = true) :
    x.geNat 0 = true := by
  cases x with
  | nan => simp [F32.geNat] at h
  | inf neg => simpa [F32.geNat] using h
  | finite neg m e =>
    cases neg with
    | true =>
      simp only [F32.geNat, decide_eq_true_eq] at h
      simp [F32.geNat, h.1]
    | false =>
      simp only [F32.geNat]
      split <;> simp

theorem toULong_of_intPart (w : Nat) (x : F32) (a : Nat) (h : x.intPart = some a)
    (ha : a < 2 ^ w) : x.toULong w = some a := by
  cases x with
  | nan => simp [F32.intPart] at h
  | inf neg => simp [F32.intPart] at h
  | finite neg m e =>
    cases neg with
    | true =>
      simp only [F32.intPart] at h
      split at h
      · rename_i hm
        subst hm
        simp only [Option.some.injEq] at h
        subst h
        simp [F32.toULong, truncMag_zero]
      · simp at h
    | false =>
      simp only [F32.intPart, Option.some.injEq] at h
      simp [F32.toULong, h, ha]

theorem lookupOffset_of_intPart (abi : ABI) (bytes_per_row row column : F32) (a b c : Nat)
    (ha : bytes_per_row.intPart = some a) (hb : row.intPart = some b)
    (hc : column.intPart = some c)
    (hla : a < 2 ^ abi.ulongBits) (hlb : b < 2 ^ abi.ulongBits)
    (hlc : c < 2 ^ abi.ulongBits) :
    lookupOffset abi bytes_per_row row column = some ((a * b + c) % 2 ^ abi.ulongBits) := by
  unfold lookupOffset
  rw [toULong_of_intPart _ _ _ ha hla, toULong_of_intPart _ _ _ hb hlb,
    toULong_of_intPart _ _ _ hc hlc]
  simp [Nat.add_mod]

theorem toULong_floor (w : Nat) (x : F32) (h : x.geNat 0 = true) :
    x.floor.toULong w = x.toULong w := by
  cases x with
  | nan => rfl
  | inf neg => rfl
  | finite neg m e =>
    cases neg with
    | true =>
      simp only [F32.geNat, decide_eq_true_eq] at h
      simp [F32.floor, F32.toULong, h.1, ceilMag_zero, truncMag_zero]
    | false =>
      simp [F32.floor, F32.toULong, truncMag_exp_zero]

theorem trunc_floor (x : F32) (h : x.geNat 0 = true) : x.floor.trunc = x.trunc := by
  cases x with
  | nan => rfl
  | inf neg => rfl
  | finite neg m e =>
    cases neg with
    | true =>
      simp only [F32.geNat, decide_eq_true_eq] at h
      simp [F32.floor, F32.trunc, h.1, ceilMag_zero, truncMag_zero]
    | false =>
      simp [F32.floor, F32.trunc, truncMag_exp_zero]

theorem castULong_floor (abi : ABI) (x : F32) (h : x.geNat 0 = true) :
    castULong abi x.floor = castULong abi x := by
  unfold castULong
  rw [toULong_floor _ _ h, trunc_floor _ h]

theorem ltNat_floor (x : F32) (k : Nat) (h : x.geNat 0 = true) :
    x.floor.ltNat k = x.ltNat k := by
  cases x with
  | nan => rfl
  | inf neg => rfl
  | finite neg m e =>
    cases neg with
    | true =>
      simp only [F32.geNat, decide_eq_true_eq] at h
      simp [F32.floor, F32.ltNat, h.1, ceilMag_zero]
    | false =>
      simp only [F32.floor, F32.ltNat, truncMag]
      by_cases he : 0 ≤ e
      · simp [he]
      · have hp : 0 < 2 ^ (-e).toNat := Nat.pow_pos (by decide)
        simp only [he, if_false, le_refl, if_true, Int.toNat_zero, pow_zero, mul_one]
        congr 1
        rw [Nat.div_lt_iff_lt_mul hp]

/-- The body of `tablelookup` gives the same result on a request and on the
request with each number replaced by its floor, when the numbers are not
negative. -/
theorem lookup_floor (abi : ABI) (filename : List Char) (bytes_per_row row column : F32)
    (w : World) (hb : bytes_per_row.geNat 0 = true) (hr : row.geNat 0 = true)
    (hc : column.geNat 0 = true) :
    lookup abi filename bytes_per_row.floor row.floor column.floor w
      = lookup abi filename bytes_per_row row column w := by
  unfold lookup seekOffset
  rw [ltNat_floor _ _ hb, ltNat_floor _ _ hr, ltNat_floor _ _ hc,
    castULong_floor _ _ hb, castULong_floor _ _ hr, castULong_floor _ _ hc]

theorem truncMag_double (m : Nat) (e : Int) : truncMag (2 * m) (e - 1) = truncMag m e := by
  unfold truncMag
  by_cases h1 : 0 ≤ e - 1
  · have h0 : 0 ≤ e := by omega
    rw [if_pos h1, if_pos h0]
    have : e.toNat = (e - 1).toNat + 1 := by omega
    rw [this, pow_succ]
    ring
  · rw [if_neg h1]
    by_cases h0 : 0 ≤ e
    · have he : e = 0 := by omega
      subst he
      simp
    · rw [if_neg h0]
      have : (-(e - 1)).toNat = (-e).toNat + 1 := by omega
      rw [this, pow_succ, Nat.mul_comm (2 ^ (-e).toNat) 2]
      exact Nat.mul_div_mul_left _ _ (by decide)

theorem ltNat_double (neg : Bool) (m : Nat) (e : Int) (k : Nat) :
    (F32.finite neg (2 * m) (e - 1)).ltNat k = (F32.finite neg m e).ltNat k := by
  cases neg with
  | true => simp [F32.ltNat]
  | false =>
    simp only [F32.ltNat]
    by_cases h1 : 0 ≤ e - 1
    · have h0 : 0 ≤ e := by omega
      rw [if_pos h1, if_pos h0]
      have : e.toNat = (e - 1).toNat + 1 := by omega
      rw [this, pow_succ]
      congr 1
      rw [show 2 * m * 2 ^ (e - 1).toNat = m * (2 ^ (e - 1).toNat * 2) by ring]
    · rw [if_neg h1]
      by_cases h0 : 0 ≤ e
      · have he : e = 0 := by omega
        subst he
        simp only [zero_sub, neg_neg, le_refl, if_true, Int.toNat_zero, pow_zero, mul_one]
        have : (1 : Int).toNat = 1 := rfl
        rw [this, pow_one]
        congr 1
        apply propext
        constructor <;> intro h <;> omega
      · rw [if_neg h0]
        have : (-(e - 1)).toNat = (-e).toNat + 1 := by omega
        rw [this, pow_succ]
        congr 1
        apply propext
        generalize 2 ^ (-e).toNat = p
        rw [show k * (p * 2) = 2 * (k * p) by ring]
        constructor <;> intro h <;> omega

theorem stripTwos_spec (neg : Bool) (k : Nat) :
    ∀ (fuel m : Nat) (e : Int),
      truncMag (stripTwos fuel m e).1 (stripTwos fuel m e).2 = truncMag m e
      ∧ (F32.finite neg (stripTwos fuel m e).1 (stripTwos fuel m e).2).ltNat k
          = (F32.finite neg m e).ltNat k
      ∧ ((stripTwos fuel m e).1 = 0 ↔ m = 0) := by
  intro fuel
  induction fuel with
  | zero => intro m e; simp [stripTwos]
  | succ n ih =>
    intro m e
    simp only [stripTwos]
    split
    · rename_i hm
      obtain ⟨h1, h2, h3⟩ := ih (m / 2) (e + 1)
      have hm2 : m = 2 * (m / 2) := by omega
      have t := truncMag_double (m / 2) (e + 1)
      have l := ltNat_double neg (m / 2) (e + 1) k
      rw [show e + 1 - 1 = e by omega, ← hm2] at t l
      refine ⟨by rw [h1, t], by rw [h2, l], ?_⟩
      rw [h3]
      omega
    · simp

theorem canon_toULong (w : Nat) (x : F32) : x.canon.toULong w = x.toULong w := by
  cases x with
  | nan => rfl
  | inf neg => rfl
  | finite neg m e =>
    simp only [F32.canon]
    split
    · rename_i hm
      subst hm
      cases neg <;> simp [F32.toULong, truncMag_zero]
    · obtain ⟨h1, _, _⟩ := stripTwos_spec neg 0 m m e
      cases neg <;> simp [F32.toULong, h1]

theorem canon_ltNat (x : F32) (k : Nat) : x.canon.ltNat k = x.ltNat k := by
  cases x with
  | nan => rfl
  | inf neg => rfl
  | finite neg m e =>
    simp only [F32.canon]
    split
    · rename_i hm
      subst hm
      cases neg
      · simp only [F32.ltNat]
        split <;> simp
      · simp [F32.ltNat]
    · obtain ⟨_, h2, _⟩ := stripTwos_spec neg k m m e
      exact h2

theorem toULong_of_canon_eq (w : Nat) (x y : F32) (h : x.canon = y.canon) :
    x.toULong w = y.toULong w := by
  rw [← canon_toULong w x, ← canon_toULong w y, h]

theorem ltNat_of_canon_eq (x y : F32) (k : Nat) (h : x.canon = y.canon) :
    x.ltNat k = y.ltNat k := by
  rw [← canon_ltNat x k, ← canon_ltNat y k, h]

theorem canon_trunc (x : F32) : x.canon.trunc = x.trunc := by
  cases x with
  | nan => rfl
  | inf neg => rfl
  | finite neg m e =>
    simp only [F32.canon]
    split
    · rename_i hm
      subst hm
      simp [F32.trunc, truncMag_zero]
    · obtain ⟨h1, _, _⟩ := stripTwos_spec neg 0 m m e
      simp [F32.trunc, h1]

theorem castULong_of_canon_eq (abi : ABI) (x y : F32) (h : x.canon = y.canon) :
    castULong abi x = castULong abi y := by
  unfold castULong
  rw [toULong_of_canon_eq _ _ _ h, ← canon_trunc x, ← canon_trunc y, h]

/-- The body of `tablelookup` gives the same result on two requests whose
numbers have the same signs and values. -/
theorem lookup_congr (abi : ABI) (filename : List Char) (b r c b1 r1 c1 : F32) (w : World)
    (hb : b1.canon = b.canon) (hr : r1.canon = r.canon) (hc : c1.canon = c.canon) :
    lookup abi filename b1 r1 c1 w = lookup abi filename b r c w := by
  unfold lookup seekOffset
  rw [ltNat_of_canon_eq _ _ _ hb, ltNat_of_canon_eq _ _ _ hr, ltNat_of_canon_eq _ _ _ hc,
    castULong_of_canon_eq _ _ _ hb, castULong_of_canon_eq _ _ _ hr,
    castULong_of_canon_eq _ _ _ hc]

/-! ## Truncation of the parameters -/

/-- C9 as stated fails on the numbers as they are written: `%f` rounds the text
to the nearest `float` before anything is truncated. The column `4.99999999`
is stored as 5, so `file.bin 1 0 4.99999999` reads offset 5 (the byte 60) as
`file.bin 1 0 5` does, and not offset `floor(4.99999999) = 4` (the byte 50)
as `file.bin 1 0 4` does; and `8388609.5` is stored as 8388610. -/
theorem tablelookup_truncates_counterexample :
    sscanf "file.bin 1 0 4.99999999".toList = sscanf "file.bin 1 0 5".toList
    ∧ returned (tablelookup ev3 "file.bin 1 0 4.99999999".toList fileBin) = some 60
    ∧ returned (tablelookup ev3 "file.bin 1 0 4".toList fileBin) = some 50
    ∧ sscanf "f 1 0 8388609.5".toList = sscanf "f 1 0 8388610".toList := by
  decide

/-- C9, amended. Each of the three numbers, as `%f` stored it in its `float`
variable, is truncated toward zero on its own before use: for stored
parameters with `bytes_per_row >= 1`, `row >= 0` and `column >= 0`,
`tablelookup` gives the same result, in the same final state, as on any
parameter string for the same path whose three stored numbers are
`floor(bytes_per_row)`, `floor(row)` and `floor(column)`. -/
theorem tablelookup_truncates (abi : ABI) (s t filename : List Char)
    (b r c b1 r1 c1 : F32) (w : World)
    (hs : sscanf s = Scan.fields filename b r c)
    (ht : sscanf t = Scan.fields filename b1 r1 c1)
    (hb : b.geNat 1 = true) (hr : r.geNat 0 = true) (hc : c.geNat 0 = true)
    (hb1 : b1.canon = b.floor.canon) (hr1 : r1.canon = r.floor.canon)
    (hc1 : c1.canon = c.floor.canon) :
    tablelookup abi s w = tablelookup abi t w := by
  rw [tablelookup_of_fields abi s filename b r c w hs,
    tablelookup_of_fields abi t filename b1 r1 c1 w ht,
    lookup_congr abi filename b.floor r.floor c.floor b1 r1 c1 w hb1 hr1 hc1,
    lookup_floor abi filename b r c w (geNat_zero_of_geNat b 1 hb) hr hc]

/-- C9 amended, at `2.9 1.5 0.7` against `2 1 0`: byte 2 of the file is read (30), not
byte `floor(2.9*1.5+0.7) = 5` (60). -/
theorem tablelookup_truncates_witness :
    tablelookup ev3 "file.bin 2.9 1.5 0.7".toList fileBin
      = tablelookup ev3 "file.bin 2 1 0".toList fileBin
    ∧ returned (tablelookup ev3 "file.bin 2.9 1.5 0.7".toList fileBin) = some 30 :=
  ⟨tablelookup_truncates ev3 "file.bin 2.9 1.5 0.7".toList "file.bin 2 1 0".toList
      "file.bin".toList
      (roundF32 false 29 10) (roundF32 false 15 10) (roundF32 false 7 10)
      (roundF32 false 2 1) (roundF32 false 1 1) (roundF32 false 0 1) fileBin
      (by decide) (by decide) (by decide) (by decide) (by decide)
      (by decide) (by decide) (by decide),
   by decide⟩

/-! ## The offset computation -/

/-- C7 as stated fails: on a 64-bit `unsigned long`, the accepted request
`file.bin 4294967296 4294967296 0` has the exact offset `2^32 * 2^32 = 2^64`,
but the product wraps around to 0: the loop issues no seek and byte 0 of the
file is returned. -/
theorem lookupOffset_wraps_counterexample :
    sscanf "file.bin 4294967296 4294967296 0".toList
      = Scan.fields "file.bin".toList (roundF32 false 4294967296 1)
          (roundF32 false 4294967296 1) (roundF32 false 0 1)
    ∧ (roundF32 false 4294967296 1).geNat 1 = true
    ∧ (roundF32 false 0 1).geNat 0 = true
    ∧ exactOffset (roundF32 false 4294967296 1) (roundF32 false 4294967296 1)
        (roundF32 false 0 1) = some 18446744073709551616
    ∧ lookupOffset lp64 (roundF32 false 4294967296 1) (roundF32 false 4294967296 1)
        (roundF32 false 0 1) = some 0
    ∧ (tablelookup lp64 "file.bin 4294967296 4294967296 0".toList fileBin).map
        (fun p => (p.1, seekTotal p.2.trace)) = some (10, 0) := by
  decide

/-- C7, amended. For parsed parameters with `bytes_per_row >= 1`, `row >= 0`,
`column >= 0` whose integer parts `a`, `b`, `c` are below `2^w` (`w` the
width of `unsigned long`), on an existing file: `tablelookup` returns, and the
amounts of its seeks add up to `(a * b + c) mod 2^w`. That is the exact value
`a * b + c` if and only if `a * b + c < 2^w`. -/
theorem tablelookup_seek_offset (abi : ABI) (s filename : List Char)
    (bytes_per_row row column : F32) (w : World) (content : List Byte) (a b c : Nat)
    (hs : sscanf s = Scan.fields filename bytes_per_row row column)
    (hb : bytes_per_row.geNat 1 = true) (hr : row.geNat 0 = true)
    (hc : column.geNat 0 = true)
    (hf : w.files filename = some content)
    (ha : bytes_per_row.intPart = some a) (hbi : row.intPart = some b)
    (hci : column.intPart = some c)
    (hla : a < 2 ^ abi.ulongBits) (hlb : b < 2 ^ abi.ulongBits)
    (hlc : c < 2 ^ abi.ulongBits) :
    (∃ (r : Int) (w1 : World), tablelookup abi s w = some (r, w1)
        ∧ seekTotal w1.trace = seekTotal w.trace + (a * b + c) % 2 ^ abi.ulongBits)
    ∧ lookupOffset abi bytes_per_row row column = some ((a * b + c) % 2 ^ abi.ulongBits)
    ∧ ((a * b + c) % 2 ^ abi.ulongBits = a * b + c ↔ a * b + c < 2 ^ abi.ulongBits) := by
  have ho := lookupOffset_of_intPart abi bytes_per_row row column a b c ha hbi hci hla hlb hlc
  refine ⟨?_, ho, ?_⟩
  · obtain ⟨w1, hrun, _, _, amounts, didread, htrace, hsum⟩ :=
      lookup_run abi filename bytes_per_row row column w content _
        (ltNat_of_geNat _ _ hb) (ltNat_of_geNat _ _ hr) (ltNat_of_geNat _ _ hc) hf ho
    rw [tablelookup_of_fields abi s filename bytes_per_row row column w hs]
    refine ⟨_, w1, hrun, ?_⟩
    rw [htrace]
    simp only [seekTotal_append, seekTotal, seekTotal_map_slseek, hsum]
    omega
  · have hp : 0 < 2 ^ abi.ulongBits := Nat.pow_pos (by decide)
    constructor
    · intro h
      rw [← h]
      exact Nat.mod_lt _ hp
    · exact Nat.mod_eq_of_lt

/-- C7 amended, at `file.bin 3 70000 5` on the EV3: the seeks add up to
`3 * 70000 + 5 = 210005`. -/
theorem tablelookup_seek_offset_witness :
    (∃ (r : Int) (w1 : World),
        tablelookup ev3 "file.bin 3 70000 5".toList fileBin = some (r, w1)
        ∧ seekTotal w1.trace = seekTotal fileBin.trace + (3 * 70000 + 5) % 2 ^ ev3.ulongBits)
    ∧ lookupOffset ev3 (roundF32 false 3 1) (roundF32 false 70000 1) (roundF32 false 5 1)
        = some ((3 * 70000 + 5) % 2 ^ ev3.ulongBits)
    ∧ ((3 * 70000 + 5) % 2 ^ ev3.ulongBits = 3 * 70000 + 5
        ↔ 3 * 70000 + 5 < 2 ^ ev3.ulongBits) :=
  tablelookup_seek_offset ev3 "file.bin 3 70000 5".toList "file.bin".toList
    (roundF32 false 3 1) (roundF32 false 70000 1) (roundF32 false 5 1) fileBin
    [10, 20, 30, 40, 50, 60] 3 70000 5
    (by decide) (by decide) (by decide) (by decide) (by decide) (by decide) (by decide)
    (by decide) (by decide) (by decide) (by decide)

/-! ## Offsets at or beyond the end of the file -/

/-- C6 as stated fails for large parameters: on the EV3 (32-bit
`unsigned long`) the valid request `file.bin 65536 65536 0` on the six-byte
file has the offset `65536 * 65536 = 2^32 >= 6`, yet the product wraps to 0
and byte 0 (value 10) is returned instead of 255; the same happens with a
64-bit `unsigned long` for `file.bin 4294967296 4294967296 0`. -/
theorem tablelookup_beyond_eof_counterexample :
    (sscanf "file.bin 65536 65536 0".toList
        = Scan.fields "file.bin".toList (roundF32 false 65536 1) (roundF32 false 65536 1)
            (roundF32 false 0 1)
      ∧ (roundF32 false 65536 1).geNat 1 = true
      ∧ exactOffset (roundF32 false 65536 1) (roundF32 false 65536 1) (roundF32 false 0 1)
          = some 4294967296
      ∧ fileBin.files "file.bin".toList = some [10, 20, 30, 40, 50, 60]
      ∧ returned (tablelookup ev3 "file.bin 65536 65536 0".toList fileBin) = some 10)
    ∧ returned (tablelookup lp64 "file.bin 4294967296 4294967296 0".toList fileBin)
        = some 10 := by
  decide

/-- C6, amended. For parsed parameters with `bytes_per_row >= 1`, `row >= 0`,
`column >= 0` whose integer parts `a`, `b`, `c` are below `2^w` (`w` the
width of `unsigned long`), on an existing file of length `n`: when the offset
as the code computes it, `(a * b + c) mod 2^w`, is `>= n`, `tablelookup`
returns 255. In particular so when `n <= a * b + c < 2^w`. -/
theorem tablelookup_beyond_eof (abi : ABI) (s filename : List Char)
    (bytes_per_row row column : F32) (w : World) (content : List Byte) (a b c : Nat)
    (hs : sscanf s = Scan.fields filename bytes_per_row row column)
    (hb : bytes_per_row.geNat 1 = true) (hr : row.geNat 0 = true)
    (hc : column.geNat 0 = true)
    (hf : w.files filename = some content)
    (ha : bytes_per_row.intPart = some a) (hbi : row.intPart = some b)
    (hci : column.intPart = some c)
    (hla : a < 2 ^ abi.ulongBits) (hlb : b < 2 ^ abi.ulongBits)
    (hlc : c < 2 ^ abi.ulongBits)
    (hn : content.length ≤ (a * b + c) % 2 ^ abi.ulongBits) :
    returned (tablelookup abi s w) = some 255 := by
  have ho := lookupOffset_of_intPart abi bytes_per_row row column a b c ha hbi hci hla hlb hlc
  obtain ⟨w1, hrun, _⟩ :=
    lookup_run abi filename bytes_per_row row column w content _
      (ltNat_of_geNat _ _ hb) (ltNat_of_geNat _ _ hr) (ltNat_of_geNat _ _ hc) hf ho
  have hget : content.get? ((a * b + c) % 2 ^ abi.ulongBits) = none :=
    List.get?_eq_none.mpr hn
  rw [tablelookup_of_fields abi s filename bytes_per_row row column w hs, hrun, hget]
  rfl

/-- C6 amended, at the scenario of the specification: `file.bin 2 3 0` on the
six-byte file, offset 6, gives 255. -/
theorem tablelookup_beyond_eof_witness :
    returned (tablelookup ev3 "file.bin 2 3 0".toList fileBin) = some 255 :=
  tablelookup_beyond_eof ev3 "file.bin 2 3 0".toList "file.bin".toList
    (roundF32 false 2 1) (roundF32 false 3 1) (roundF32 false 0 1) fileBin
    [10, 20, 30, 40, 50, 60] 2 3 0
    (by decide) (by decide) (by decide) (by decide) (by decide) (by decide) (by decide)
    (by decide) (by decide) (by decide) (by decide) (by decide)

/-! ## The returned value -/

/-- C2, the failing input: the byte 200 is returned as `-56` where plain
`char` is signed (as on x86 Linux), because `char value` is converted to `int`
by `return value`; where plain `char` is unsigned (as on the EV3) it is
returned as 200. -/
theorem processcommand_signed_char :
    returned (processcommand lp64 "tablelookup f 1 0 0".toList (oneFile "f".toList [200]))
      = some (-56)
    ∧ returned (processcommand ev3 "tablelookup f 1 0 0".toList (oneFile "f".toList [200]))
      = some 200 := by
  decide

theorem charToInt_range_unsigned (abi : ABI) (h : abi.charSigned = false) (value : Byte) :
    0 ≤ charToInt abi value ∧ charToInt abi value ≤ 255 := by
  unfold charToInt
  have := value.isLt
  simp only [h, Bool.false_eq_true, false_and, if_false]
  omega

/-- Where plain `char` is unsigned, every value `tablelookup` returns is in
`0 .. 255`. -/
theorem tablelookup_range_unsigned (abi : ABI) (h : abi.charSigned = false)
    (s : List Char) (w w1 : World) (r : Int) (hr : tablelookup abi s w = some (r, w1)) :
    0 ≤ r ∧ r ≤ 255 := by
  unfold tablelookup at hr
  split at hr
  · simp at hr
  · simp only [Option.some.injEq, Prod.mk.injEq] at hr
    omega
  · unfold lookup at hr
    split at hr
    · simp only [Option.some.injEq, Prod.mk.injEq] at hr
      omega
    · split at hr
      split at hr
      · simp only [Option.some.injEq, Prod.mk.injEq] at hr
        omega
      · simp only [] at hr
        split at hr
        · simp only [Option.some.injEq, Prod.mk.injEq] at hr
          omega
        · simp only [Option.some.injEq, Prod.mk.injEq] at hr
          rw [← hr.1]
          exact charToInt_range_unsigned abi h _

/-! ## Reading decimal integer parameters -/

theorem digit_facts (c : Char) (h : c ∈ decimalDigits) :
    (∃ d, digitVal c = some d) ∧ c ≠ '-' ∧ c ≠ '+' ∧ c ≠ '.' ∧ lower c ≠ 'i'
      ∧ lower c ≠ 'n' ∧ lower c ≠ 'x' ∧ lower c ≠ 'e' ∧ isspace c = false := by
  simp only [decimalDigits, List.mem_cons, List.mem_singleton, List.not_mem_nil, or_false] at h
  rcases h with h | h | h | h | h | h | h | h | h | h <;> subst h <;>
    exact ⟨⟨_, rfl⟩, by decide, by decide, by decide, by decide, by decide, by decide,
      by decide, by decide⟩

theorem space_facts (c : Char) (h : isspace c = true) :
    digitVal c = none ∧ c ≠ '.' ∧ lower c ≠ 'x' ∧ lower c ≠ 'e' := by
  simp only [isspace, Bool.or_eq_true, decide_eq_true_eq] at h
  rcases h with ((((h | h) | h) | h) | h) | h <;> subst h <;>
    exact ⟨by decide, by decide, by decide, by decide⟩

theorem readDigits_append (ds : List Char) (hds : ∀ c ∈ ds, c ∈ decimalDigits)
    (rest : List Char) (hrest : stopsNumber rest) :
    ∀ acc cnt : Nat, readDigits digitVal 10 (ds ++ rest) acc cnt
      = ((readDigits digitVal 10 ds acc cnt).1, cnt + ds.length, rest) := by
  induction ds with
  | nil =>
    intro acc cnt
    rcases hrest with h | ⟨c, r, h, hc⟩
    · subst h; rfl
    · subst h
      simp [readDigits, (space_facts c hc).1]
  | cons d t ih =>
    intro acc cnt
    obtain ⟨v, hv⟩ := (digit_facts d (hds d (List.mem_cons_self d t))).1
    have iht := ih (fun c hc => hds c (List.mem_cons_of_mem d hc)) (acc * 10 + v) (cnt + 1)
    have hstep : ∀ l, readDigits digitVal 10 (d :: l) acc cnt
        = readDigits digitVal 10 l (acc * 10 + v) (cnt + 1) := by
      intro l
      simp only [readDigits, hv]
    have harith : cnt + 1 + t.length = cnt + (t.length + 1) := by omega
    rw [List.cons_append, hstep, hstep, iht, List.length_cons, harith]

theorem scanFloat_decimal (ds : List Char) (hne : ds ≠ [])
    (hds : ∀ c ∈ ds, c ∈ decimalDigits) (rest : List Char) (hrest : stopsNumber rest) :
    scanFloat (ds ++ rest) = some (roundF32 false (decimalValue ds) 1, rest) := by
  cases ds with
  | nil => exact absurd rfl hne
  | cons d t =>
    obtain ⟨_, h1, h2, _, h4, h5, _, _, _⟩ := digit_facts d (hds d (List.mem_cons_self d t))
    have hx : (t ++ rest).head?.map lower ≠ some 'x' := by
      cases t with
      | nil =>
        rcases hrest with h | ⟨c, r, h, hc⟩
        · subst h; simp
        · subst h
          simpa using (space_facts c hc).2.2.1
      | cons d2 t2 =>
        have := (digit_facts d2 (hds d2 (by simp))).2.2.2.2.2.2.1
        simpa using this
    have hrd := readDigits_append (d :: t) hds rest hrest 0 0
    have hnum : scanNumber false digitVal 10 10 1 'e' (d :: t ++ rest)
        = some (roundF32 false (decimalValue (d :: t)) 1, rest) := by
      unfold scanNumber
      rw [hrd]
      rcases hrest with h | ⟨c, r, h, hc⟩
      · subst h
        simp [decimalValue, scaleRound]
      · subst h
        obtain ⟨_, hc2, _, hc4⟩ := space_facts c hc
        simp [decimalValue, scaleRound, hc2, hc4]
    simp only [scanFloat, List.cons_append, readSign, h1, h2, if_false, h4, h5, hx,
      and_false]
    exact hnum

theorem isDecimal_facts (ds : List Char) (h : isDecimal ds = true) :
    ds ≠ [] ∧ ∀ c ∈ ds, c ∈ decimalDigits := by
  unfold isDecimal at h
  simp only [Bool.and_eq_true, Bool.not_eq_true', List.isEmpty_eq_false, List.all_eq_true,
    decide_eq_true_eq] at h
  exact ⟨h.1, h.2⟩

theorem skipws_decimal (ds rest : List Char) (h : isDecimal ds = true) :
    skipws (ds ++ rest) = ds ++ rest := by
  obtain ⟨hne, hds⟩ := isDecimal_facts ds h
  cases ds with
  | nil => exact absurd rfl hne
  | cons d t =>
    have hd := (digit_facts d (hds d (List.mem_cons_self d t))).2.2.2.2.2.2.2.2
    simp [skipws, hd]

/-- What `sscanf` assigns on `<path> <bytes_per_row> <row> <column>` with
three decimal integers: the path and each integer rounded to a float. -/
theorem sscanf_decimal (path bprS rowS colS : List Char)
    (hp : isPathWord path = true) (hb : isDecimal bprS = true)
    (hr : isDecimal rowS = true) (hc : isDecimal colS = true) :
    sscanf (path ++ (' ' :: (bprS ++ (' ' :: (rowS ++ (' ' :: colS))))))
      = Scan.fields path (roundF32 false (decimalValue bprS) 1)
          (roundF32 false (decimalValue rowS) 1) (roundF32 false (decimalValue colS) 1) := by
  unfold isPathWord at hp
  simp only [Bool.and_eq_true, Bool.not_eq_true', List.isEmpty_eq_false, List.all_eq_true,
    decide_eq_true_eq] at hp
  obtain ⟨⟨hpne, hpall⟩, hplen⟩ := hp
  obtain ⟨hbne, hbds⟩ := isDecimal_facts bprS hb
  obtain ⟨hrne, hrds⟩ := isDecimal_facts rowS hr
  obtain ⟨hcne, hcds⟩ := isDecimal_facts colS hc
  have hsp : isspace ' ' = true := by decide
  have hstop : ∀ r, stopsNumber (' ' :: r) := fun r => Or.inr ⟨' ', r, rfl, hsp⟩
  have h0 : skipws (path ++ (' ' :: (bprS ++ (' ' :: (rowS ++ (' ' :: colS))))))
      = path ++ (' ' :: (bprS ++ (' ' :: (rowS ++ (' ' :: colS))))) := by
    cases path with
    | nil => exact absurd rfl hpne
    | cons p0 pt =>
      have := hpall p0 (List.mem_cons_self p0 pt)
      simp [skipws, this]
  have hne : path ++ (' ' :: (bprS ++ (' ' :: (rowS ++ (' ' :: colS))))) ≠ [] := by
    simp
  have htake : (path ++ (' ' :: (bprS ++ (' ' :: (rowS ++ (' ' :: colS)))))).takeWhile
      (fun c => !isspace c) = path := by
    rw [List.takeWhile_append_of_pos (by simpa using hpall)]
    simp [hsp]
  have hdrop : (path ++ (' ' :: (bprS ++ (' ' :: (rowS ++ (' ' :: colS)))))).dropWhile
      (fun c => !isspace c) = ' ' :: (bprS ++ (' ' :: (rowS ++ (' ' :: colS)))) := by
    rw [List.dropWhile_append_of_pos (by simpa using hpall)]
    simp [hsp]
  have hsk : ∀ ds r, isDecimal ds = true → skipws (' ' :: (ds ++ r)) = ds ++ r := by
    intro ds r hd
    have := skipws_decimal ds r hd
    unfold skipws at this ⊢
    rw [List.dropWhile_cons_of_pos hsp, this]
  have hend : stopsNumber [] := Or.inl rfl
  have hcol := scanFloat_decimal colS hcne hcds [] hend
  rw [List.append_nil] at hcol
  have hskc : skipws (' ' :: colS) = colS := by
    have := hsk colS [] hc
    rwa [List.append_nil] at this
  unfold sscanf
  simp only [h0, hne, if_false, htake, hdrop, Nat.not_le.mpr hplen, hsk _ _ hb,
    scanFloat_decimal bprS hbne hbds _ (hstop _), hsk _ _ hr,
    scanFloat_decimal rowS hrne hrds _ (hstop _), hskc, hcol]

theorem floatExact_intPart (n : Nat) (h : floatExact n = true) :
    (roundF32 false n 1).intPart = some n := by
  unfold floatExact at h
  generalize roundF32 false n 1 = x at h ⊢
  cases x with
  | nan => simp at h
  | inf neg => simp at h
  | finite neg m e =>
    cases neg with
    | true => simp at h
    | false =>
      simp only [] at h
      simp only [F32.intPart, truncMag, Option.some.injEq]
      split
      · rename_i he
        rw [if_pos he] at h
        simpa using h
      · rename_i he
        rw [if_neg he] at h
        simp only [decide_eq_true_eq] at h
        rw [h]
        exact Nat.mul_div_cancel _ (Nat.pow_pos (by decide))

theorem floatExact_geNat (n k : Nat) (h : floatExact n = true) (hk : k ≤ n) :
    (roundF32 false n 1).geNat k = true := by
  unfold floatExact at h
  generalize roundF32 false n 1 = x at h ⊢
  cases x with
  | nan => simp at h
  | inf neg => simp at h
  | finite neg m e =>
    cases neg with
    | true => simp at h
    | false =>
      simp only [] at h
      simp only [F32.geNat]
      split
      · rename_i he
        rw [if_pos he] at h
        simp only [decide_eq_true_eq] at h ⊢
        omega
      · rename_i he
        rw [if_neg he] at h
        simp only [decide_eq_true_eq] at h ⊢
        rw [h]
        exact Nat.mul_le_mul_right _ hk

/-! ## A lookup inside the file -/

theorem paddedFile_get (n : Nat) (tail : List Byte) (i : Nat) :
    (paddedFile n tail).get? (n + i) = tail.get? i := by
  unfold paddedFile
  simp [List.getElem?_append_right]

theorem paddedFile_length (n : Nat) (tail : List Byte) :
    (paddedFile n tail).length = n + tail.length := by
  unfold paddedFile
  simp

theorem paddedFile_get_zero (n : Nat) (tail : List Byte) (i : Nat) (h : i < n) :
    (paddedFile n tail).get? i = some 0 := by
  unfold paddedFile
  simp [List.getElem?_append_left, List.getElem?_replicate, h]

/-- C1 as stated fails for a parameter that is not a value of type `float`:
the file `f` has 16777218 bytes, byte 16777216 is 1 and byte 16777217 is 2;
for `f 1 0 16777217` the offset `1*0+16777217` is inside the file, but `%f`
stores the column as the float 16777216, and the byte at 16777216 is
returned (1) instead of the byte at 16777217 (2). It also fails when the
offset does not fit into `unsigned long`: with 32 bits, `f 65536 65536 0` on a
file of `2^32 + 1` bytes whose byte `2^32` is 7 reads offset 0 and returns
0. -/
theorem tablelookup_reads_byte_counterexample :
    (isPathWord "f".toList = true ∧ isDecimal "1".toList = true
      ∧ isDecimal "0".toList = true ∧ isDecimal "16777217".toList = true
      ∧ decimalValue "1".toList * decimalValue "0".toList + decimalValue "16777217".toList
          = 16777217
      ∧ (paddedFile 16777216 [1, 2]).length = 16777217 + 1
      ∧ (paddedFile 16777216 [1, 2]).get? 16777217 = some 2
      ∧ returned (tablelookup ev3 "f 1 0 16777217".toList
          (oneFile "f".toList (paddedFile 16777216 [1, 2]))) = some 1)
    ∧ (isDecimal "65536".toList = true
      ∧ decimalValue "65536".toList * decimalValue "65536".toList + decimalValue "0".toList
          = 4294967296
      ∧ (paddedFile 4294967296 [7]).length = 4294967296 + 1
      ∧ (paddedFile 4294967296 [7]).get? 4294967296 = some 7
      ∧ returned (tablelookup ev3 "f 65536 65536 0".toList
          (oneFile "f".toList (paddedFile 4294967296 [7]))) = some 0) := by
  refine ⟨⟨by decide, by decide, by decide, by decide, by decide, ?_, ?_, ?_⟩,
    ⟨by decide, by decide, ?_, ?_, ?_⟩⟩
  rotate_left 3
  · exact paddedFile_length 4294967296 [7]
  · exact paddedFile_get 4294967296 [7] 0
  · have h0 : (paddedFile 4294967296 [7]).get? 0 = some 0 :=
      paddedFile_get_zero 4294967296 [7] 0 (by decide)
    have hs : sscanf "f 65536 65536 0".toList
        = Scan.fields "f".toList (roundF32 false 65536 1) (roundF32 false 65536 1)
            (roundF32 false 0 1) := by decide
    obtain ⟨w1, hrun, _⟩ :=
      lookup_run ev3 "f".toList (roundF32 false 65536 1) (roundF32 false 65536 1)
        (roundF32 false 0 1) (oneFile "f".toList (paddedFile 4294967296 [7]))
        (paddedFile 4294967296 [7]) 0
        (by decide) (by decide) (by decide) (by rfl) (by decide)
    rw [tablelookup_of_fields ev3 _ _ _ _ _ _ hs, hrun, h0]
    rfl
  · exact paddedFile_length 16777216 [1, 2]
  · exact paddedFile_get 16777216 [1, 2] 1
  · have h16 : (paddedFile 16777216 [1, 2]).get? 16777216 = some 1 :=
      paddedFile_get 16777216 [1, 2] 0
    have hs : sscanf "f 1 0 16777217".toList
        = Scan.fields "f".toList (roundF32 false 1 1) (roundF32 false 0 1)
            (roundF32 false 16777217 1) := by decide
    obtain ⟨w1, hrun, _⟩ :=
      lookup_run ev3 "f".toList (roundF32 false 1 1) (roundF32 false 0 1)
        (roundF32 false 16777217 1) (oneFile "f".toList (paddedFile 16777216 [1, 2]))
        (paddedFile 16777216 [1, 2]) 16777216
        (by decide) (by decide) (by decide) (by rfl) (by decide)
    rw [tablelookup_of_fields ev3 _ _ _ _ _ _ hs, hrun, h16]
    rfl

/-- C1, amended. For a path word, decimal integers `bytes_per_row >= 1`, `row`
and `column` that are each a value of type `float` (no rounding by `%f`), with
`bytes_per_row` and the offset `bytes_per_row*row+column` below `2^w` (`w` the
width of `unsigned long`), and a file at the path that has a byte `value` at
that offset: `tablelookup` on `<path> <bytes_per_row> <row> <column>` returns
`value` as a number in `0 .. 255`, provided plain `char` is unsigned or
`value < 128`. -/
theorem tablelookup_reads_byte (abi : ABI) (w : World) (path bprS rowS colS : List Char)
    (content : List Byte) (value : Byte)
    (hp : isPathWord path = true) (hb : isDecimal bprS = true)
    (hr : isDecimal rowS = true) (hc : isDecimal colS = true)
    (heb : floatExact (decimalValue bprS) = true)
    (her : floatExact (decimalValue rowS) = true)
    (hec : floatExact (decimalValue colS) = true)
    (h1 : 1 ≤ decimalValue bprS)
    (hla : decimalValue bprS < 2 ^ abi.ulongBits)
    (hoff : decimalValue bprS * decimalValue rowS + decimalValue colS < 2 ^ abi.ulongBits)
    (hf : w.files path = some content)
    (hget : content.get? (decimalValue bprS * decimalValue rowS + decimalValue colS)
        = some value)
    (hchar : abi.charSigned = false ∨ value.val < 128) :
    returned (tablelookup abi (path ++ (' ' :: (bprS ++ (' ' :: (rowS ++ (' ' :: colS)))))) w)
      = some (value.val : Int) := by
  have hs := sscanf_decimal path bprS rowS colS hp hb hr hc
  have hlb : decimalValue rowS < 2 ^ abi.ulongBits :=
    Nat.lt_of_le_of_lt (Nat.le_trans (Nat.le_mul_of_pos_left _ h1) (Nat.le_add_right _ _)) hoff
  have hlc : decimalValue colS < 2 ^ abi.ulongBits :=
    Nat.lt_of_le_of_lt (Nat.le_add_left _ _) hoff
  have ho := lookupOffset_of_intPart abi _ _ _ _ _ _ (floatExact_intPart _ heb)
    (floatExact_intPart _ her) (floatExact_intPart _ hec) hla hlb hlc
  rw [Nat.mod_eq_of_lt hoff] at ho
  obtain ⟨w1, hrun, _⟩ :=
    lookup_run abi path _ _ _ w content _
      (ltNat_of_geNat _ _ (floatExact_geNat _ 1 heb h1))
      (ltNat_of_geNat _ _ (floatExact_geNat _ 0 her (Nat.zero_le _)))
      (ltNat_of_geNat _ _ (floatExact_geNat _ 0 hec (Nat.zero_le _))) hf ho
  rw [tablelookup_of_fields abi _ _ _ _ _ w hs, hrun, hget]
  have hv : charToInt abi value = (value.val : Int) := by
    unfold charToInt
    rcases hchar with h | h
    · simp [h]
    · rw [if_neg]
      omega
  simp [returned, hv]

/-- C1 amended, at the two scenarios of the specification: `file.bin 2 1 0`
gives 30 and `file.bin 2 2 1` gives 60. -/
theorem tablelookup_reads_byte_witness :
    returned (tablelookup ev3 "file.bin 2 1 0".toList fileBin) = some 30
    ∧ returned (tablelookup lp64 "file.bin 2 2 1".toList fileBin) = some 60 :=
  ⟨tablelookup_reads_byte ev3 fileBin "file.bin".toList "2".toList "1".toList "0".toList
      [10, 20, 30, 40, 50, 60] 30
      (by decide) (by decide) (by decide) (by decide) (by decide) (by decide) (by decide)
      (by decide) (by decide) (by decide) (by decide) (by decide) (by decide),
   tablelookup_reads_byte lp64 fileBin "file.bin".toList "2".toList "2".toList "1".toList
      [10, 20, 30, 40, 50, 60] 60
      (by decide) (by decide) (by decide) (by decide) (by decide) (by decide) (by decide)
      (by decide) (by decide) (by decide) (by decide) (by decide) (by decide)⟩

/-! ## Integers that are floats -/

theorem bitlenAux_spec : ∀ fuel n : Nat, n ≤ fuel → 0 < n →
    2 ^ (bitlenAux fuel n - 1) ≤ n ∧ n < 2 ^ bitlenAux fuel n ∧ 0 < bitlenAux fuel n := by
  intro fuel
  induction fuel with
  | zero => intro n h1 h2; omega
  | succ f ih =>
    intro n h1 h2
    have hn : n ≠ 0 := by omega
    simp only [bitlenAux, hn, if_false]
    by_cases h : n / 2 = 0
    · have h1n : n = 1 := by omega
      subst h1n
      cases f <;> simp [bitlenAux]
    · obtain ⟨a, b, c⟩ := ih (n / 2) (by omega) (by omega)
      generalize bitlenAux f (n / 2) = k at a b c ⊢
      obtain ⟨j, rfl⟩ : ∃ j, k = j + 1 := ⟨k - 1, by omega⟩
      simp only [Nat.add_sub_cancel] at a ⊢
      rw [pow_succ] at b ⊢
      refine ⟨?_, ?_, by omega⟩ <;> omega

theorem floorLog2_one (n : Nat) (hn : 0 < n) :
    floorLog2 n 1 = ((bitlen n - 1 : Nat) : Int) := by
  obtain ⟨a, _, c⟩ := bitlenAux_spec n n (Nat.le_refl n) hn
  have h1 : bitlen 1 = 1 := by decide
  unfold floorLog2
  rw [h1]
  change 2 ^ (bitlen n - 1) ≤ n at a
  change 0 < bitlen n at c
  have he : ((bitlen n : Int) - ((1 : Nat) : Int)) = ((bitlen n - 1 : Nat) : Int) := by omega
  simp only [he, Int.natCast_nonneg, if_true, Int.toNat_ofNat, Nat.one_mul, a]

/-- Every integer up to `2^24 = 16777216` is a value of type `float`. -/
theorem floatExact_of_le (n : Nat) (h : n ≤ 16777216) : floatExact n = true := by
  by_cases h0 : n = 0
  · subst h0; decide
  by_cases h24 : n = 16777216
  · subst h24; decide
  have hpos : 0 < n := by omega
  obtain ⟨a, b, c⟩ := bitlenAux_spec n n (Nat.le_refl n) hpos
  change 2 ^ (bitlen n - 1) ≤ n at a
  change n < 2 ^ bitlen n at b
  have hfl := floorLog2_one n hpos
  generalize bitlen n - 1 = L at a hfl
  have hL : L ≤ 23 := by
    by_contra hc
    have : 2 ^ 24 ≤ 2 ^ L := Nat.pow_le_pow_right (by decide) (by omega)
    omega
  have hmax : max (L : Int) (-126) = (L : Int) := by omega
  unfold floatExact roundF32
  simp only [h0, false_or, one_ne_zero, if_false, hfl, hmax]
  by_cases h23 : L = 23
  · subst h23
    have hlt : ¬ (340282366920938463463374607431768211456 ≤ n) := by omega
    simp [hlt, Nat.mod_one]
  · have hs : ¬ (0 : Int) ≤ (L : Int) - 23 := by omega
    simp [hs, Nat.mod_one]

/-! ## Lines with too few numbers -/

theorem scanFloat_nil : scanFloat [] = none := by decide

theorem scanFloat_badStart (c : Char) (t : List Char) (h : startsNumber c = false) :
    scanFloat (c :: t) = none := by
  simp only [startsNumber, Bool.or_eq_false_iff, decide_eq_false_iff_not] at h
  obtain ⟨⟨⟨⟨⟨hd0, hm⟩, hp⟩, hdot⟩, hi⟩, hn⟩ := h
  have hd : digitVal c = none := by
    cases hq : digitVal c with
    | none => rfl
    | some v => simp [hq] at hd0
  have h0 : c ≠ '0' := by
    intro hc
    subst hc
    simp [digitVal] at hd
  simp [scanFloat, readSign, hm, hp, hi, hn, h0, scanNumber, readDigits, hd, hdot]

theorem scanFloat_noNumberAhead (rest : List Char) (h : noNumberAhead rest = true) :
    scanFloat (skipws rest) = none ∧ stopsNumber rest := by
  cases rest with
  | nil => exact ⟨scanFloat_nil, Or.inl rfl⟩
  | cons c r =>
    simp only [noNumberAhead, Bool.and_eq_true] at h
    obtain ⟨hc, hs⟩ := h
    refine ⟨?_, Or.inr ⟨c, r, rfl, hc⟩⟩
    generalize skipws (c :: r) = x at hs ⊢
    cases x with
    | nil => exact scanFloat_nil
    | cons d t =>
      simp only [Bool.not_eq_true'] at hs
      exact scanFloat_badStart d t hs

/-- The conversion `%s` on a path word followed by nothing or by white space:
the word is stored and the scan goes on behind it. -/
theorem sscanf_path (path X : List Char) (hp : isPathWord path = true)
    (hX : stopsNumber X) :
    sscanf (path ++ X)
      = (match scanFloat (skipws X) with
         | none => Scan.count 1
         | some (bytes_per_row, r1) =>
           match scanFloat (skipws r1) with
           | none => Scan.count 2
           | some (row, r2) =>
             match scanFloat (skipws r2) with
             | none => Scan.count 3
             | some (column, _) => Scan.fields path bytes_per_row row column) := by
  unfold isPathWord at hp
  simp only [Bool.and_eq_true, Bool.not_eq_true', List.isEmpty_eq_false, List.all_eq_true,
    decide_eq_true_eq] at hp
  obtain ⟨⟨hpne, hpall⟩, hplen⟩ := hp
  have h0 : skipws (path ++ X) = path ++ X := by
    cases path with
    | nil => exact absurd rfl hpne
    | cons p0 pt =>
      have := hpall p0 (List.mem_cons_self p0 pt)
      simp [skipws, this]
  have hne : path ++ X ≠ [] := by simp [hpne]
  have htake : (path ++ X).takeWhile (fun c => !isspace c) = path := by
    rw [List.takeWhile_append_of_pos (by simpa using hpall)]
    rcases hX with h | ⟨c, r, h, hc⟩
    · subst h; simp
    · subst h; simp [hc]
  have hdrop : (path ++ X).dropWhile (fun c => !isspace c) = X := by
    rw [List.dropWhile_append_of_pos (by simpa using hpall)]
    rcases hX with h | ⟨c, r, h, hc⟩
    · subst h; simp
    · subst h; simp [hc]
  unfold sscanf
  simp only [h0, hne, if_false, htake, hdrop, Nat.not_le.mpr hplen]

theorem skipws_space (X : List Char) : skipws (' ' :: X) = skipws X := by
  unfold skipws
  exact List.dropWhile_cons_of_pos (by decide)

/-- A line with a path word and at most two decimal integers, after which no
further number follows, makes `sscanf` stop before the fourth field. -/
theorem sscanf_short (path : List Char) (params : List (List Char)) (rest : List Char)
    (hp : isPathWord path = true) (hk : params.length < 3)
    (hd : ∀ p ∈ params, isDecimal p = true) (hrest : noNumberAhead rest = true) :
    sscanf (path ++ (joinParams params ++ rest)) = Scan.count (params.length + 1) := by
  obtain ⟨hnone, hstop⟩ := scanFloat_noNumberAhead rest hrest
  have hsp : ∀ r, stopsNumber (' ' :: r) := fun r => Or.inr ⟨' ', r, rfl, by decide⟩
  match params, hk, hd with
  | [], _, _ =>
    rw [sscanf_path path _ hp (by simpa [joinParams] using hstop)]
    simp [joinParams, hnone]
  | [b], _, hd =>
    have hb := hd b (by simp)
    obtain ⟨hbne, hbds⟩ := isDecimal_facts b hb
    rw [sscanf_path path _ hp (by simpa [joinParams] using hsp _)]
    simp only [joinParams, List.append_nil, List.cons_append, skipws_space,
      skipws_decimal b rest hb, scanFloat_decimal b hbne hbds rest hstop, hnone]
    rfl
  | [b, r], _, hd =>
    have hb := hd b (by simp)
    have hr := hd r (by simp)
    obtain ⟨hbne, hbds⟩ := isDecimal_facts b hb
    obtain ⟨hrne, hrds⟩ := isDecimal_facts r hr
    rw [sscanf_path path _ hp (by simpa [joinParams] using hsp _)]
    simp only [joinParams, List.append_nil, List.cons_append, List.append_assoc,
      skipws_space, skipws_decimal b _ hb, scanFloat_decimal b hbne hbds _ (hsp _),
      skipws_decimal r rest hr, scanFloat_decimal r hrne hrds rest hstop, hnone]
    rfl
  | _ :: _ :: _ :: _, hk, _ => exact absurd hk (by simp)

/-! ## Parameters that are missing or not numbers -/

/-- C4 as stated fails: `%f` takes the characters that can continue a
floating constant and stores what of them converts, so a third parameter that
is not a number but begins with one (`0abc`) is read as that number, and two
parameter words can supply three numbers (`2` and `1+0`); in both cases the
lookup is carried out and byte 2 of the file (30) is returned instead of 255.
A parameter with an exponent marker and no exponent (`2e`) is stored as its
mantissa: `file.bin 1 2e 3` reads offset 5 (the byte 60). -/
theorem processcommand_numeric_prefix_counterexample :
    (words "file.bin 2 1 0abc".toList
        = ["file.bin".toList, "2".toList, "1".toList, "0abc".toList]
      ∧ isNumber "0abc".toList = false
      ∧ returned (processcommand ev3 "tablelookup file.bin 2 1 0abc".toList fileBin)
          = some 30)
    ∧ (words "file.bin 2 1+0".toList = ["file.bin".toList, "2".toList, "1+0".toList]
      ∧ returned (processcommand ev3 "tablelookup file.bin 2 1+0".toList fileBin)
          = some 30)
    ∧ (words "file.bin 1 2e 3".toList
        = ["file.bin".toList, "1".toList, "2e".toList, "3".toList]
      ∧ returned (processcommand ev3 "tablelookup file.bin 1 2e 3".toList fileBin)
          = some 60) := by
  decide

/-- C4, amended. For every command line that begins with `tablelookup `:
when `sscanf` assigns fewer than four fields on the tail (its result is a
count other than 4: there is no path, or one of the three `%f` conversions
after the path finds, after optional white space, no character that can begin
a floating constant or none that converts), `processcommand` returns 255 in
every state and issues no system call. In particular this is so when the tail
is a path word followed by at most two decimal integers, each after one space,
and then by nothing or by white space and a word that cannot begin a number. -/
theorem processcommand_short_scan (abi : ABI) (w : World) :
    (∀ (t : List Char) (n : Int), sscanf t = Scan.count n →
      processcommand abi ("tablelookup ".toList ++ t) w = some (255, w))
    ∧ (∀ (path : List Char) (params : List (List Char)) (rest : List Char),
        isPathWord path = true → params.length < 3 →
        (∀ p ∈ params, isDecimal p = true) → noNumberAhead rest = true →
        processcommand abi ("tablelookup ".toList ++ (path ++ (joinParams params ++ rest))) w
          = some (255, w)) := by
  constructor
  · intro t n h
    rw [processcommand_keyword, tablelookup_of_count abi t n w h]
  · intro path params rest hp hk hd hrest
    rw [processcommand_keyword,
      tablelookup_of_count abi _ _ w (sscanf_short path params rest hp hk hd hrest)]

/-- C4 amended, at a tail with two numbers, a tail with the path alone, an
empty tail, a tail whose second parameter does not begin with a number, and a
tail with one number and a newline. -/
theorem processcommand_short_scan_witness :
    processcommand ev3 ("tablelookup ".toList ++ "file.bin 2 1".toList) fileBin
      = some (255, fileBin)
    ∧ processcommand ev3 ("tablelookup ".toList ++ "file.bin".toList) fileBin
      = some (255, fileBin)
    ∧ processcommand ev3 ("tablelookup ".toList ++ "".toList) fileBin
      = some (255, fileBin)
    ∧ processcommand ev3 ("tablelookup ".toList
        ++ ("file.bin".toList ++ (joinParams ["2".toList] ++ " x 0".toList))) fileBin
      = some (255, fileBin)
    ∧ processcommand lp64 ("tablelookup ".toList
        ++ ("file.bin".toList ++ (joinParams ["2".toList] ++ "\n".toList))) fileBin
      = some (255, fileBin) :=
  ⟨(processcommand_short_scan ev3 fileBin).1 "file.bin 2 1".toList 3 (by decide),
   (processcommand_short_scan ev3 fileBin).1 "file.bin".toList 1 (by decide),
   (processcommand_short_scan ev3 fileBin).1 "".toList (-1) (by decide),
   (processcommand_short_scan ev3 fileBin).2 "file.bin".toList ["2".toList] " x 0".toList
      (by decide) (by decide) (by decide) (by decide),
   (processcommand_short_scan lp64 fileBin).2 "file.bin".toList ["2".toList] "\n".toList
      (by decide) (by decide) (by decide) (by decide)⟩

/-! ## The two run modes on known inputs -/

/-- The persistent-mode scenario of the specification, a single invocation,
and a byte above 127 where plain `char` is signed. -/
theorem main_values :
    (main ev3 ["native".toList] "tablelookup file.bin 2 0 0\nbogus command\n".toList
        fileBin).map (fun run => (run.stdout, run.status))
      = some ("10\n255\nEnding native code process...\n".toList, 0)
    ∧ (main ev3 ["native".toList, "tablelookup".toList, "file.bin".toList, "2".toList,
          "2".toList, "1".toList] [] fileBin).map (fun run => (run.stdout, run.status))
      = some ([], 60)
    ∧ (main lp64 ["native".toList] "tablelookup f 1 0 0\n".toList
        (oneFile "f".toList [200])).map (fun run => (run.stdout, run.status))
      = some ("-56\nEnding native code process...\n".toList, 0)
    ∧ (main lp64 ["native".toList, "tablelookup".toList, "f".toList, "1".toList,
          "0".toList, "0".toList] [] (oneFile "f".toList [200])).map
        (fun run => (run.status, exitStatus run.status))
      = some (-56, 200) := by
  decide

/-! ## The steps of the seek loop -/

theorem seekAmounts_small (M off : Nat) (h0 : 0 < off) (h1 : off ≤ M) :
    List.replicate ((off - 1) / M) M ++ [off - (off - 1) / M * M] = [off] := by
  have : (off - 1) / M = 0 := Nat.div_eq_of_lt (by omega)
  simp [this]

theorem seekAmounts_large (M off : Nat) (hM : 0 < M) (h1 : M < off) :
    List.replicate ((off - 1) / M) M ++ [off - (off - 1) / M * M]
      = M :: (List.replicate ((off - M - 1) / M) M ++ [off - M - (off - M - 1) / M * M]) := by
  have hd : (off - 1) / M = (off - M - 1) / M + 1 := by
    have : off - 1 = off - M - 1 + M := by omega
    rw [this, Nat.add_div_right _ hM]
  have hle : (off - M - 1) / M * M ≤ off - M - 1 := Nat.div_mul_le_self _ _
  rw [hd, List.replicate_succ, Nat.succ_mul, List.cons_append]
  congr 2
  generalize (off - M - 1) / M * M = x at hle
  congr 1
  omega

/-- The calls the seek loop issues are exactly the seeks by `seekAmounts off`,
in that order. -/
theorem seekLoop_trace (fd : Int) :
    ∀ (off : Nat) (w : World),
      (seekLoop w fd off).trace = w.trace ++ (seekAmounts off).map (Syscall.slseek fd) := by
  intro off
  induction off using Nat.strong_induction_on with
  | _ off ih =>
    intro w
    rw [seekLoop_eq]
    have hm := MAXSEEK_pos
    unfold seekAmounts
    by_cases h0 : 0 < off
    · rw [if_pos h0, if_neg (by omega : ¬ off = 0)]
      by_cases h1 : off ≤ MAXSEEK
      · rw [if_pos h1, seekAmounts_small MAXSEEK off h0 h1]
        rfl
      · rw [if_neg h1, ih (off - MAXSEEK) (by omega) (sys_lseek w fd MAXSEEK)]
        have hlarge := seekAmounts_large MAXSEEK off hm (by omega)
        have hne : ¬ off - MAXSEEK = 0 := by omega
        unfold seekAmounts
        rw [if_neg hne, hlarge]
        generalize MAXSEEK = M
        rw [List.map_cons]
        exact List.append_assoc w.trace [Syscall.slseek fd M] _
    · have : off = 0 := by omega
      subst this
      simp

theorem seekAmounts_bounds (off : Nat) :
    (∀ a ∈ seekAmounts off, 1 ≤ a ∧ a ≤ MAXSEEK)
    ∧ (seekAmounts off).length = (off + MAXSEEK - 1) / MAXSEEK
    ∧ (seekAmounts off).sum = off := by
  have hm := MAXSEEK_pos
  unfold seekAmounts
  generalize MAXSEEK = M at hm ⊢
  by_cases h0 : off = 0
  · subst h0
    have : (M - 1) / M = 0 := Nat.div_eq_of_lt (by omega)
    simp [this]
  · rw [if_neg h0]
    have hle : (off - 1) / M * M ≤ off - 1 := Nat.div_mul_le_self _ _
    have hlt : off - 1 < M * ((off - 1) / M + 1) := Nat.lt_mul_div_succ _ hm
    have hlen : (off + M - 1) / M = (off - 1) / M + 1 := by
      have : off + M - 1 = off - 1 + M := by omega
      rw [this, Nat.add_div_right _ hm]
    rw [Nat.mul_add, Nat.mul_one, Nat.mul_comm] at hlt
    refine ⟨?_, ?_, ?_⟩
    · intro a ha
      simp only [List.mem_append, List.mem_replicate, List.mem_singleton] at ha
      generalize (off - 1) / M * M = x at hle hlt ha
      rcases ha with ⟨_, rfl⟩ | rfl <;> omega
    · simp [hlen]
    · simp only [List.sum_append, List.sum_replicate, smul_eq_mul, List.sum_cons,
        List.sum_nil, Nat.add_zero]
      generalize (off - 1) / M * M = x at hle hlt
      omega

/-- C15. The seeks the loop issues on `fd` are those of `seekAmounts off`:
each advances by an amount in `1 .. MAXSEEK`; their number is
`ceil (off / MAXSEEK)` and their amounts add up to `off`; while the remaining
offset exceeds `MAXSEEK` the loop seeks by exactly `MAXSEEK` and goes on with
the remainder lowered by `MAXSEEK`; a remainder in `1 .. MAXSEEK` takes one
last seek; and offset 0 issues no seek at all. -/
theorem seekLoop_steps (w : World) (fd : Int) (off : Nat) :
    (seekLoop w fd off).trace = w.trace ++ (seekAmounts off).map (Syscall.slseek fd)
    ∧ (∀ a ∈ seekAmounts off, 1 ≤ a ∧ a ≤ MAXSEEK)
    ∧ (seekAmounts off).length = (off + MAXSEEK - 1) / MAXSEEK
    ∧ (seekAmounts off).sum = off
    ∧ (MAXSEEK < off →
        seekLoop w fd off = seekLoop (sys_lseek w fd MAXSEEK) fd (off - MAXSEEK))
    ∧ (0 < off → off ≤ MAXSEEK → seekLoop w fd off = sys_lseek w fd off)
    ∧ seekLoop w fd 0 = w := by
  obtain ⟨hb, hl, hs⟩ := seekAmounts_bounds off
  refine ⟨seekLoop_trace fd off w, hb, hl, hs, ?_, ?_, ?_⟩
  · intro h
    have hm := MAXSEEK_pos
    rw [seekLoop_eq, if_pos (by omega), if_neg (by omega)]
  · intro h0 h1
    rw [seekLoop_eq, if_pos h0, if_pos h1]
  · rw [seekLoop_eq]
    simp

/-- C15, at the offset 5000000000: three seeks, by 2147483647, 2147483647 and
705032706. -/
theorem seekLoop_steps_witness :
    (seekLoop fileBin 3 5000000000).trace
      = [Syscall.slseek 3 2147483647, Syscall.slseek 3 2147483647,
         Syscall.slseek 3 705032706]
    ∧ (seekAmounts 5000000000).length = 3 :=
  ⟨(seekLoop_steps fileBin 3 5000000000).1.trans (by decide),
   (seekLoop_steps fileBin 3 5000000000).2.2.1.trans (by decide)⟩

/-! ## The keyword is stripped -/

/-- C14. For every string `t`, `processcommand` on `tablelookup ` followed by
`t` passes exactly `t` (the line without its first 12 characters) to
`tablelookup` and returns that call's result and final state unchanged. -/
theorem processcommand_strips_keyword (abi : ABI) (t : List Char) (w : World) :
    ("tablelookup ".toList ++ t).drop 12 = t
    ∧ processcommand abi ("tablelookup ".toList ++ t) w = tablelookup abi t w :=
  ⟨rfl, processcommand_keyword abi t w⟩

/-! ## The system calls of one lookup -/

/-- The run of `lookup` that reaches the file, with every call it issues:
`open`, the seeks of `seekAmounts off`, one `read` (of one byte when the file
has a byte at `off`, of none otherwise) and `close`. -/
theorem lookup_run_trace (abi : ABI) (filename : List Char) (bytes_per_row row column : F32)
    (w : World) (content : List Byte) (off : Nat)
    (hb : bytes_per_row.ltNat 1 = false) (hr : row.ltNat 0 = false)
    (hc : column.ltNat 0 = false)
    (hf : w.files filename = some content)
    (ho : seekOffset abi bytes_per_row row column = off) :
    ∃ w' : World,
      lookup abi filename bytes_per_row row column w
        = some ((match content.get? off with
                 | some b => charToInt abi b
                 | none => 255), w')
      ∧ w'.files = w.files ∧ w'.fdtab = w.fdtab
      ∧ w'.trace = w.trace ++ Syscall.sopen filename (freshFd w.fdtab)
          :: ((seekAmounts off).map (Syscall.slseek (freshFd w.fdtab))
              ++ [Syscall.sread (freshFd w.fdtab) (if (content.get? off).isSome then 1 else 0),
                  Syscall.sclose (freshFd w.fdtab)]) := by
  have hfd := freshFd_nonneg w.fdtab
  generalize hfdv : freshFd w.fdtab = fd at hfd ⊢
  obtain ⟨hfiles, htab, _⟩ :=
    seekLoop_spec fd off
      { w with fdtab := (fd, { path := filename, pos := 0 }) :: w.fdtab,
               trace := w.trace ++ [Syscall.sopen filename fd] }
  have htrace := seekLoop_trace fd off
      { w with fdtab := (fd, { path := filename, pos := 0 }) :: w.fdtab,
               trace := w.trace ++ [Syscall.sopen filename fd] }
  have hlk : lookup abi filename bytes_per_row row column w
      = (match sys_read (seekLoop
            { w with fdtab := (fd, { path := filename, pos := 0 }) :: w.fdtab,
                     trace := w.trace ++ [Syscall.sopen filename fd] } fd off) fd with
         | (didread, value, w3) =>
           if didread ≠ 1 then some (255, sys_close w3 fd)
           else some (charToInt abi value, sys_close w3 fd)) := by
    unfold lookup
    simp only [hb, hr, hc, Bool.or_self, Bool.false_eq_true, if_false, sys_open, hf, ho,
      hfdv, if_neg hfd]
  rw [hlk]
  generalize seekLoop
      { w with fdtab := (fd, { path := filename, pos := 0 }) :: w.fdtab,
               trace := w.trace ++ [Syscall.sopen filename fd] } fd off = W2
    at hfiles htab htrace ⊢
  simp only [] at hfiles htab htrace
  have hlook : fdLookup fd W2.fdtab = some { path := filename, pos := off } := by
    rw [htab]
    simp [fdUpdate, fdLookup]
  unfold sys_read
  rw [hlook]
  simp only [hfiles, hf, Option.some_bind, List.get?_eq_getElem?]
  cases hget : content[off]? with
  | none =>
    refine ⟨sys_close { W2 with trace := W2.trace ++ [Syscall.sread fd 0] } fd,
      ?_, ?_, ?_, ?_⟩
    · simp [hfiles]
    · simp [sys_close, hfiles]
    · simp [sys_close, htab, fdUpdate, fdRemove]
    · simp [sys_close, htrace]
  | some b =>
    refine ⟨sys_close { W2 with
        fdtab := fdUpdate fd (fun f => { f with pos := f.pos + 1 }) W2.fdtab,
        trace := W2.trace ++ [Syscall.sread fd 1] } fd,
      ?_, ?_, ?_, ?_⟩
    · simp [hfiles]
    · simp [sys_close, hfiles]
    · simp [sys_close, htab, fdUpdate, fdRemove]
    · simp [sys_close, htrace]

/-- The body of `tablelookup` returns on every request and in every state. -/
theorem lookup_total (abi : ABI) (filename : List Char) (bytes_per_row row column : F32)
    (w : World) : ∃ (r : Int) (w1 : World),
      lookup abi filename bytes_per_row row column w = some (r, w1) := by
  by_cases hrange : (bytes_per_row.ltNat 1 || row.ltNat 0 || column.ltNat 0) = true
  · exact ⟨255, w, by unfold lookup; rw [if_pos hrange]⟩
  · have hr3 : bytes_per_row.ltNat 1 = false ∧ row.ltNat 0 = false
        ∧ column.ltNat 0 = false := by
      simp only [Bool.or_eq_true, not_or, Bool.not_eq_true] at hrange
      exact ⟨hrange.1.1, hrange.1.2, hrange.2⟩
    cases hf : w.files filename with
    | none =>
      refine ⟨255, { w with trace := w.trace ++ [Syscall.sopen filename (-1)] }, ?_⟩
      unfold lookup
      rw [if_neg hrange]
      simp only [sys_open, hf, Int.reduceNeg, Int.reduceLT, if_true]
    | some content =>
      obtain ⟨w2, hrun, _⟩ :=
        lookup_run_trace abi filename bytes_per_row row column w content _
          hr3.1 hr3.2.1 hr3.2.2 hf rfl
      exact ⟨_, w2, hrun⟩

/-- The function `tablelookup` returns on every parameter string whose first
word fits into `filename`, in every state. -/
theorem tablelookup_total (abi : ABI) (s : List Char) (w : World)
    (h : sscanf s ≠ Scan.overrun) :
    ∃ (r : Int) (w1 : World), tablelookup abi s w = some (r, w1) := by
  unfold tablelookup
  cases hs : sscanf s with
  | overrun => exact absurd hs h
  | count n => exact ⟨255, w, rfl⟩
  | fields filename b ro c => exact lookup_total abi filename b ro c w

/-- Every run of `lookup` leaves the files and the descriptor table as
they were, and issues no call at all (range check failed), or one failed
`open`, or `open`, seeks, one `read` and `close` on the new descriptor. -/
theorem lookup_events (abi : ABI) (filename : List Char) (bytes_per_row row column : F32)
    (w w1 : World) (res : Int)
    (h : lookup abi filename bytes_per_row row column w = some (res, w1)) :
    w1.files = w.files ∧ w1.fdtab = w.fdtab
    ∧ (w1 = w
      ∨ (w.files filename = none
          ∧ w1.trace = w.trace ++ [Syscall.sopen filename (-1)])
      ∨ ∃ (off : Nat) (didread : Int), (didread = 0 ∨ didread = 1)
          ∧ (w.files filename).isSome = true
          ∧ w1.trace = w.trace ++ Syscall.sopen filename (freshFd w.fdtab)
              :: ((seekAmounts off).map (Syscall.slseek (freshFd w.fdtab))
                  ++ [Syscall.sread (freshFd w.fdtab) didread,
                      Syscall.sclose (freshFd w.fdtab)])) := by
  by_cases hrange : (bytes_per_row.ltNat 1 || row.ltNat 0 || column.ltNat 0) = true
  · unfold lookup at h
    rw [if_pos hrange] at h
    simp only [Option.some.injEq, Prod.mk.injEq] at h
    obtain ⟨_, hw⟩ := h
    subst hw
    exact ⟨rfl, rfl, Or.inl rfl⟩
  · have hr3 : bytes_per_row.ltNat 1 = false ∧ row.ltNat 0 = false
        ∧ column.ltNat 0 = false := by
      simp only [Bool.or_eq_true, not_or, Bool.not_eq_true] at hrange
      exact ⟨hrange.1.1, hrange.1.2, hrange.2⟩
    cases hf : w.files filename with
    | none =>
      unfold lookup at h
      rw [if_neg hrange] at h
      simp only [sys_open, hf, Int.reduceNeg, Int.reduceLT, if_true, Option.some.injEq,
        Prod.mk.injEq] at h
      obtain ⟨_, hw⟩ := h
      subst hw
      exact ⟨rfl, rfl, Or.inr (Or.inl ⟨rfl, rfl⟩)⟩
    | some content =>
      obtain ⟨w2, hrun, hfiles, htab, htrace⟩ :=
        lookup_run_trace abi filename bytes_per_row row column w content _
          hr3.1 hr3.2.1 hr3.2.2 hf rfl
      rw [hrun] at h
      simp only [Option.some.injEq, Prod.mk.injEq] at h
      obtain ⟨_, hw⟩ := h
      subst hw
      refine ⟨hfiles, htab, Or.inr (Or.inr ⟨_, _, ?_, rfl, htrace⟩)⟩
      cases (content.get? (seekOffset abi bytes_per_row row column)).isSome <;> simp

/-- Every run of `tablelookup` that returns: no call at all, or, with the path that
`sscanf` assigned, one failed `open`, or `open`, seeks, one `read` and `close`
on the new descriptor. -/
theorem tablelookup_events (abi : ABI) (s : List Char) (w w1 : World) (r : Int)
    (h : tablelookup abi s w = some (r, w1)) :
    w1.files = w.files ∧ w1.fdtab = w.fdtab
    ∧ (w1 = w
      ∨ ∃ (filename : List Char) (b ro c : F32), sscanf s = Scan.fields filename b ro c
          ∧ ((w.files filename = none
              ∧ w1.trace = w.trace ++ [Syscall.sopen filename (-1)])
            ∨ ∃ (off : Nat) (didread : Int), (didread = 0 ∨ didread = 1)
                ∧ (w.files filename).isSome = true
                ∧ w1.trace = w.trace ++ Syscall.sopen filename (freshFd w.fdtab)
                    :: ((seekAmounts off).map (Syscall.slseek (freshFd w.fdtab))
                        ++ [Syscall.sread (freshFd w.fdtab) didread,
                            Syscall.sclose (freshFd w.fdtab)]))) := by
  cases hs : sscanf s with
  | overrun =>
    unfold tablelookup at h
    rw [hs] at h
    simp at h
  | count n =>
    rw [tablelookup_of_count abi s n w hs] at h
    simp only [Option.some.injEq, Prod.mk.injEq] at h
    obtain ⟨_, hw⟩ := h
    subst hw
    exact ⟨rfl, rfl, Or.inl rfl⟩
  | fields filename b ro c =>
    rw [tablelookup_of_fields abi s filename b ro c w hs] at h
    obtain ⟨hf, ht, hcases⟩ := lookup_events abi filename b ro c w w1 r h
    refine ⟨hf, ht, ?_⟩
    rcases hcases with h1 | h2 | h3
    · exact Or.inl h1
    · exact Or.inr ⟨filename, b, ro, c, rfl, Or.inl h2⟩
    · exact Or.inr ⟨filename, b, ro, c, rfl, Or.inr h3⟩

/-! ## File handles -/

/-- C16. In every state, `tablelookup` returns on every parameter string whose
first word fits into `filename` (the requests whose numbers are outside the
range of `unsigned long`, infinities and NaN included), and whenever it
returns, the table of open descriptors is what it was before the call. Either
no system call was issued (so it is when `sscanf` assigns fewer than four
fields and when the range check fails), or the only call is an `open` that
failed (no descriptor acquired), or `open` succeeded and its descriptor is
closed after the one `read`, whether that read a byte (`didread = 1`) or not
(`didread = 0`). -/
theorem tablelookup_handles (abi : ABI) (s : List Char) (w : World) :
    (sscanf s ≠ Scan.overrun →
      ∃ (r : Int) (w1 : World), tablelookup abi s w = some (r, w1))
    ∧ ∀ (r : Int) (w1 : World), tablelookup abi s w = some (r, w1) →
      w1.fdtab = w.fdtab
      ∧ (w1 = w
        ∨ (∃ filename : List Char, w.files filename = none
            ∧ w1.trace = w.trace ++ [Syscall.sopen filename (-1)])
        ∨ (∃ (filename : List Char) (off : Nat) (didread : Int),
            (w.files filename).isSome = true ∧ (didread = 0 ∨ didread = 1)
            ∧ 0 ≤ freshFd w.fdtab
            ∧ w1.trace = w.trace ++ Syscall.sopen filename (freshFd w.fdtab)
                :: ((seekAmounts off).map (Syscall.slseek (freshFd w.fdtab))
                    ++ [Syscall.sread (freshFd w.fdtab) didread,
                        Syscall.sclose (freshFd w.fdtab)])))
      ∧ ((∃ n, sscanf s = Scan.count n) → w1 = w)
      ∧ (∀ (filename : List Char) (b ro c : F32), sscanf s = Scan.fields filename b ro c →
          (b.ltNat 1 || ro.ltNat 0 || c.ltNat 0) = true → w1 = w) := by
  refine ⟨tablelookup_total abi s w, ?_⟩
  intro r w1 h
  obtain ⟨_, ht, hcases⟩ := tablelookup_events abi s w w1 r h
  refine ⟨ht, ?_, ?_, ?_⟩
  · rcases hcases with h1 | ⟨filename, b, ro, c, _, h2 | ⟨off, d, hd, hsome, htr⟩⟩
    · exact Or.inl h1
    · exact Or.inr (Or.inl ⟨filename, h2⟩)
    · exact Or.inr (Or.inr ⟨filename, off, d, hsome, hd,
        Int.not_lt.mp (freshFd_nonneg w.fdtab), htr⟩)
  · rintro ⟨n, hn⟩
    rw [tablelookup_of_count abi s n w hn] at h
    simp only [Option.some.injEq, Prod.mk.injEq] at h
    exact h.2.symm
  · intro filename b ro c hs hrange
    rw [tablelookup_of_fields abi s filename b ro c w hs] at h
    unfold lookup at h
    rw [if_pos hrange] at h
    simp only [Option.some.injEq, Prod.mk.injEq] at h
    exact h.2.symm

/-- C16, in a state with descriptor 0 already open on another file: a
successful read runs on descriptor 1 and leaves the table with descriptor 0
alone, and so do a read beyond the end of the file, a missing file, and the
requests with an infinite column and with three NaN, which return as well. -/
theorem tablelookup_handles_witness :
    (tablelookup ev3 "file.bin 2 1 0".toList busyWorld
        = some (30, { files := fileBin.files,
                      fdtab := [(0, { path := "other".toList, pos := 7 })],
                      trace := [Syscall.sopen "file.bin".toList 1, Syscall.slseek 1 2,
                        Syscall.sread 1 1, Syscall.sclose 1] })
      ∧ ({ files := fileBin.files,
           fdtab := [(0, { path := "other".toList, pos := 7 })],
           trace := [Syscall.sopen "file.bin".toList 1, Syscall.slseek 1 2,
             Syscall.sread 1 1, Syscall.sclose 1] } : World).fdtab = busyWorld.fdtab)
    ∧ (tablelookup ev3 "file.bin 2 3 0".toList busyWorld).map
        (fun p => (p.1, p.2.fdtab, p.2.trace))
      = some (255, [(0, { path := "other".toList, pos := 7 })],
          [Syscall.sopen "file.bin".toList 1, Syscall.slseek 1 6, Syscall.sread 1 0,
           Syscall.sclose 1])
    ∧ (tablelookup ev3 "missing 2 3 0".toList busyWorld).map
        (fun p => (p.1, p.2.fdtab, p.2.trace))
      = some (255, [(0, { path := "other".toList, pos := 7 })],
          [Syscall.sopen "missing".toList (-1)])
    ∧ (∃ (r : Int) (w1 : World),
        tablelookup ev3 "file.bin 1 0 inf".toList busyWorld = some (r, w1)
        ∧ w1.fdtab = busyWorld.fdtab)
    ∧ (∃ (r : Int) (w1 : World),
        tablelookup lp64 "file.bin nan nan nan".toList busyWorld = some (r, w1)
        ∧ w1.fdtab = busyWorld.fdtab) :=
  ⟨⟨by rfl,
    ((tablelookup_handles ev3 "file.bin 2 1 0".toList busyWorld).2 30
      { files := fileBin.files,
        fdtab := [(0, { path := "other".toList, pos := 7 })],
        trace := [Syscall.sopen "file.bin".toList 1, Syscall.slseek 1 2, Syscall.sread 1 1,
          Syscall.sclose 1] } (by rfl)).1⟩,
   rfl, rfl,
   ((tablelookup_handles ev3 "file.bin 1 0 inf".toList busyWorld).1 (by decide)).elim
     (fun r hr => hr.elim (fun w1 h => ⟨r, w1, h,
       ((tablelookup_handles ev3 "file.bin 1 0 inf".toList busyWorld).2 r w1 h).1⟩)),
   ((tablelookup_handles lp64 "file.bin nan nan nan".toList busyWorld).1 (by decide)).elim
     (fun r hr => hr.elim (fun w1 h => ⟨r, w1, h,
       ((tablelookup_handles lp64 "file.bin nan nan nan".toList busyWorld).2 r w1 h).1⟩))⟩

/-! ## Effects on the file system -/

theorem openedPaths_seeks (fd : Int) (amounts : List Nat) (rest : List Syscall) :
    openedPaths (amounts.map (Syscall.slseek fd) ++ rest) = openedPaths rest := by
  induction amounts with
  | nil => rfl
  | cons a t ih => simpa [openedPaths] using ih

theorem bytesRead_seeks (fd : Int) (amounts : List Nat) (rest : List Syscall) :
    bytesRead (amounts.map (Syscall.slseek fd) ++ rest) = bytesRead rest := by
  induction amounts with
  | nil => rfl
  | cons a t ih => simpa [bytesRead] using ih

/-- C17. In every state, `processcommand` returns on every command line (but
where `sscanf` would write past `filename`: a first word of 1000 characters or
more after the keyword), and whenever it returns, the files are what they
were before, and the system calls it issued contain at most one `open` (always
`open (path, O_RDONLY)`, the only kind of `open` there is), whose path is the
word that `sscanf` took from the line after its 12-character keyword, and
their `read` calls read at most one byte in all. The calls that exist are
`open`, `lseek`, `read` and `close`: none creates, writes, truncates or
removes a file. -/
theorem processcommand_frame (abi : ABI) (line : List Char) (w : World) :
    (sscanf (line.drop 12) ≠ Scan.overrun →
      ∃ (r : Int) (w1 : World), processcommand abi line w = some (r, w1))
    ∧ ∀ (r : Int) (w1 : World), processcommand abi line w = some (r, w1) →
      w1.files = w.files
      ∧ ∃ events : List Syscall, w1.trace = w.trace ++ events
          ∧ (openedPaths events).length ≤ 1
          ∧ (∀ path ∈ openedPaths events, ∃ b ro c : F32,
              sscanf (line.drop 12) = Scan.fields path b ro c)
          ∧ 0 ≤ bytesRead events ∧ bytesRead events ≤ 1 := by
  constructor
  · intro hov
    unfold processcommand
    split
    · exact tablelookup_total abi (line.drop 12) w hov
    · exact ⟨255, w, rfl⟩
  intro r w1 h
  unfold processcommand at h
  split at h
  · obtain ⟨hf, _, hcases⟩ := tablelookup_events abi (line.drop 12) w w1 r h
    refine ⟨hf, ?_⟩
    rcases hcases with h1 | ⟨filename, b, ro, c, hs, ⟨_, htr⟩ | ⟨off, d, hd, _, htr⟩⟩
    · subst h1
      exact ⟨[], by simp, by simp [openedPaths], by simp [openedPaths], by simp [bytesRead]⟩
    · refine ⟨_, htr, by simp [openedPaths], ?_, by simp [bytesRead]⟩
      intro path hp
      simp only [openedPaths, List.mem_singleton] at hp
      subst hp
      exact ⟨b, ro, c, hs⟩
    · refine ⟨_, htr, ?_, ?_, ?_⟩
      · simp [openedPaths, openedPaths_seeks]
      · intro path hp
        simp only [openedPaths, openedPaths_seeks, List.mem_singleton] at hp
        subst hp
        exact ⟨b, ro, c, hs⟩
      · simp only [bytesRead, bytesRead_seeks]
        rcases hd with rfl | rfl <;> simp
  · simp only [Option.some.injEq, Prod.mk.injEq] at h
    obtain ⟨_, hw⟩ := h
    subst hw
    exact ⟨rfl, [], by simp, by simp [openedPaths], by simp [openedPaths], by simp [bytesRead]⟩

/-- C17, on the first scenario of the specification: the run returns 30,
leaves the files as they were, opens `file.bin` and no other file and reads
one byte; the command with an infinite column returns and leaves the files as
they were, too. -/
theorem processcommand_frame_witness :
    (processcommand ev3 "tablelookup file.bin 2 1 0".toList fileBin
        = some (30, { files := fileBin.files, fdtab := [],
                      trace := [Syscall.sopen "file.bin".toList 0, Syscall.slseek 0 2,
                        Syscall.sread 0 1, Syscall.sclose 0] })
      ∧ ({ files := fileBin.files, fdtab := [],
           trace := [Syscall.sopen "file.bin".toList 0, Syscall.slseek 0 2,
             Syscall.sread 0 1, Syscall.sclose 0] } : World).files = fileBin.files)
    ∧ (processcommand ev3 "tablelookup file.bin 2 1 0".toList fileBin).map
        (fun p => (openedPaths p.2.trace, bytesRead p.2.trace))
      = some (["file.bin".toList], 1)
    ∧ (∃ (r : Int) (w1 : World),
        processcommand lp64 "tablelookup file.bin 1 0 inf".toList fileBin = some (r, w1)
        ∧ w1.files = fileBin.files) :=
  ⟨⟨by rfl,
    ((processcommand_frame ev3 "tablelookup file.bin 2 1 0".toList fileBin).2 30
      { files := fileBin.files, fdtab := [],
        trace := [Syscall.sopen "file.bin".toList 0, Syscall.slseek 0 2, Syscall.sread 0 1,
          Syscall.sclose 0] } (by rfl)).1⟩,
   by rfl,
   ((processcommand_frame lp64 "tablelookup file.bin 1 0 inf".toList fileBin).1
      (by decide)).elim
     (fun r hr => hr.elim (fun w1 h => ⟨r, w1, h,
       ((processcommand_frame lp64 "tablelookup file.bin 1 0 inf".toList fileBin).2
         r w1 h).1⟩))⟩

/-! ## The read loop -/

theorem readLine_concat (n : Nat) (s : List Char) :
    (readLine n s).1 ++ (readLine n s).2 = s := by
  induction s generalizing n with
  | nil => cases n <;> rfl
  | cons c cs ih =>
    cases n with
    | zero => rfl
    | succ k =>
      simp only [readLine]
      split
      · rfl
      · simp [ih k]

theorem readLine_rest_length (n : Nat) (c : Char) (cs : List Char) :
    (readLine (n + 1) (c :: cs)).2.length ≤ cs.length := by
  have h := readLine_concat n cs
  simp only [readLine]
  split
  · exact Nat.le_refl _
  · have hl := congrArg List.length h
    simp only [List.length_append] at hl
    show (readLine n cs).2.length ≤ cs.length
    omega

theorem fgets_rest_length (stdin buffer rest : List Char)
    (h : fgets 1000 stdin = some (buffer, rest)) : rest.length < stdin.length := by
  unfold fgets at h
  cases stdin with
  | nil => simp at h
  | cons c cs =>
    simp only [reduceCtorEq, if_false, Option.some.injEq] at h
    have hl := readLine_rest_length 998 c cs
    have : (readLine (1000 - 1) (c :: cs)).2 = rest := by rw [h]
    rw [← this]
    simp only [List.length_cons]
    exact Nat.lt_succ_of_le hl

theorem pipeLoopFuel_enough (abi : ABI) :
    ∀ (f1 f2 : Nat) (stdin : List Char) (w : World), stdin.length ≤ f1 → stdin.length ≤ f2 →
      pipeLoopFuel abi f1 stdin w = pipeLoopFuel abi f2 stdin w := by
  intro f1
  induction f1 with
  | zero =>
    intro f2 stdin w h1 _
    have hs : stdin = [] := List.length_eq_zero.mp (by omega)
    subst hs
    cases f2 <;> simp [pipeLoopFuel, fgets]
  | succ n ih =>
    intro f2 stdin w h1 h2
    cases f2 with
    | zero =>
      have hs : stdin = [] := List.length_eq_zero.mp (by omega)
      subst hs
      simp [pipeLoopFuel, fgets]
    | succ k =>
      simp only [pipeLoopFuel]
      cases hfg : fgets 1000 stdin with
      | none => rfl
      | some p =>
        obtain ⟨buffer, rest⟩ := p
        have hlen := fgets_rest_length stdin buffer rest hfg
        simp only []
        cases processcommand abi (cstr buffer) w with
        | none => rfl
        | some q =>
          obtain ⟨r, w1⟩ := q
          simp only []
          rw [ih k rest w1 (by omega) (by omega)]

/-- The read loop satisfies the equation of the `while` loop of the source, so
the fuel of the definition never runs out. -/
theorem pipeLoop_eq (abi : ABI) (stdin : List Char) (w : World) :
    pipeLoop abi stdin w =
      match fgets 1000 stdin with
      | none => some ([], w)
      | some (buffer, rest) => seqOut (answerLine abi buffer w) (pipeLoop abi rest) := by
  unfold pipeLoop
  cases hs : stdin with
  | nil => simp [pipeLoopFuel, fgets]
  | cons c cs =>
    rw [← hs]
    have hlen : stdin.length = cs.length + 1 := by rw [hs]; rfl
    rw [hlen]
    simp only [pipeLoopFuel]
    cases hfg : fgets 1000 stdin with
    | none => rfl
    | some p =>
      obtain ⟨buffer, rest⟩ := p
      have hl := fgets_rest_length stdin buffer rest hfg
      simp only [seqOut, answerLine]
      cases processcommand abi (cstr buffer) w with
      | none => rfl
      | some q =>
        obtain ⟨r, w1⟩ := q
        simp only []
        rw [pipeLoopFuel_enough abi cs.length rest.length rest w1 (by omega) (Nat.le_refl _)]

/-! ## The answer depends on the files only -/

/-- The value `lookup` returns, as a function of the request and the files. -/
theorem lookup_returned (abi : ABI) (filename : List Char) (bytes_per_row row column : F32)
    (w : World) :
    returned (lookup abi filename bytes_per_row row column w)
      = if (bytes_per_row.ltNat 1 || row.ltNat 0 || column.ltNat 0) = true
        then (some 255 : Option Int)
        else match w.files filename with
          | none => some 255
          | some content =>
            some (match content.get? (seekOffset abi bytes_per_row row column) with
                  | some b => charToInt abi b
                  | none => 255) := by
  by_cases hrange : (bytes_per_row.ltNat 1 || row.ltNat 0 || column.ltNat 0) = true
  · rw [if_pos hrange]
    unfold lookup
    rw [if_pos hrange]
    rfl
  · rw [if_neg hrange]
    have hr3 : bytes_per_row.ltNat 1 = false ∧ row.ltNat 0 = false
        ∧ column.ltNat 0 = false := by
      simp only [Bool.or_eq_true, not_or, Bool.not_eq_true] at hrange
      exact ⟨hrange.1.1, hrange.1.2, hrange.2⟩
    cases hf : w.files filename with
    | none =>
      unfold lookup
      rw [if_neg hrange]
      simp [sys_open, hf, returned]
    | some content =>
      obtain ⟨w2, hrun, _⟩ :=
        lookup_run_trace abi filename bytes_per_row row column w content _
          hr3.1 hr3.2.1 hr3.2.2 hf rfl
      rw [hrun]
      rfl

theorem tablelookup_returned_congr (abi : ABI) (s : List Char) (w w2 : World)
    (h : w.files = w2.files) :
    returned (tablelookup abi s w) = returned (tablelookup abi s w2) := by
  unfold tablelookup
  cases sscanf s with
  | overrun => rfl
  | count n => rfl
  | fields filename b ro c =>
    simp only []
    rw [lookup_returned, lookup_returned, h]

theorem processcommand_returned_congr (abi : ABI) (buffer : List Char) (w w2 : World)
    (h : w.files = w2.files) :
    returned (processcommand abi buffer w) = returned (processcommand abi buffer w2) := by
  unfold processcommand
  split
  · exact tablelookup_returned_congr abi _ w w2 h
  · rfl

theorem processcommand_files (abi : ABI) (buffer : List Char) (w w1 : World) (r : Int)
    (h : processcommand abi buffer w = some (r, w1)) : w1.files = w.files := by
  unfold processcommand at h
  split at h
  · exact (tablelookup_events abi _ w w1 r h).1
  · simp only [Option.some.injEq, Prod.mk.injEq] at h
    rw [← h.2]

theorem answerLine_congr (abi : ABI) (buffer : List Char) (w w2 : World)
    (h : w.files = w2.files) :
    (answerLine abi buffer w).map Prod.fst = (answerLine abi buffer w2).map Prod.fst := by
  have hc := processcommand_returned_congr abi (cstr buffer) w w2 h
  unfold answerLine
  unfold returned at hc
  cases h1 : processcommand abi (cstr buffer) w with
  | none =>
    rw [h1] at hc
    cases h2 : processcommand abi (cstr buffer) w2 with
    | none => rfl
    | some q => rw [h2] at hc; simp at hc
  | some p =>
    rw [h1] at hc
    cases h2 : processcommand abi (cstr buffer) w2 with
    | none => rw [h2] at hc; simp at hc
    | some q =>
      rw [h2] at hc
      simp only [Option.map_some', Option.some.injEq] at hc ⊢
      rw [hc]

theorem answerLine_files (abi : ABI) (buffer : List Char) (w w1 : World) (out : List Char)
    (h : answerLine abi buffer w = some (out, w1)) : w1.files = w.files := by
  unfold answerLine at h
  cases hp : processcommand abi (cstr buffer) w with
  | none => rw [hp] at h; simp at h
  | some p =>
    obtain ⟨r, w2⟩ := p
    rw [hp] at h
    simp only [Option.some.injEq, Prod.mk.injEq] at h
    rw [← h.2]
    exact processcommand_files abi _ w w2 r hp

/-- The read loop leaves the files as they were, and what it writes depends on
the state only through the files. -/
theorem pipeLoop_files_out (abi : ABI) :
    ∀ (n : Nat) (stdin : List Char), stdin.length ≤ n → ∀ (w : World),
      (∀ out w1, pipeLoop abi stdin w = some (out, w1) → w1.files = w.files)
      ∧ (∀ w2, w.files = w2.files →
          (pipeLoop abi stdin w).map Prod.fst = (pipeLoop abi stdin w2).map Prod.fst) := by
  intro n
  induction n with
  | zero =>
    intro stdin hlen w
    have hs : stdin = [] := List.length_eq_zero.mp (by omega)
    subst hs
    constructor
    · intro out w1 h
      rw [pipeLoop_eq] at h
      simp only [fgets, if_true, Option.some.injEq, Prod.mk.injEq] at h
      rw [← h.2]
    · intro w2 _
      rw [pipeLoop_eq, pipeLoop_eq]
      simp [fgets]
  | succ k ih =>
    intro stdin hlen w
    cases hfg : fgets 1000 stdin with
    | none =>
      constructor
      · intro out w1 h
        rw [pipeLoop_eq, hfg] at h
        simp only [Option.some.injEq, Prod.mk.injEq] at h
        rw [← h.2]
      · intro w2 _
        rw [pipeLoop_eq, pipeLoop_eq, hfg]
        rfl
    | some p =>
      obtain ⟨buffer, rest⟩ := p
      have hl := fgets_rest_length stdin buffer rest hfg
      have hrest := ih rest (by omega)
      constructor
      · intro out w1 h
        rw [pipeLoop_eq, hfg] at h
        simp only [seqOut] at h
        cases ha : answerLine abi buffer w with
        | none => rw [ha] at h; simp at h
        | some q =>
          obtain ⟨o1, wa⟩ := q
          rw [ha] at h
          simp only [] at h
          cases hp : pipeLoop abi rest wa with
          | none => rw [hp] at h; simp at h
          | some q2 =>
            obtain ⟨o2, wb⟩ := q2
            rw [hp] at h
            simp only [Option.some.injEq, Prod.mk.injEq] at h
            rw [← h.2, (hrest wa).1 o2 wb hp]
            exact answerLine_files abi buffer w wa o1 ha
      · intro w2 hw
        rw [pipeLoop_eq, pipeLoop_eq, hfg]
        simp only [seqOut]
        have hc := answerLine_congr abi buffer w w2 hw
        cases ha : answerLine abi buffer w with
        | none =>
          rw [ha] at hc
          cases ha2 : answerLine abi buffer w2 with
          | none => rfl
          | some q => rw [ha2] at hc; simp at hc
        | some q =>
          obtain ⟨o1, wa⟩ := q
          rw [ha] at hc
          cases ha2 : answerLine abi buffer w2 with
          | none => rw [ha2] at hc; simp at hc
          | some q2 =>
            obtain ⟨o1b, wa2⟩ := q2
            rw [ha2] at hc
            simp only [Option.map_some', Option.some.injEq] at hc
            subst hc
            have hfa := answerLine_files abi buffer w wa o1 ha
            have hfa2 := answerLine_files abi buffer w2 wa2 o1 ha2
            have hcong := (hrest wa).2 wa2 (by rw [hfa, hfa2, hw])
            simp only []
            cases hp : pipeLoop abi rest wa with
            | none =>
              rw [hp] at hcong
              cases hp2 : pipeLoop abi rest wa2 with
              | none => rfl
              | some q3 => rw [hp2] at hcong; simp at hcong
            | some q3 =>
              rw [hp] at hcong
              cases hp2 : pipeLoop abi rest wa2 with
              | none => rw [hp2] at hcong; simp at hcong
              | some q4 =>
                rw [hp2] at hcong
                simp only [Option.map_some', Option.some.injEq] at hcong ⊢
                rw [hcong]

/-! ## Input lines one after the other -/

theorem seqOut_some_nil (w : World) (k : World → Option (List Char × World)) :
    seqOut (some ([], w)) k = k w := by
  cases h : k w with
  | none => simp [seqOut, h]
  | some q => simp [seqOut, h]

theorem seqOut_assoc (a : Option (List Char × World))
    (k1 k2 : World → Option (List Char × World)) :
    seqOut (seqOut a k1) k2 = seqOut a (fun w => seqOut (k1 w) k2) := by
  cases a with
  | none => rfl
  | some p =>
    obtain ⟨o1, w1⟩ := p
    simp only [seqOut]
    cases k1 w1 with
    | none => rfl
    | some q =>
      obtain ⟨o2, w2⟩ := q
      simp only []
      cases k2 w2 with
      | none => rfl
      | some q3 => simp [List.append_assoc]

theorem readLine_append_closed (t : List Char) :
    ∀ (n : Nat) (s2 : List Char),
      readLine n (t ++ ['\n'] ++ s2)
        = ((readLine n (t ++ ['\n'])).1, (readLine n (t ++ ['\n'])).2 ++ s2)
      ∧ closedInput (readLine n (t ++ ['\n'])).2 := by
  induction t with
  | nil =>
    intro n s2
    cases n with
    | zero => exact ⟨rfl, Or.inr ⟨[], rfl⟩⟩
    | succ k => exact ⟨by simp [readLine], Or.inl (by simp [readLine])⟩
  | cons c t ih =>
    intro n s2
    cases n with
    | zero => exact ⟨rfl, Or.inr ⟨c :: t, rfl⟩⟩
    | succ k =>
      by_cases hc : c = '\n'
      · subst hc
        exact ⟨by simp [readLine], Or.inr ⟨t, by simp [readLine]⟩⟩
      · obtain ⟨h1, h2⟩ := ih k s2
        have hstep : ∀ l : List Char,
            readLine (k + 1) (c :: l) = (c :: (readLine k l).1, (readLine k l).2) := by
          intro l
          simp only [readLine, hc, if_false]
        constructor
        · rw [List.cons_append, List.cons_append, hstep, hstep, h1]
        · rw [List.cons_append, hstep]
          exact h2

/-- After input that is empty or ends with a newline, the read loop goes on
with the input that follows exactly as if it started there. -/
theorem pipeLoop_append (abi : ABI) :
    ∀ (n : Nat) (s1 : List Char), s1.length ≤ n → closedInput s1 →
      ∀ (s2 : List Char) (w : World),
        pipeLoop abi (s1 ++ s2) w = seqOut (pipeLoop abi s1 w) (pipeLoop abi s2) := by
  intro n
  induction n with
  | zero =>
    intro s1 hlen _ s2 w
    have hs : s1 = [] := List.length_eq_zero.mp (by omega)
    subst hs
    rw [pipeLoop_eq abi [] w]
    simp only [fgets, if_true, List.nil_append]
    exact (seqOut_some_nil w _).symm
  | succ k ih =>
    intro s1 hlen hclosed s2 w
    rcases hclosed with hs | ⟨t, ht⟩
    · subst hs
      rw [pipeLoop_eq abi [] w]
      simp only [fgets, if_true, List.nil_append]
      exact (seqOut_some_nil w _).symm
    · subst ht
      obtain ⟨h1, h2⟩ := readLine_append_closed t 999 s2
      have hne1 : t ++ ['\n'] ≠ [] := by simp
      have hne2 : t ++ ['\n'] ++ s2 ≠ [] := by simp
      have hf1 : fgets 1000 (t ++ ['\n'])
          = some ((readLine 999 (t ++ ['\n'])).1, (readLine 999 (t ++ ['\n'])).2) := by
        simp [fgets]
      have hf2 : fgets 1000 (t ++ ['\n'] ++ s2)
          = some ((readLine 999 (t ++ ['\n'])).1, (readLine 999 (t ++ ['\n'])).2 ++ s2) := by
        simp only [fgets, hne2, if_false, Nat.add_one_sub_one]
        rw [← h1]
      have hl := fgets_rest_length _ _ _ hf1
      have hrec : pipeLoop abi ((readLine 999 (t ++ ['\n'])).2 ++ s2)
          = fun w1 => seqOut (pipeLoop abi (readLine 999 (t ++ ['\n'])).2 w1)
              (pipeLoop abi s2) := by
        funext w1
        exact ih _ (by omega) h2 s2 w1
      rw [pipeLoop_eq abi (t ++ ['\n'] ++ s2) w, hf2, pipeLoop_eq abi (t ++ ['\n']) w, hf1]
      simp only []
      rw [hrec, seqOut_assoc]

theorem joinLines_append (xs ys : List (List Char)) :
    joinLines (xs ++ ys) = joinLines xs ++ joinLines ys := by
  induction xs with
  | nil => rfl
  | cons l ls ih => simp [joinLines, ih]

theorem joinLines_closed (xs : List (List Char)) : closedInput (joinLines xs) := by
  induction xs with
  | nil => exact Or.inl rfl
  | cons l ls ih =>
    rcases ih with h | ⟨t, ht⟩
    · exact Or.inr ⟨l, by simp [joinLines, h]⟩
    · exact Or.inr ⟨l ++ '\n' :: t, by simp [joinLines, ht]⟩

/-- C13. For all sequences of input lines `xs` and `ys` and every state, what
the read loop writes for `xs ++ ys` is what it writes for `xs` followed by
what it writes for `ys` (on the same files): a command that returned 255 or
any other value neither stops the loop nor changes a later answer. What is
written depends on the state only through the files, and the loop leaves the
files as they were. -/
theorem commandOutput_append (abi : ABI) (xs ys : List (List Char)) (w : World) :
    commandOutput abi (xs ++ ys) w
      = thenOutput (commandOutput abi xs w) (commandOutput abi ys w)
    ∧ (∀ w2 : World, w2.files = w.files →
        commandOutput abi xs w2 = commandOutput abi xs w)
    ∧ (∀ (out : List Char) (w1 : World),
        pipeLoop abi (joinLines xs) w = some (out, w1) → w1.files = w.files) := by
  refine ⟨?_, ?_, ?_⟩
  · unfold commandOutput
    rw [joinLines_append, pipeLoop_append abi _ _ (Nat.le_refl _) (joinLines_closed xs)]
    cases h1 : pipeLoop abi (joinLines xs) w with
    | none => rfl
    | some p =>
      obtain ⟨o1, w1⟩ := p
      have hf := (pipeLoop_files_out abi _ _ (Nat.le_refl _) w).1 o1 w1 h1
      have hc := (pipeLoop_files_out abi _ (joinLines ys) (Nat.le_refl _) w1).2 w hf
      simp only [seqOut]
      cases h2 : pipeLoop abi (joinLines ys) w1 with
      | none =>
        rw [h2] at hc
        cases h3 : pipeLoop abi (joinLines ys) w with
        | none => rfl
        | some q => rw [h3] at hc; simp at hc
      | some q =>
        obtain ⟨o2, w2⟩ := q
        rw [h2] at hc
        cases h3 : pipeLoop abi (joinLines ys) w with
        | none => rw [h3] at hc; simp at hc
        | some q3 =>
          rw [h3] at hc
          simp only [Option.map_some', Option.some.injEq] at hc
          simp [thenOutput, hc]
  · intro w2 hw
    exact (pipeLoop_files_out abi _ _ (Nat.le_refl _) w2).2 w hw
  · intro out w1 h
    exact (pipeLoop_files_out abi _ _ (Nat.le_refl _) w).1 out w1 h

/-- C13, on the lines of the persistent-mode scenario in both orders and with
a failing command first. -/
theorem commandOutput_append_witness :
    commandOutput ev3 (["bogus command".toList] ++ ["tablelookup file.bin 2 0 0".toList])
        fileBin = some "255\n10\n".toList
    ∧ commandOutput ev3 ["bogus command".toList] fileBin = some "255\n".toList
    ∧ commandOutput ev3 ["tablelookup file.bin 2 0 0".toList] fileBin = some "10\n".toList :=
  ⟨(commandOutput_append ev3 ["bogus command".toList]
      ["tablelookup file.bin 2 0 0".toList] fileBin).1.trans (by decide),
   by decide, by decide⟩

/-! ## Persistent mode -/

theorem readLine_line (l rest : List Char) (hl : '\n' ∉ l) :
    ∀ n : Nat, l.length < n → readLine n (l ++ '\n' :: rest) = (l ++ ['\n'], rest) := by
  induction l with
  | nil =>
    intro n hn
    cases n with
    | zero => omega
    | succ k => simp [readLine]
  | cons c t ih =>
    intro n hn
    cases n with
    | zero => omega
    | succ k =>
      have hc : c ≠ '\n' := fun h => hl (by simp [h])
      have ht : '\n' ∉ t := fun h => hl (List.mem_cons_of_mem c h)
      have hrec := ih ht k (by simpa using hn)
      have hstep : ∀ x : List Char,
          readLine (k + 1) (c :: x) = (c :: (readLine k x).1, (readLine k x).2) := by
        intro x
        simp only [readLine, hc, if_false]
      rw [List.cons_append, hstep, hrec]
      rfl

theorem fgets_line (l rest : List Char) (hl : '\n' ∉ l) (hlen : l.length ≤ 998) :
    fgets 1000 (l ++ '\n' :: rest) = some (l ++ ['\n'], rest) := by
  have hne : l ++ '\n' :: rest ≠ [] := by simp
  simp only [fgets, hne, if_false, Nat.add_one_sub_one]
  rw [readLine_line l rest hl 999 (by omega)]

theorem answers_congr (abi : ABI) (w w2 : World) (h : w.files = w2.files)
    (lines : List (List Char)) : answers abi w lines = answers abi w2 lines := by
  induction lines with
  | nil => rfl
  | cons l ls ih =>
    simp only [answers]
    rw [processcommand_returned_congr abi _ w w2 h, ih]

theorem answers_length (abi : ABI) (w : World) :
    ∀ (lines : List (List Char)) (rs : List Int),
      answers abi w lines = some rs → rs.length = lines.length := by
  intro lines
  induction lines with
  | nil =>
    intro rs h
    simp only [answers, Option.some.injEq] at h
    rw [← h]
    rfl
  | cons l ls ih =>
    intro rs h
    simp only [answers] at h
    cases h1 : returned (processcommand abi (cstr (l ++ ['\n'])) w) with
    | none => rw [h1] at h; simp at h
    | some r =>
      cases h2 : answers abi w ls with
      | none => rw [h1, h2] at h; simp at h
      | some rs2 =>
        rw [h1, h2] at h
        simp only [Option.some.injEq] at h
        rw [← h]
        simp [ih rs2 h2]

/-- On input lines of at most 998 characters the read loop writes one line
per input line: the rendering of the result code of that line. -/
theorem pipeLoop_lines (abi : ABI) :
    ∀ (lines : List (List Char)), (∀ l ∈ lines, l.length ≤ 998 ∧ '\n' ∉ l) →
      ∀ w : World, (pipeLoop abi (joinLines lines) w).map Prod.fst
        = (answers abi w lines).map renderAnswers := by
  intro lines
  induction lines with
  | nil =>
    intro _ w
    rw [pipeLoop_eq]
    rfl
  | cons l ls ih =>
    intro hall w
    obtain ⟨hlen, hnl⟩ := hall l (List.mem_cons_self l ls)
    have hrest := ih (fun x hx => hall x (List.mem_cons_of_mem l hx))
    rw [pipeLoop_eq]
    simp only [joinLines, fgets_line l (joinLines ls) hnl hlen, seqOut, answerLine, answers,
      returned]
    cases hp : processcommand abi (cstr (l ++ ['\n'])) w with
    | none => rfl
    | some p =>
      obtain ⟨r, w1⟩ := p
      have hf := processcommand_files abi _ w w1 r hp
      have hr1 := hrest w1
      rw [answers_congr abi w1 w hf ls] at hr1
      simp only [Option.map_some']
      cases hq : pipeLoop abi (joinLines ls) w1 with
      | none =>
        rw [hq] at hr1
        cases ha : answers abi w ls with
        | none => rfl
        | some rs => rw [ha] at hr1; simp at hr1
      | some q =>
        obtain ⟨o2, w2⟩ := q
        rw [hq] at hr1
        cases ha : answers abi w ls with
        | none => rw [ha] at hr1; simp at hr1
        | some rs =>
          rw [ha] at hr1
          simp only [Option.map_some', Option.some.injEq] at hr1
          simp [renderAnswers, hr1]

theorem renderInt_byte : ∀ n : Fin 256,
    isDecimal (renderInt (n.val : Int)) = true
    ∧ decimalValue (renderInt (n.val : Int)) = n.val
    ∧ (renderInt (n.val : Int) = ['0'] ∨ (renderInt (n.val : Int)).head? ≠ some '0') := by
  decide

theorem readLine_full (l rest : List Char) (hl : '\n' ∉ l) :
    readLine l.length (l ++ rest) = (l, rest) := by
  induction l with
  | nil => rfl
  | cons c t ih =>
    have hc : c ≠ '\n' := fun h => hl (by simp [h])
    have ht : '\n' ∉ t := fun h => hl (List.mem_cons_of_mem c h)
    have hstep : ∀ x : List Char,
        readLine (t.length + 1) (c :: x)
          = (c :: (readLine t.length x).1, (readLine t.length x).2) := by
      intro x
      simp only [readLine, hc, if_false]
    rw [List.cons_append, List.length_cons, hstep, ih ht]

theorem cstr_eq_self (l : List Char) (h : '\x00' ∉ l) : cstr l = l := by
  unfold cstr
  rw [List.takeWhile_eq_self_iff]
  intro x hx
  have : x ≠ '\x00' := fun hc => h (hc ▸ hx)
  simpa using this

theorem answerLine_unrecognized (abi : ABI) (buffer : List Char) (w : World)
    (h : ¬ "tablelookup ".toList <+: cstr buffer) :
    answerLine abi buffer w = some (printf_d 255, w) := by
  unfold answerLine processcommand
  rw [if_neg]
  rw [strstr_zero_iff]
  exact h

/-- An input line of 1000 characters is read in two pieces: its first 999
characters, then its last character with the newline. -/
theorem pipeLoop_long_line (abi : ABI) (l : List Char) (c : Char) (w : World)
    (hlen : l.length = 999) (hnl : '\n' ∉ l) (hc : c ≠ '\n') :
    pipeLoop abi (joinLines [l ++ [c]]) w
      = seqOut (answerLine abi l w)
          (fun w1 => seqOut (answerLine abi [c, '\n'] w1) (fun w2 => some ([], w2))) := by
  have hfull := readLine_full l [c, '\n'] hnl
  rw [hlen] at hfull
  have hj : joinLines [l ++ [c]] = l ++ [c, '\n'] := by simp [joinLines]
  have hne : l ++ [c, '\n'] ≠ [] := by simp
  have hf1 : fgets 1000 (l ++ [c, '\n']) = some (l, [c, '\n']) := by
    simp only [fgets, hne, if_false, Nat.add_one_sub_one]
    rw [hfull]
  have hf2 : fgets 1000 [c, '\n'] = some ([c, '\n'], []) := by
    simp [fgets, readLine, hc]
  have hf3 : fgets 1000 ([] : List Char) = none := rfl
  have h3 : pipeLoop abi [] = fun w2 => some ([], w2) := by
    funext w2
    rw [pipeLoop_eq, hf3]
  have h2 : pipeLoop abi [c, '\n']
      = fun w1 => seqOut (answerLine abi [c, '\n'] w1) (fun w2 => some ([], w2)) := by
    funext w1
    rw [pipeLoop_eq, hf2]
    simp only []
    rw [h3]
  rw [hj, pipeLoop_eq, hf1]
  simp only []
  rw [h2]

/-- C11 as stated fails for a long input line: `fgets (buffer, 1000, stdin)`
takes at most 999 characters at a time, so the one input line of 1000
characters `x` (and its newline) is processed as two commands and two lines
`255` are written for it before the termination line. -/
theorem main_long_line_counterexample :
    [List.replicate 999 'x' ++ ['x']].length = 1
    ∧ (List.replicate 999 'x' ++ ['x']).length = 1000
    ∧ (main ev3 ["native".toList] (joinLines [List.replicate 999 'x' ++ ['x']]) fileBin).map
        (fun run => run.stdout)
      = some "255\n255\nEnding native code process...\n".toList := by
  have hmem : ∀ c ∈ List.replicate 999 'x', c = 'x' := fun c hc => (List.mem_replicate.mp hc).2
  have hnl : '\n' ∉ List.replicate 999 'x' := fun h => absurd (hmem _ h) (by decide)
  have hnul : '\x00' ∉ List.replicate 999 'x' := fun h => absurd (hmem _ h) (by decide)
  have hpre : ¬ "tablelookup ".toList <+: cstr (List.replicate 999 'x') := by
    rw [cstr_eq_self _ hnul]
    rintro ⟨t, ht⟩
    have hh := congrArg List.head? ht
    rw [show List.replicate 999 'x' = 'x' :: List.replicate 998 'x' from rfl] at hh
    simp at hh
  have hlong := pipeLoop_long_line ev3 (List.replicate 999 'x') 'x' fileBin
    (List.length_replicate _ _) hnl (by decide)
  rw [answerLine_unrecognized ev3 _ fileBin hpre] at hlong
  have h2 : answerLine ev3 ['x', '\n'] fileBin = some (printf_d 255, fileBin) := rfl
  refine ⟨rfl, by simp, ?_⟩
  unfold main
  simp only []
  rw [hlong]
  simp only [seqOut, h2]
  decide

/-- C11, amended. In persistent mode (no argument after the program name),
for every finite sequence of input lines of at most 998 characters each, the
output is one line per input line, in order, each the rendering by `%d` of the
result code of that line, followed by the termination line; it is undefined
exactly when the processing of one of the lines is. There are as many result
codes as lines, and the rendering of a code in `0 .. 255` is its decimal
numeral: digits only, no sign, no leading zero. -/
theorem main_persistent (abi : ABI) (prog : List Char) (lines : List (List Char))
    (w : World) (h : ∀ l ∈ lines, l.length ≤ 998 ∧ '\n' ∉ l) :
    (main abi [prog] (joinLines lines) w).map (fun run => run.stdout)
      = (answers abi w lines).map (fun rs => renderAnswers rs ++ ending)
    ∧ (∀ rs : List Int, answers abi w lines = some rs → rs.length = lines.length)
    ∧ (∀ r : Int, 0 ≤ r → r ≤ 255 →
        isDecimal (renderInt r) = true ∧ decimalValue (renderInt r) = r.toNat
        ∧ (renderInt r = ['0'] ∨ (renderInt r).head? ≠ some '0')) := by
  refine ⟨?_, answers_length abi w lines, ?_⟩
  · have hl := pipeLoop_lines abi lines h w
    unfold main
    simp only []
    cases hp : pipeLoop abi (joinLines lines) w with
    | none =>
      rw [hp] at hl
      cases ha : answers abi w lines with
      | none => rfl
      | some rs => rw [ha] at hl; simp at hl
    | some p =>
      obtain ⟨out, w1⟩ := p
      rw [hp] at hl
      cases ha : answers abi w lines with
      | none => rw [ha] at hl; simp at hl
      | some rs =>
        rw [ha] at hl
        simp only [Option.map_some', Option.some.injEq] at hl
        simp [hl]
  · intro r h0 h255
    obtain ⟨n, hn⟩ : ∃ n : Nat, r = (n : Int) := ⟨r.toNat, by omega⟩
    subst hn
    have hb := renderInt_byte ⟨n, by omega⟩
    simpa using hb

/-- C11 amended, at the persistent-mode scenario of the specification: the
lines `tablelookup file.bin 2 0 0` and `bogus command` yield `10`, `255` and
the termination line. -/
theorem main_persistent_witness :
    (main ev3 ["native".toList]
        (joinLines ["tablelookup file.bin 2 0 0".toList, "bogus command".toList])
        fileBin).map (fun run => run.stdout)
      = some "10\n255\nEnding native code process...\n".toList :=
  ((main_persistent ev3 "native".toList
      ["tablelookup file.bin 2 0 0".toList, "bogus command".toList] fileBin
      (by decide)).1).trans (by decide)

/-! ## Single-invocation mode -/

theorem processcommand_range_unsigned (abi : ABI) (h : abi.charSigned = false)
    (buffer : List Char) (w w1 : World) (r : Int)
    (hr : processcommand abi buffer w = some (r, w1)) : 0 ≤ r ∧ r ≤ 255 := by
  unfold processcommand at hr
  split at hr
  · exact tablelookup_range_unsigned abi h _ w w1 r hr
  · simp only [Option.some.injEq, Prod.mk.injEq] at hr
    omega

/-- The join loop on `char buffer[1000]`: the arguments are appended, each
after one space, when the whole string and its NUL fit; otherwise the
behaviour is undefined. -/
theorem joinLoop_eq :
    ∀ (rest : List (List Char)) (buffer : List Char), buffer.length < 1000 →
      joinLoop buffer rest
        = if (buffer ++ joinParams rest).length < 1000 then some (buffer ++ joinParams rest)
          else none := by
  intro rest
  induction rest with
  | nil =>
    intro buffer hb
    simp [joinLoop, joinParams, hb]
  | cons a t ih =>
    intro buffer hb
    simp only [joinLoop, strcat]
    by_cases h2 : buffer.length + 1 + a.length < 1000
    · have h1 : buffer.length + [' '].length < 1000 := by
        simp only [List.length_singleton]
        omega
      have h3 : (buffer ++ [' ']).length + a.length < 1000 := by
        simp only [List.length_append, List.length_singleton]
        exact h2
      have h4 : (buffer ++ [' '] ++ a).length < 1000 := by
        simp only [List.length_append, List.length_singleton]
        exact h2
      rw [if_pos h1]
      simp only []
      rw [if_pos h3]
      simp only []
      rw [ih _ h4]
      have he : buffer ++ [' '] ++ a ++ joinParams t = buffer ++ joinParams (a :: t) := by
        simp [joinParams, List.append_assoc]
      rw [he]
    · have hr : ¬ (buffer ++ joinParams (a :: t)).length < 1000 := by
        simp only [joinParams, List.length_append, List.length_cons]
        omega
      rw [if_neg hr]
      by_cases h1 : buffer.length + [' '].length < 1000
      · have h3 : ¬ (buffer ++ [' ']).length + a.length < 1000 := by
          simp only [List.length_append, List.length_singleton]
          exact h2
        rw [if_pos h1]
        simp only []
        rw [if_neg h3]
      · rw [if_neg h1]

/-- C12 as stated fails where plain `char` is signed: with the byte 200 at
offset 0 of the file `f`, the arguments `tablelookup f 1 0 0` make
`processcommand` return the result code -56, which `main` passes to `exit`;
the exit status of the process, the low 8 bits of it, is 200 and not the
result code. -/
theorem main_single_exit_status_counterexample :
    returned (processcommand lp64 "tablelookup f 1 0 0".toList (oneFile "f".toList [200]))
      = some (-56)
    ∧ (main lp64 ["native".toList, "tablelookup".toList, "f".toList, "1".toList,
        "0".toList, "0".toList] [] (oneFile "f".toList [200])).map
          (fun run => (run.status, exitStatus run.status)) = some (-56, 200)
    ∧ exitStatus (-56) ≠ -56 := by
  refine ⟨by rfl, by rfl, by decide⟩

/-- C12, amended. In single-invocation mode (`argc > 1`), when the arguments
joined with single spaces have fewer than 1000 characters (beyond that
`strcpy`/`strcat` write past `buffer`): `main` hands exactly `argv[1]`, ...,
`argv[argc-1]` joined with single spaces to `processcommand`, the state
afterwards is that of this one call, nothing is written, and the status passed
to `exit` is the result code it returned. The exit status of the process is
that code modulo 256: the result code itself whenever it is in `0 .. 255`, which
it always is where plain `char` is unsigned. -/
theorem main_single (abi : ABI) (prog arg1 : List Char) (rest : List (List Char))
    (stdin : List Char) (w : World)
    (hfit : (arg1 ++ joinParams rest).length < 1000) :
    (∀ (r : Int) (w1 : World), processcommand abi (arg1 ++ joinParams rest) w = some (r, w1) →
      main abi (prog :: arg1 :: rest) stdin w = some { stdout := [], status := r, world := w1 }
      ∧ exitStatus r = r % 256 ∧ (0 ≤ r → r ≤ 255 → exitStatus r = r)
      ∧ (abi.charSigned = false → exitStatus r = r))
    ∧ (processcommand abi (arg1 ++ joinParams rest) w = none →
      main abi (prog :: arg1 :: rest) stdin w = none) := by
  have h1 : arg1.length < 1000 := by
    simp only [List.length_append] at hfit
    omega
  have hj : joinLoop arg1 rest = some (arg1 ++ joinParams rest) := by
    rw [joinLoop_eq rest arg1 h1, if_pos hfit]
  constructor
  · intro r w1 hp
    refine ⟨?_, rfl, ?_, ?_⟩
    · simp only [main, strcpy, h1, if_true, hj, hp]
    · intro h0 h255
      unfold exitStatus
      omega
    · intro hu
      have := processcommand_range_unsigned abi hu _ w w1 r hp
      unfold exitStatus
      omega
  · intro hp
    simp only [main, strcpy, h1, if_true, hj, hp]

/-- C12 amended, at the second scenario of the specification: the arguments
`tablelookup file.bin 2 2 1` give the exit status 60. -/
theorem main_single_witness :
    main ev3 ["native".toList, "tablelookup".toList, "file.bin".toList, "2".toList,
        "2".toList, "1".toList] [] fileBin
      = some { stdout := [], status := 60,
               world := { files := fileBin.files, fdtab := [],
                          trace := [Syscall.sopen "file.bin".toList 0, Syscall.slseek 0 5,
                            Syscall.sread 0 1, Syscall.sclose 0] } }
    ∧ exitStatus 60 = 60 :=
  ⟨((main_single ev3 "native".toList "tablelookup".toList
      ["file.bin".toList, "2".toList, "2".toList, "1".toList] [] fileBin (by decide)).1 60
      { files := fileBin.files, fdtab := [],
        trace := [Syscall.sopen "file.bin".toList 0, Syscall.slseek 0 5,
          Syscall.sread 0 1, Syscall.sclose 0] } (by rfl)).1,
   by decide⟩

/-! ## Text after the fourth field -/

theorem space_chars (c : Char) (h : isspace c = true) :
    digitVal c = none ∧ hexVal c = none ∧ c ≠ '.' ∧ c ≠ '-' ∧ c ≠ '+' ∧ lower c = c := by
  simp only [isspace, Bool.or_eq_true, decide_eq_true_eq] at h
  rcases h with ((((h | h) | h) | h) | h) | h <;> subst h <;>
    exact ⟨by decide, by decide, by decide, by decide, by decide, by decide⟩

theorem lower_space_ne (c x : Char) (h : isspace c = true) (hx : isspace x = false) :
    lower c ≠ x := by
  rw [(space_chars c h).2.2.2.2.2]
  intro hcx
  rw [hcx, hx] at h
  exact Bool.noConfusion h

theorem readSign_stop (s t : List Char) (ht : stopsNumber t) :
    readSign (s ++ t) = ((readSign s).1, (readSign s).2 ++ t) := by
  cases s with
  | nil =>
    rcases ht with h | ⟨c, r, h, hc⟩
    · subst h; rfl
    · subst h
      obtain ⟨_, _, _, h1, h2, _⟩ := space_chars c hc
      simp [readSign, h1, h2]
  | cons a u =>
    by_cases h1 : a = '-'
    · simp [readSign, h1]
    · by_cases h2 : a = '+'
      · simp [readSign, h1, h2]
      · simp [readSign, h1, h2]

theorem readDigits_stop (val : Char → Option Nat) (base : Nat)
    (hval : ∀ c, isspace c = true → val c = none) (t : List Char) (ht : stopsNumber t) :
    ∀ (s : List Char) (acc cnt : Nat), readDigits val base (s ++ t) acc cnt
      = ((readDigits val base s acc cnt).1, (readDigits val base s acc cnt).2.1,
          (readDigits val base s acc cnt).2.2 ++ t) := by
  intro s
  induction s with
  | nil =>
    intro acc cnt
    rcases ht with h | ⟨c, r, h, hc⟩
    · subst h; rfl
    · subst h
      simp [readDigits, hval c hc]
  | cons a u ih =>
    intro acc cnt
    cases hv : val a with
    | none =>
      have h1 : ∀ l, readDigits val base (a :: l) acc cnt = (acc, cnt, a :: l) := by
        intro l
        simp only [readDigits, hv]
      rw [List.cons_append, h1, h1]
      rfl
    | some d =>
      have h1 : ∀ l, readDigits val base (a :: l) acc cnt
          = readDigits val base l (acc * base + d) (cnt + 1) := by
        intro l
        simp only [readDigits, hv]
      rw [List.cons_append, h1, h1, ih]

theorem matchWord_le : ∀ (word s : List Char), matchWord word s ≤ s.length
  | [], _ => by simp [matchWord]
  | _ :: _, [] => by simp [matchWord]
  | x :: xs, c :: cs => by
    have := matchWord_le xs cs
    by_cases h : lower c = x
    · simp only [matchWord, h, if_true, List.length_cons]
      omega
    · simp [matchWord, h]

theorem matchWord_stop (t : List Char) (ht : stopsNumber t) :
    ∀ (word s : List Char), (∀ x ∈ word, isspace x = false) →
      matchWord word (s ++ t) = matchWord word s
  | [], s, _ => by
    cases h : s ++ t <;> cases s <;> simp [matchWord]
  | x :: xs, [], hw => by
    rcases ht with h | ⟨c, r, h, hc⟩
    · subst h; simp [matchWord]
    · subst h
      have := lower_space_ne c x hc (hw x (List.mem_cons_self x xs))
      simp [matchWord, this]
  | x :: xs, c :: cs, hw => by
    have ih := matchWord_stop t ht xs cs (fun y hy => hw y (List.mem_cons_of_mem x hy))
    have hstep : ∀ l, matchWord (x :: xs) (c :: l)
        = if lower c = x then matchWord xs l + 1 else 0 := fun _ => rfl
    rw [List.cons_append, hstep, hstep, ih]

theorem dropWhile_stop (p : Char → Bool) (t : List Char)
    (ht : t = [] ∨ ∃ c r, t = c :: r ∧ p c = false) :
    ∀ s : List Char, (s ++ t).dropWhile p = s.dropWhile p ++ t := by
  intro s
  induction s with
  | nil =>
    rcases ht with h | ⟨c, r, h, hc⟩
    · subst h; rfl
    · subst h
      simp [List.dropWhile, hc]
  | cons a u ih =>
    by_cases h : p a = true
    · simp [List.dropWhile, h, ih]
    · simp [List.dropWhile, h]

theorem takeWhile_stop (p : Char → Bool) (t : List Char)
    (ht : t = [] ∨ ∃ c r, t = c :: r ∧ p c = false) :
    ∀ s : List Char, (s ++ t).takeWhile p = s.takeWhile p := by
  intro s
  induction s with
  | nil =>
    rcases ht with h | ⟨c, r, h, hc⟩
    · subst h; rfl
    · subst h
      simp [List.takeWhile, hc]
  | cons a u ih =>
    by_cases h : p a = true
    · simp [List.takeWhile, h, ih]
    · simp [List.takeWhile, h]

theorem readExponent_stop (s t : List Char) (ht : stopsNumber t) :
    readExponent (s ++ t) = ((readExponent s).1, (readExponent s).2 ++ t) := by
  unfold readExponent
  rw [readSign_stop s t ht]
  simp only []
  rw [readDigits_stop digitVal 10 (fun c hc => (space_chars c hc).1) t ht]

theorem scanNumber_stop (neg : Bool) (val : Char → Option Nat) (base ebase unit : Nat)
    (mark : Char) (hval : ∀ c, isspace c = true → val c = none)
    (hmark : isspace mark = false) (s t : List Char) (ht : stopsNumber t) :
    scanNumber neg val base ebase unit mark (s ++ t)
      = (scanNumber neg val base ebase unit mark s).map (fun x => (x.1, x.2 ++ t)) := by
  unfold scanNumber
  rw [readDigits_stop val base hval t ht]
  generalize readDigits val base s 0 0 = r1
  obtain ⟨ip, nI, s1⟩ := r1
  simp only []
  have hfrac : (match s1 ++ t with
      | [] => (ip, 0, s1 ++ t)
      | c :: u => if c = '.' then readDigits val base u ip 0 else (ip, 0, s1 ++ t))
      = ((match s1 with
          | [] => (ip, 0, s1)
          | c :: u => if c = '.' then readDigits val base u ip 0 else (ip, 0, s1)).1,
         (match s1 with
          | [] => (ip, 0, s1)
          | c :: u => if c = '.' then readDigits val base u ip 0 else (ip, 0, s1)).2.1,
         (match s1 with
          | [] => (ip, 0, s1)
          | c :: u => if c = '.' then readDigits val base u ip 0 else (ip, 0, s1)).2.2 ++ t) := by
    cases s1 with
    | nil =>
      rcases ht with h | ⟨c, r, h, hc⟩
      · subst h; rfl
      · subst h
        simp [(space_chars c hc).2.2.1]
    | cons a u =>
      by_cases ha : a = '.'
      · simp only [List.cons_append, ha, if_true]
        rw [readDigits_stop val base hval t ht]
      · simp only [List.cons_append, ha, if_false]
  rw [hfrac]
  generalize (match s1 with
      | [] => (ip, 0, s1)
      | c :: u => if c = '.' then readDigits val base u ip 0 else (ip, 0, s1)) = r2
  obtain ⟨m, nF, s2⟩ := r2
  simp only []
  by_cases h0 : nI + nF = 0
  · simp [h0]
  · simp only [h0, if_false]
    cases s2 with
    | nil =>
      rcases ht with h | ⟨c, r, h, hc⟩
      · subst h; rfl
      · subst h
        simp [lower_space_ne c mark hc hmark]
    | cons a u =>
      by_cases ha : lower a = mark
      · simp only [List.cons_append, ha, if_true]
        rw [readExponent_stop u t ht]
        rfl
      · simp [ha]

theorem scanNumber_nil (neg : Bool) (val : Char → Option Nat) (base ebase unit : Nat)
    (mark : Char) : scanNumber neg val base ebase unit mark [] = none := rfl

theorem head_lower_stop (u t : List Char) (ht : stopsNumber t) :
    ((u ++ t).head?.map lower = some 'x') ↔ (u.head?.map lower = some 'x') := by
  cases u with
  | nil =>
    rcases ht with h | ⟨c, r, h, hc⟩
    · subst h; simp
    · subst h
      have := lower_space_ne c 'x' hc (by decide)
      simp [this]
  | cons a v => simp

theorem scanFloat_stop (s t : List Char) (ht : stopsNumber t) :
    scanFloat (s ++ t) = (scanFloat s).map (fun x => (x.1, x.2 ++ t)) := by
  unfold scanFloat
  rw [readSign_stop s t ht]
  generalize readSign s = r0
  obtain ⟨neg, s1⟩ := r0
  simp only []
  cases s1 with
  | nil =>
    rcases ht with h | ⟨c, r, h, hc⟩
    · subst h; rfl
    · subst h
      have hi := lower_space_ne c 'i' hc (by decide)
      have hn := lower_space_ne c 'n' hc (by decide)
      have h0 : c ≠ '0' := by
        intro h
        rw [h] at hc
        exact absurd hc (by decide)
      have hnum := scanNumber_stop neg digitVal 10 10 1 'e'
        (fun c hc => (space_chars c hc).1) (by decide) [] (c :: r) (Or.inr ⟨c, r, rfl, hc⟩)
      rw [scanNumber_nil, List.nil_append] at hnum
      simp only [List.nil_append, hi, hn, h0, if_false, false_and, hnum]
  | cons c u =>
    rw [List.cons_append]
    simp only []
    by_cases hi : lower c = 'i'
    · simp only [hi, if_true]
      have hm := matchWord_stop t ht ['i', 'n', 'f'] (c :: u) (by decide)
      rw [List.cons_append] at hm
      rw [hm]
      by_cases h3 : matchWord ['i', 'n', 'f'] (c :: u) = 3
      · have hlen : 3 ≤ (c :: u).length := h3 ▸ matchWord_le _ _
        have hd : (c :: (u ++ t)).drop 3 = (c :: u).drop 3 ++ t := by
          rw [← List.cons_append, List.drop_append_of_le_length hlen]
        have hk := matchWord_stop t ht ['i', 'n', 'i', 't', 'y'] ((c :: u).drop 3) (by decide)
        simp only [h3, if_true]
        rw [hd, hk]
        by_cases hk0 : matchWord ['i', 'n', 'i', 't', 'y'] ((c :: u).drop 3) = 0
        · simp only [hk0, if_true, Option.map_some']
        · by_cases hk5 : matchWord ['i', 'n', 'i', 't', 'y'] ((c :: u).drop 3) = 5
          · have hlen5 := matchWord_le ['i', 'n', 'i', 't', 'y'] ((c :: u).drop 3)
            rw [hk5, List.length_drop] at hlen5
            have hd8 : (c :: (u ++ t)).drop 8 = (c :: u).drop 8 ++ t := by
              rw [← List.cons_append, List.drop_append_of_le_length (by omega)]
            simp only [hk5, if_true, Option.map_some', hd8]
            rfl
          · simp only [hk0, hk5, if_false, Option.map_none']
      · simp only [h3, if_false, Option.map_none']
    · simp only [hi, if_false]
      by_cases hn : lower c = 'n'
      · simp only [hn, if_true]
        have hm := matchWord_stop t ht ['n', 'a', 'n'] (c :: u) (by decide)
        rw [List.cons_append] at hm
        rw [hm]
        by_cases h3 : matchWord ['n', 'a', 'n'] (c :: u) = 3
        · have hlen : 3 ≤ (c :: u).length := h3 ▸ matchWord_le _ _
          have hd : (c :: (u ++ t)).drop 3 = (c :: u).drop 3 ++ t := by
            rw [← List.cons_append, List.drop_append_of_le_length hlen]
          simp only [h3, if_true, Option.map_some']
          rw [hd]
        · simp only [h3, if_false, Option.map_none']
      · simp only [hn, if_false]
        by_cases hx : c = '0' ∧ u.head?.map lower = some 'x'
        · have hx2 : c = '0' ∧ (u ++ t).head?.map lower = some 'x' :=
            ⟨hx.1, (head_lower_stop u t ht).mpr hx.2⟩
          have hu : 1 ≤ u.length := by
            cases u with
            | nil => simp at hx
            | cons _ _ => simp
          rw [if_pos hx, if_pos hx2, List.drop_append_of_le_length hu]
          rw [scanNumber_stop neg hexVal 16 2 4 'p' (fun c hc => (space_chars c hc).2.1)
            (by decide) _ t ht]
          cases hnum : scanNumber neg hexVal 16 2 4 'p' (u.drop 1) with
          | some r => rfl
          | none =>
            simp only [Option.map_none']
            generalize u.drop 1 = v
            cases v with
            | nil =>
              rcases ht with h | ⟨d, r, h, hsp⟩
              · subst h; rfl
              · subst h
                have := (space_chars d hsp).2.2.1
                simp only [List.nil_append]
                split
                · rename_i heq
                  simp only [List.cons.injEq] at heq
                  exact absurd heq.1 this
                · rfl
            | cons a v2 =>
              by_cases ha : a = '.'
              · subst ha; rfl
              · simp only [List.cons_append]
                split
                · rename_i heq
                  simp only [List.cons.injEq] at heq
                  exact absurd heq.1 ha
                · split
                  · rename_i heq
                    simp only [List.cons.injEq] at heq
                    exact absurd heq.1 ha
                  · rfl
        · have hx2 : ¬ (c = '0' ∧ (u ++ t).head?.map lower = some 'x') :=
            fun h => hx ⟨h.1, (head_lower_stop u t ht).mp h.2⟩
          rw [if_neg hx, if_neg hx2, ← List.cons_append]
          exact scanNumber_stop neg digitVal 10 10 1 'e' (fun c hc => (space_chars c hc).1)
            (by decide) _ t ht

theorem skipws_stop (t : List Char) :
    ∀ s : List Char, skipws s ≠ [] → skipws (s ++ t) = skipws s ++ t := by
  intro s
  induction s with
  | nil => intro h; exact absurd rfl h
  | cons a u ih =>
    intro h
    by_cases ha : isspace a = true
    · have h1 : ∀ l, skipws (a :: l) = skipws l := by
        intro l
        simp [skipws, List.dropWhile, ha]
      rw [List.cons_append, h1, h1]
      rw [h1] at h
      exact ih h
    · have h1 : ∀ l, skipws (a :: l) = a :: l := by
        intro l
        simp [skipws, List.dropWhile, ha]
      rw [List.cons_append, h1, h1, List.cons_append]

theorem skipws_stop_nil (t : List Char) :
    ∀ s : List Char, skipws s = [] → skipws (s ++ t) = skipws t := by
  intro s
  induction s with
  | nil => intro _; rfl
  | cons a u ih =>
    intro h
    by_cases ha : isspace a = true
    · have h1 : ∀ l, skipws (a :: l) = skipws l := by
        intro l
        simp [skipws, List.dropWhile, ha]
      rw [List.cons_append, h1]
      rw [h1] at h
      exact ih h
    · have h1 : skipws (a :: u) = a :: u := by
        simp [skipws, List.dropWhile, ha]
      rw [h1] at h
      exact absurd h (by simp)

theorem scanFloat_skipws_stop (r t : List Char) (ht : stopsNumber t)
    (hws : skipws t = [] ∨ scanFloat (skipws r) ≠ none) :
    scanFloat (skipws (r ++ t)) = (scanFloat (skipws r)).map (fun x => (x.1, x.2 ++ t)) := by
  by_cases h0 : skipws r = []
  · rw [h0, scanFloat_nil] at hws
    rcases hws with h | h
    · rw [skipws_stop_nil t r h0, h, h0, scanFloat_nil]
      rfl
    · exact absurd rfl h
  · rw [skipws_stop t r h0]
    exact scanFloat_stop _ t ht

/-- Text appended to the parameter string changes nothing in what `sscanf`
assigns when the text is white space only, or when it begins with white space
(or is empty) and all four fields were assigned without it. -/
theorem sscanf_stop (p t : List Char) (ht : stopsNumber t)
    (h : skipws t = [] ∨ ∃ f b r c, sscanf p = Scan.fields f b r c) :
    sscanf (p ++ t) = sscanf p := by
  have hcount : ∀ n, sscanf p = Scan.count n → skipws t = [] := by
    intro n hn
    rcases h with h | ⟨f, b, r, c, hf⟩
    · exact h
    · rw [hn] at hf
      exact Scan.noConfusion hf
  have hsp : t = [] ∨ ∃ c r, t = c :: r ∧ (fun c => !isspace c) c = false := by
    rcases ht with h | ⟨c, r, h, hc⟩
    · exact Or.inl h
    · exact Or.inr ⟨c, r, h, by simp [hc]⟩
  by_cases h0 : skipws p = []
  · have hp : sscanf p = Scan.count (-1) := by simp [sscanf, h0]
    have hq : skipws (p ++ t) = [] := by rw [skipws_stop_nil t p h0, hcount _ hp]
    rw [hp]
    simp [sscanf, hq]
  · have hs := skipws_stop t p h0
    have hne : skipws p ++ t ≠ [] := by simp [h0]
    have htk := takeWhile_stop (fun c => !isspace c) t hsp (skipws p)
    have hdr := dropWhile_stop (fun c => !isspace c) t hsp (skipws p)
    by_cases hlen : 1000 ≤ ((skipws p).takeWhile (fun c => !isspace c)).length
    · simp only [sscanf, hs, hne, h0, if_false, htk, hlen, if_true]
    · cases h1 : scanFloat (skipws ((skipws p).dropWhile (fun c => !isspace c))) with
      | none =>
        have hp : sscanf p = Scan.count 1 := by
          simp only [sscanf, h0, if_false, hlen, h1]
        have e1 := scanFloat_skipws_stop ((skipws p).dropWhile (fun c => !isspace c)) t ht
          (Or.inl (hcount _ hp))
        rw [h1] at e1
        rw [hp]
        simp only [sscanf, hs, hne, if_false, htk, hdr, hlen, e1, Option.map_none']
      | some x1 =>
        obtain ⟨b, r1⟩ := x1
        have e1 := scanFloat_skipws_stop ((skipws p).dropWhile (fun c => !isspace c)) t ht
          (Or.inr (by rw [h1]; exact Option.some_ne_none _))
        rw [h1] at e1
        cases h2 : scanFloat (skipws r1) with
        | none =>
          have hp : sscanf p = Scan.count 2 := by
            simp only [sscanf, h0, if_false, hlen, h1, h2]
          have e2 := scanFloat_skipws_stop r1 t ht (Or.inl (hcount _ hp))
          rw [h2] at e2
          rw [hp]
          simp only [sscanf, hs, hne, if_false, htk, hdr, hlen, e1, Option.map_some', e2,
            Option.map_none']
        | some x2 =>
          obtain ⟨r, r2⟩ := x2
          have e2 := scanFloat_skipws_stop r1 t ht
            (Or.inr (by rw [h2]; exact Option.some_ne_none _))
          rw [h2] at e2
          cases h3 : scanFloat (skipws r2) with
          | none =>
            have hp : sscanf p = Scan.count 3 := by
              simp only [sscanf, h0, if_false, hlen, h1, h2, h3]
            have e3 := scanFloat_skipws_stop r2 t ht (Or.inl (hcount _ hp))
            rw [h3] at e3
            rw [hp]
            simp only [sscanf, hs, hne, if_false, htk, hdr, hlen, e1, Option.map_some', e2,
              e3, Option.map_none']
          | some x3 =>
            obtain ⟨c, r3⟩ := x3
            have e3 := scanFloat_skipws_stop r2 t ht
              (Or.inr (by rw [h3]; exact Option.some_ne_none _))
            rw [h3] at e3
            simp only [sscanf, hs, hne, h0, if_false, htk, hdr, hlen, e1, Option.map_some',
              e2, e3, h1, h2, h3]


/-- C19. Text after the fourth field is ignored: when `sscanf` assigns all four
fields on the parameter string `p`, then for every text `t` that begins with a
white-space character (a lone newline included) it assigns the same four
fields on `p ++ t`, and `tablelookup` on `p ++ t` returns what it returns on
`p` and leaves the same state, in every state. -/
theorem tablelookup_ignores_trailing (abi : ABI) (p t filename : List Char)
    (bytes_per_row row column : F32) (w : World)
    (hp : sscanf p = Scan.fields filename bytes_per_row row column)
    (ht : ∃ c u, t = c :: u ∧ isspace c = true) :
    sscanf (p ++ t) = Scan.fields filename bytes_per_row row column
    ∧ tablelookup abi (p ++ t) w = tablelookup abi p w := by
  have hs : sscanf (p ++ t) = sscanf p :=
    sscanf_stop p t (Or.inr ht) (Or.inr ⟨filename, bytes_per_row, row, column, hp⟩)
  refine ⟨hs.trans hp, ?_⟩
  unfold tablelookup
  rw [hs]

/-- C19, on the file `[10,20,30,40,50,60]`: `file.bin 2 1 0` followed by
further words and a newline, by a lone newline, and by a tab and a number all
give the byte 30 that `file.bin 2 1 0` gives. -/
theorem tablelookup_ignores_trailing_witness :
    (tablelookup ev3 ("file.bin 2 1 0".toList ++ " 7 and more\n".toList) fileBin
        = tablelookup ev3 "file.bin 2 1 0".toList fileBin
      ∧ tablelookup lp64 ("file.bin 2 1 0".toList ++ "\n".toList) fileBin
        = tablelookup lp64 "file.bin 2 1 0".toList fileBin
      ∧ tablelookup ev3 ("file.bin 2 1 0".toList ++ "\t255".toList) fileBin
        = tablelookup ev3 "file.bin 2 1 0".toList fileBin)
    ∧ returned (tablelookup ev3 "file.bin 2 1 0".toList fileBin) = some 30 :=
  ⟨⟨(tablelookup_ignores_trailing ev3 "file.bin 2 1 0".toList " 7 and more\n".toList
        "file.bin".toList (roundF32 false 2 1) (roundF32 false 1 1) (roundF32 false 0 1)
        fileBin (by decide) ⟨' ', "7 and more\n".toList, rfl, by decide⟩).2,
     (tablelookup_ignores_trailing lp64 "file.bin 2 1 0".toList "\n".toList
        "file.bin".toList (roundF32 false 2 1) (roundF32 false 1 1) (roundF32 false 0 1)
        fileBin (by decide) ⟨'\n', [], rfl, by decide⟩).2,
     (tablelookup_ignores_trailing ev3 "file.bin 2 1 0".toList "\t255".toList
        "file.bin".toList (roundF32 false 2 1) (roundF32 false 1 1) (roundF32 false 0 1)
        fileBin (by decide) ⟨'\t', "255".toList, rfl, by decide⟩).2⟩,
   by decide⟩

/-! ## The two run modes -/

/-- The newline that `fgets` leaves at the end of a line changes nothing in
what `processcommand` does with the line. -/
theorem processcommand_newline (abi : ABI) (c : List Char) (w : World) :
    processcommand abi (c ++ ['\n']) w = processcommand abi c w := by
  by_cases h : "tablelookup ".toList <+: c
  · obtain ⟨t, ht⟩ := h
    subst ht
    rw [List.append_assoc, processcommand_keyword, processcommand_keyword]
    have hs := sscanf_stop t ['\n'] (Or.inr ⟨'\n', [], rfl, by decide⟩) (Or.inl (by decide))
    unfold tablelookup
    rw [hs]
  · have h2 : ¬ "tablelookup ".toList <+: c ++ ['\n'] := by
      intro hp
      rcases List.prefix_concat_iff.mp hp with he | hp2
      · have hm : '\n' ∈ "tablelookup ".toList := by
          rw [he]
          simp
        exact absurd hm (by decide)
      · exact h hp2
    unfold processcommand
    rw [if_neg (mt (strstr_zero_iff _ _).mp h), if_neg (mt (strstr_zero_iff _ _).mp h2)]

/-- The read loop on one input line of at most 998 characters: the line is
processed once and its result code is written. -/
theorem pipeLoop_one_line (abi : ABI) (c : List Char) (w : World)
    (hlen : c.length ≤ 998) (hnl : '\n' ∉ c) (hnul : '\x00' ∉ c) :
    pipeLoop abi (c ++ ['\n']) w
      = (processcommand abi c w).map (fun x => (printf_d x.1, x.2)) := by
  have hf := fgets_line c [] hnl hlen
  have hcs : cstr (c ++ ['\n']) = c ++ ['\n'] := by
    apply cstr_eq_self
    simp only [List.mem_append, List.mem_singleton, not_or]
    exact ⟨hnul, by decide⟩
  have h3 : pipeLoop abi [] = fun w2 => some ([], w2) := by
    funext w2
    rw [pipeLoop_eq]
    rfl
  rw [pipeLoop_eq, hf]
  simp only []
  rw [h3]
  unfold answerLine
  rw [hcs, processcommand_newline]
  cases processcommand abi c w with
  | none => rfl
  | some x => simp [seqOut]

/-- Single-invocation mode as one equation: when the joined arguments fit into
`buffer`, the run is the one call of `processcommand` on them. -/
theorem main_single_eq (abi : ABI) (prog arg1 : List Char) (rest : List (List Char))
    (stdin : List Char) (w : World) (hfit : (arg1 ++ joinParams rest).length < 1000) :
    main abi (prog :: arg1 :: rest) stdin w
      = (processcommand abi (arg1 ++ joinParams rest) w).map
          (fun x => { stdout := [], status := x.1, world := x.2 }) := by
  have h1 : arg1.length < 1000 := by
    simp only [List.length_append] at hfit
    omega
  have hj : joinLoop arg1 rest = some (arg1 ++ joinParams rest) := by
    rw [joinLoop_eq rest arg1 h1, if_pos hfit]
  simp only [main, strcpy, h1, if_true, hj]
  cases processcommand abi (arg1 ++ joinParams rest) w with
  | none => rfl
  | some x => rfl

/-- An input line of exactly 999 characters is read in two pieces: the line
without its newline, then the newline alone. -/
theorem pipeLoop_full_line (abi : ABI) (l : List Char) (w : World)
    (hlen : l.length = 999) (hnl : '\n' ∉ l) :
    pipeLoop abi (l ++ ['\n']) w
      = seqOut (answerLine abi l w)
          (fun w1 => seqOut (answerLine abi ['\n'] w1) (fun w2 => some ([], w2))) := by
  have hfull := readLine_full l ['\n'] hnl
  rw [hlen] at hfull
  have hne : l ++ ['\n'] ≠ [] := by simp
  have hf1 : fgets 1000 (l ++ ['\n']) = some (l, ['\n']) := by
    simp only [fgets, hne, if_false, Nat.add_one_sub_one]
    rw [hfull]
  have hf2 : fgets 1000 ['\n'] = some (['\n'], []) := by
    simp [fgets, readLine]
  have hf3 : fgets 1000 ([] : List Char) = none := rfl
  have h3 : pipeLoop abi [] = fun w2 => some ([], w2) := by
    funext w2
    rw [pipeLoop_eq, hf3]
  have h2 : pipeLoop abi ['\n']
      = fun w1 => seqOut (answerLine abi ['\n'] w1) (fun w2 => some ([], w2)) := by
    funext w1
    rw [pipeLoop_eq, hf2]
    simp only []
    rw [h3]
  rw [pipeLoop_eq, hf1]
  simp only []
  rw [h2]

theorem longCommand_facts :
    "tablelookup".toList ++ joinParams longArgs.tail = longCommand
    ∧ longCommand.length = 999 ∧ '\n' ∉ longCommand ∧ '\x00' ∉ longCommand := by
  have hmem : ∀ c ∈ List.replicate 972 'x', c = 'x' := fun c hc => (List.mem_replicate.mp hc).2
  refine ⟨?_, ?_, ?_, ?_⟩
  · unfold longArgs longCommand
    generalize List.replicate 972 'x' = pad
    simp [joinParams]
  · unfold longCommand
    rw [List.length_append, List.length_replicate]
    rfl
  · unfold longCommand
    rw [List.mem_append]
    rintro (h | h)
    · exact absurd h (by decide)
    · exact absurd (hmem _ h) (by decide)
  · unfold longCommand
    rw [List.mem_append]
    rintro (h | h)
    · exact absurd h (by decide)
    · exact absurd (hmem _ h) (by decide)

/-- The long command is answered with byte 2 of `file.bin`: its sixth word is
text after the fourth field. -/
theorem processcommand_longCommand :
    ∃ w1, processcommand ev3 longCommand fileBin = some (30, w1) := by
  have hs : sscanf ("file.bin 2 1 0".toList ++ ' ' :: List.replicate 972 'x')
      = sscanf "file.bin 2 1 0".toList :=
    sscanf_stop _ _ (Or.inr ⟨' ', _, rfl, by decide⟩)
      (Or.inr ⟨"file.bin".toList, roundF32 false 2 1, roundF32 false 1 1,
        roundF32 false 0 1, by decide⟩)
  have hc : longCommand
      = "tablelookup ".toList ++ ("file.bin 2 1 0".toList ++ ' ' :: List.replicate 972 'x') := by
    unfold longCommand
    generalize List.replicate 972 'x' = pad
    rfl
  have ht : processcommand ev3 longCommand fileBin
      = tablelookup ev3 "file.bin 2 1 0".toList fileBin := by
    rw [hc, processcommand_keyword]
    unfold tablelookup
    rw [hs]
  rw [ht]
  exact ⟨_, rfl⟩

/-- C18 as stated fails for a command of 999 characters. The six words of
`longArgs` joined with single spaces are the command `longCommand` of 999
characters without a newline. As arguments of single-invocation mode they fit
into `buffer` and the status is 30. As an input line of persistent mode,
`fgets (buffer, 1000, stdin)` takes the 999 characters and leaves the newline
for the next iteration, so two numbers are written for the line: 30 and 255. -/
theorem main_modes_long_command_counterexample :
    ("tablelookup".toList ++ joinParams longArgs.tail = longCommand
      ∧ longCommand.length = 999 ∧ '\n' ∉ longCommand)
    ∧ (main ev3 ("native".toList :: longArgs) [] fileBin).map (fun run => run.status) = some 30
    ∧ (main ev3 ["native".toList] (longCommand ++ ['\n']) fileBin).map (fun run => run.stdout)
        = some "30\n255\nEnding native code process...\n".toList := by
  obtain ⟨hjoin, hlen, hnl, hnul⟩ := longCommand_facts
  obtain ⟨w1, hp⟩ := processcommand_longCommand
  refine ⟨⟨hjoin, hlen, hnl⟩, ?_, ?_⟩
  · have hfit : ("tablelookup".toList ++ joinParams longArgs.tail).length < 1000 := by
      rw [hjoin, hlen]
      decide
    have hm := main_single_eq ev3 "native".toList "tablelookup".toList longArgs.tail []
      fileBin hfit
    rw [hjoin, hp] at hm
    have ha : "native".toList :: longArgs
        = "native".toList :: "tablelookup".toList :: longArgs.tail := rfl
    rw [ha, hm]
    rfl
  · have hl := pipeLoop_full_line ev3 longCommand fileBin hlen hnl
    have h1 : answerLine ev3 longCommand fileBin = some (printf_d 30, w1) := by
      unfold answerLine
      rw [cstr_eq_self _ hnul, hp]
    have h2 : answerLine ev3 ['\n'] w1 = some (printf_d 255, w1) :=
      answerLine_unrecognized ev3 ['\n'] w1 (by decide)
    rw [h1] at hl
    simp only [seqOut, h2] at hl
    unfold main
    simp only []
    rw [hl]
    simp only [Option.map_some', Option.some.injEq]
    decide

/-- C18, amended. For every command `c` of at most 998 characters without a
newline (and, its words being C strings, without a NUL) that is the arguments
`arg1`, ..., joined with single spaces, and every state:
persistent mode on the input line `c` followed by a newline writes exactly one
line before its termination line, the rendering by `%d` of the status that
single-invocation mode started with these arguments passes to `exit`; both
runs are undefined together. That status is in `0 .. 255` where plain `char`
is unsigned, and for every status in `0 .. 255` the line written is a decimal
numeral whose value is the exit status a waiting parent sees. -/
theorem main_modes_agree (abi : ABI) (prog arg1 : List Char) (rest : List (List Char))
    (stdin : List Char) (w : World)
    (hlen : (arg1 ++ joinParams rest).length ≤ 998)
    (hnl : '\n' ∉ arg1 ++ joinParams rest) (hnul : '\x00' ∉ arg1 ++ joinParams rest) :
    (main abi [prog] (arg1 ++ joinParams rest ++ ['\n']) w).map (fun run => run.stdout)
      = (main abi (prog :: arg1 :: rest) stdin w).map
          (fun run => printf_d run.status ++ ending)
    ∧ ∀ run : Run, main abi (prog :: arg1 :: rest) stdin w = some run →
        (abi.charSigned = false → 0 ≤ run.status ∧ run.status ≤ 255)
        ∧ (0 ≤ run.status → run.status ≤ 255 →
            isDecimal (renderInt run.status) = true
            ∧ exitStatus run.status = (decimalValue (renderInt run.status) : Int)) := by
  have hm := main_single_eq abi prog arg1 rest stdin w (by omega)
  have hl := pipeLoop_one_line abi (arg1 ++ joinParams rest) w hlen hnl hnul
  constructor
  · rw [hm]
    unfold main
    simp only []
    rw [hl]
    cases processcommand abi (arg1 ++ joinParams rest) w with
    | none => rfl
    | some x => rfl
  · intro run hrun
    rw [hm] at hrun
    cases hp : processcommand abi (arg1 ++ joinParams rest) w with
    | none =>
      rw [hp] at hrun
      simp at hrun
    | some x =>
      obtain ⟨r, w1⟩ := x
      rw [hp] at hrun
      simp only [Option.map_some', Option.some.injEq] at hrun
      subst hrun
      refine ⟨fun hu => processcommand_range_unsigned abi hu _ w w1 r hp, ?_⟩
      intro h0 h255
      simp only [] at h0 h255 ⊢
      obtain ⟨n, hn⟩ : ∃ n : Nat, r = (n : Int) := ⟨r.toNat, by omega⟩
      subst hn
      have hb := renderInt_byte ⟨n, by omega⟩
      simp only [] at hb
      refine ⟨hb.1, ?_⟩
      rw [hb.2.1]
      unfold exitStatus
      omega

/-- C18 amended, at the second scenario of the specification: the command
`tablelookup file.bin 2 2 1` gives the exit status 60 in single-invocation
mode and the output line `60` in persistent mode. -/
theorem main_modes_agree_witness :
    (main ev3 ["native".toList] "tablelookup file.bin 2 2 1\n".toList fileBin).map
        (fun run => run.stdout)
      = some "60\nEnding native code process...\n".toList
    ∧ (main ev3 ["native".toList, "tablelookup".toList, "file.bin".toList, "2".toList,
        "2".toList, "1".toList] [] fileBin).map (fun run => exitStatus run.status) = some 60 :=
  ⟨((main_modes_agree ev3 "native".toList "tablelookup".toList
        ["file.bin".toList, "2".toList, "2".toList, "1".toList] [] fileBin
        (by decide) (by decide) (by decide)).1).trans (by rfl),
   by rfl⟩

end EV3Native
